import Mathlib

/-!
Verification of the workflow graph compiler of `actions-workflow-tools`
(`lib/workflow-preprocessor.js`) and the path-matching of its local runner
(`run.js`), via a shallow embedding.

Conventions of the embedding:
* JS objects used as string-keyed maps (`ctx.nodes`, `assignedPathIds`,
  `before` / `after` edge sets) are modelled as insertion-ordered association
  lists, because `Object.keys` enumerates string keys in insertion order and
  the compiler's determinism depends on that order.
* JS exceptions (`throw new Error`, `TypeError` from touching a field of
  `undefined`) are modelled with `Except Err`.
* Unbounded recursion in the source (`propagatePaths`, `addSetup`,
  `kahnsAlgorithm`'s while loop) is modelled with explicit fuel; running out
  of fuel is a distinguished error that does not occur in the situations the
  theorems describe.
-/

namespace WPre

/-- JS `Error`/`TypeError` distinction: `typeError` models the runtime
errors JS raises by itself (reading a property of `undefined`), `error`
models explicit `throw new Error(msg)`.  `fuel` models non-termination of
the JS original (stack overflow / infinite loop), which has no JS message. -/
inductive Err where
  | error (msg : String)
  | typeError (msg : String)
  | fuel
deriving DecidableEq

/-- Insertion-ordered string-keyed map, as a plain association list. -/
abbrev OM (V : Type) := List (String × V)

/-- `m[k]` on a JS object: the value at `k`, if present. -/
def omFind {V : Type} (m : OM V) (k : String) : Option V :=
  (m.find? (fun p => p.1 = k)).map (·.2)

/-- `m[k] = v` on a JS object: overwrite in place if the key exists,
append at the end otherwise (insertion order!). -/
def omInsert {V : Type} (m : OM V) (k : String) (v : V) : OM V :=
  if (omFind m k).isSome then m.map (fun p => if p.1 = k then (p.1, v) else p)
  else m ++ [(k, v)]

/-- Update the value at key `k` (no-op when absent). -/
def omMod {V : Type} (m : OM V) (k : String) (f : V → V) : OM V :=
  m.map (fun p => if p.1 = k then (p.1, f p.2) else p)

/-- `Object.keys m`, in insertion order. -/
def omKeys {V : Type} (m : OM V) : List String := m.map (·.1)

/-- JS `obj[k] = true` on an object used as a set of keys:
no change when present, append when absent. -/
def setInsert (s : List String) (k : String) : List String :=
  if k ∈ s then s else s ++ [k]

/-- JS `delete obj[k]` on an object used as a set of keys. -/
def setErase (s : List String) (k : String) : List String :=
  s.filter (fun x => x ≠ k)

/-- `list.join(sep)`. -/
def joinSep (sep : String) : List String → String
  | [] => ""
  | [x] => x
  | x :: xs => x ++ sep ++ joinSep sep xs

/-! ## Glob-pattern translation (`compilePaths`, lines 130-163, and
`matchPath` of the local runner, lines 61-81 of `run.js`).

Both functions turn a glob-like pattern into an anchored regular expression
built from exactly three kinds of pieces: a literal character (the compiler
escapes `.` to `\.` and feeds the result to `grep`; the runner escapes every
regex metacharacter and feeds the result to JS `RegExp`), the segment
wildcard `[^/]*`, and the global wildcard `.*`.  We represent such a regex
as a list of tokens and give the tokens their regex meaning directly. -/

/-- One piece of the produced anchored regex. -/
inductive GTok where
  /-- a literal character (`\.` for a dot, the raw character otherwise) -/
  | lit (c : Char)
  /-- `[^/]*`: any run of non-separator characters -/
  | seg
  /-- `.*`: any run of characters -/
  | all
deriving DecidableEq

/-- The compiler's translation (`compilePaths`, lines 137-151): scan left to
right; at each position first try to consume `**/*` (the first regex
alternative), otherwise a maximal run of `*`s — one star becomes `[^/]*`,
two become `.*`, three or more throw.  `.` was escaped beforehand, which the
token form records by giving `lit '.'` the `\.` rendering. -/
def globScanC (orig : String) : List Char → Except String (List GTok)
  | [] => .ok []
  | '*' :: '*' :: '/' :: '*' :: rest => (fun ts => .all :: ts) <$> globScanC orig rest
  | '*' :: '*' :: '*' :: _ =>
      .error ("Invalid pattern: " ++ orig ++ " - only * and ** replacements are supported")
  | '*' :: '*' :: rest => (fun ts => .all :: ts) <$> globScanC orig rest
  | '*' :: rest => (fun ts => .seg :: ts) <$> globScanC orig rest
  | c :: rest => (fun ts => .lit c :: ts) <$> globScanC orig rest

/-- Tokens of a pattern as `compilePaths` translates it. -/
def globTokensC (p : String) : Except String (List GTok) :=
  globScanC p p.toList

/-- Greedy run of the runner-side group `(:?\*)+` applied to the escaped
pattern: repeatedly consume an optional `:` followed by a (escaped) `*`.
Returns (number of stars, whether any colon was consumed, rest). -/
def csRun : List Char → Nat × Bool × List Char
  | '*' :: rest =>
      let r := csRun rest
      (r.1 + 1, r.2.1, r.2.2)
  | ':' :: '*' :: rest =>
      let r := csRun rest
      (r.1 + 1, true, r.2.2)
  | l => (0, false, l)

theorem csRun_length (l : List Char) : (csRun l).2.2.length ≤ l.length := by
  induction l using csRun.induct with
  | case1 rest ih => simpa [csRun] using Nat.le_succ_of_le ih
  | case2 rest ih =>
      simp only [csRun, List.length_cons]
      omega
  | case3 l h1 h2 =>
      rw [csRun.eq_def]
      split <;> simp_all

/-- The runner's translation (`matchPath`, lines 65-75 of `run.js`): after
escaping every metacharacter, replace `\*\*/\*` or a maximal greedy run of
`(:?\*)+` — the run becomes `.*` exactly when the consumed text is `\*\*`
(two stars, no colon) and `[^/]*` otherwise.  Note the group's `(:?` (a
literal optional colon — evidently a typo for `(?:`) makes the run swallow
colons that sit directly before a star. -/
def globScanM (l : List Char) : List GTok :=
  match l with
  | [] => []
  | '*' :: '*' :: '/' :: '*' :: rest => .all :: globScanM rest
  | '*' :: rest =>
      let r := csRun rest
      (if r.1 + 1 = 2 ∧ r.2.1 = false then GTok.all else GTok.seg) :: globScanM r.2.2
  | ':' :: '*' :: rest =>
      let r := csRun rest
      GTok.seg :: globScanM r.2.2
  | c :: rest => .lit c :: globScanM rest
termination_by l.length
decreasing_by
  · simp; omega
  · simp only [List.length_cons]
    have := csRun_length rest
    omega
  · simp only [List.length_cons]
    have := csRun_length rest
    omega
  · simp

/-- Tokens of a pattern as `matchPath` translates it. -/
def globTokensM (p : String) : List GTok := globScanM p.toList

/-- Matching a single wildcard token followed by a continuation: try the
continuation at every split point; `seg` (`[^/]*`) refuses to consume a
separator, `all` (`.*`) consumes anything. -/
def gmStar (isAll : Bool) (cont : List Char → Bool) : List Char → Bool
  | [] => cont []
  | f :: fs => cont (f :: fs) || ((isAll || !(f = '/')) && gmStar isAll cont fs)

/-- Semantics of the produced anchored regex (`^...$` / a full `match`):
does the token list match the whole character list? -/
def gmatch : List GTok → List Char → Bool
  | [], fs => fs.isEmpty
  | .lit c :: ts, fs =>
      match fs with
      | [] => false
      | f :: fs2 => c = f && gmatch ts fs2
  | .seg :: ts, fs => gmStar false (gmatch ts) fs
  | .all :: ts, fs => gmStar true (gmatch ts) fs

/-- `matchPath(path, file)` of the local runner: anchored regex test of the
translated pattern against the file name. -/
def matchPath (p f : String) : Bool :=
  gmatch (globTokensM p) f.toList

/-! ## The data model (`Step`, `Setup`, lines 170-228). -/

/-- `string | Array<string>` fields. -/
abbrev StrOrList := Sum String (List String)

/-- A workflow step.  `if` and `with`/`local` are renamed (`ifCond`,
`isLocal`) because they are Lean keywords; `bail_if` and the rest keep the
field names of the source.  Fields irrelevant to the compiler (`with`,
`working-directory`, `uses` arguments) are carried opaquely or omitted. -/
structure Step where
  id : Option String := none
  name : Option String := none
  run : Option String := none
  uses : Option String := none
  ifCond : Option String := none
  bail_if : Option String := none
  setup : Option StrOrList := none
  paths : Option StrOrList := none
  isLocal : Option Bool := none
  local_env_flag : Option String := none
deriving DecidableEq

/-- A setup group: either a bare list of steps, or a record with optional
nested setup references and an optional steps list (`steps:` may be absent
from the YAML record, which the compiler treats differently from an empty
list). -/
inductive Setup where
  | steps (steps : List Step)
  | config (setup : Option StrOrList) (steps : Option (List Step))
deriving DecidableEq

/-- `setupList` (lines 54-55): normalize an optional string-or-array to a
list.  A present but empty string is JS-falsy and yields `[]` exactly like
an absent field. -/
def setupList : Option StrOrList → List String
  | none => []
  | some (.inl s) => if s = "" then [] else [s]
  | some (.inr l) => l

/-- JS truthiness of an optional string (absent and `""` are falsy). -/
def jsTruthy : Option String → Bool
  | none => false
  | some s => s ≠ ""

/-! ## `compilePaths` (lines 130-163). -/

/-- Render one token of the compiler's regex: this is the piece of text the
two `.replace` passes of `compilePaths` actually emit (`.` was escaped to
`\.` by the first pass, star runs were rewritten by the second). -/
def renderTokC : GTok → String
  | .lit '.' => "\\."
  | .lit c => String.singleton c
  | .seg => "[^/]*"
  | .all => ".*"

/-- The regex text `compilePaths` produces for one pattern. -/
def renderRegexC (ts : List GTok) : String :=
  String.join (ts.map renderTokC)

/-- The shell fragment emitted per pattern (lines 152-156): an anchored
`grep` over the changed-file list; on a match, output `changed=true` and
stop. -/
def grepBlock (re : String) : String :=
  "if [[ -n $(git diff --name-only refs/remotes/origin/$GITHUB_BASE_REF --relative | grep '^"
    ++ re ++ "$') ]]\nthen\necho \"::set-output name=changed::true\"\nexit 0\nfi"

/-- The trailing fragment (lines 159-161): no pattern matched. -/
def noMatchFooter : String :=
  "\necho \"::set-output name=changed::false\"\nexit 0"

/-- Translate each pattern in order; the JS `.map` callback throws out of
the whole loop at the first unsupported pattern. -/
def translateAll : List String → Except String (List (List GTok))
  | [] => .ok []
  | p :: ps =>
      match globTokensC p with
      | .error e => .error e
      | .ok t =>
          match translateAll ps with
          | .error e => .error e
          | .ok ts => .ok (t :: ts)

/-- `compilePaths(id, paths)`: translate every pattern (the first bad one
throws) and assemble the check step. -/
def compilePaths (id : String) (paths : List String) : Except Err Step :=
  match translateAll paths with
  | .error e => .error (.error e)
  | .ok toks =>
      .ok { id := some id,
            name := some ("Check paths: " ++ joinSep ", " paths),
            run := some (joinSep "\n\n" (toks.map (fun ts => grepBlock (renderRegexC ts)))
                          ++ noMatchFooter) }

/-- Run-time meaning of the emitted check step's shell script: scan the
pattern blocks in order; the first block whose anchored regex matches some
changed file exits with `changed=true`; if no block matches, the footer
reports `changed=false`.  The resulting flag is therefore: does any pattern
match any changed file? -/
def pathsCheckChanged (toks : List (List GTok)) (files : List String) : Bool :=
  toks.any (fun ts => files.any (fun f => gmatch ts f.toList))

/-- Does the pattern contain a run of three or more consecutive stars?
(The acceptance condition claimed in the spec.) -/
def hasTripleStar : List Char → Bool
  | '*' :: '*' :: '*' :: _ => true
  | _ :: rest => hasTripleStar rest
  | [] => false

/-- Is an `Except` a success? -/
def isOkE {ε α : Type} : Except ε α → Bool
  | .ok _ => true
  | .error _ => false

/-- Characters for which the two translations' literal handling agrees
exactly (no regex metacharacter subtleties, no colon-swallowing). -/
def safePatternChar (c : Char) : Bool :=
  c.isAlphanum || c = '/' || c = '_' || c = '-' || c = '.' || c = '*'

/-! ## The dependency graph (`Node`, `Context`, lines 208-254). -/

/-- What a node stands for.  `setup` stores the looked-up setup record; the
lookup result can be `undefined` when the setup id is invalid (`addSetup`
stores it first and throws immediately afterwards), hence the `Option`. -/
inductive NodeContent where
  | paths (paths : List String)
  | step (step : Step)
  | setup (setup : Option Setup)
deriving DecidableEq

/-- A graph node: its content, the optional set of path-check ids it is
conditioned on (`null` = unconditional), and the `before`/`after` adjacency
key sets (`before` = nodes that must run before this one). -/
structure Node where
  id : String
  contents : NodeContent
  pathDeps : Option (List String)
  before : List String
  after : List String
deriving DecidableEq

/-- The per-job compilation context. -/
structure Ctx where
  nodes : OM Node
  setupSteps : OM Setup
deriving DecidableEq

/-- `addEdge` (lines 165-168): record `childKey` in `parentKey.before` and
`parentKey` in `childKey.after`.  Touching a missing node is the JS
`TypeError`; the half-done mutation JS leaves behind in that case is
unobservable (the context is discarded when the exception propagates), so
the model checks both keys up front. -/
def addEdge (ctx : Ctx) (parentKey childKey : String) : Except Err Ctx :=
  match omFind ctx.nodes parentKey with
  | none => .error (.typeError ("no node " ++ parentKey))
  | some _ =>
      let nodes1 := omMod ctx.nodes parentKey
        (fun n => { n with before := setInsert n.before childKey })
      match omFind nodes1 childKey with
      | none => .error (.typeError ("no node " ++ childKey))
      | some _ =>
          let nodes2 := omMod nodes1 childKey (fun n => { n with after := setInsert n.after parentKey })
          .ok { ctx with nodes := nodes2 }

/-- The `pathDeps` value `addNode` builds (lines 240-245): `null` for no
path ids, otherwise the key set of the ids. -/
def initialPathDeps (pathIds : List String) : Option (List String) :=
  if pathIds.isEmpty then none else some (pathIds.foldl setInsert [])

/-- Add the `id → pathId` dependency edges of a fresh node (line 253). -/
def addEdgeAll (ctx : Ctx) (id : String) : List String → Except Err Ctx
  | [] => .ok ctx
  | p :: ps =>
      match addEdge ctx id p with
      | .error e => .error e
      | .ok c1 => addEdgeAll c1 id ps

/-- `addNode` (lines 231-254): no-op when the id exists; otherwise append a
fresh node (empty adjacency) and add an edge to every path id. -/
def addNode (ctx : Ctx) (id : String) (contents : NodeContent)
    (pathIds : List String) : Except Err Ctx :=
  if (omFind ctx.nodes id).isSome then .ok ctx
  else
    let nd : Node :=
      { id := id, contents := contents, pathDeps := initialPathDeps pathIds,
        before := [], after := [] }
    addEdgeAll { ctx with nodes := ctx.nodes ++ [(id, nd)] } id pathIds

/-- The mutation loop of `propagatePaths` (lines 283-286): for each path
id, set it in the node's (non-null) `pathDeps` and add the edge. -/
def addDepsAndEdges (ctx : Ctx) (key : String) : List String → Except Err Ctx
  | [] => .ok ctx
  | p :: ps =>
      let nodes1 := omMod ctx.nodes key (fun n => { n with pathDeps := n.pathDeps.map (fun d => setInsert d p) })
      let ctx1 : Ctx := { ctx with nodes := nodes1 }
      match addEdge ctx1 key p with
      | .error e => .error e
      | .ok ctx2 => addDepsAndEdges ctx2 key ps

/-- Sequential recursion of `propagatePaths` over a key snapshot, with the
recursive call passed in (so that the recursion on fuel below stays
structural). -/
def propagateListGo (f : Ctx → String → List String → Except Err Ctx) :
    Ctx → List String → List String → Except Err Ctx
  | ctx, [], _ => .ok ctx
  | ctx, k :: ks, pathIds =>
      match f ctx k pathIds with
      | .error e => .error e
      | .ok ctx1 => propagateListGo f ctx1 ks pathIds

/-- `propagatePaths` (lines 276-292): with no path ids, clear the node's
conditions; otherwise widen a non-null condition set (adding edges); then
recurse into every key of the node's (current) `before` set.  The JS
original recurses without bound — `fuel` models its call stack. -/
def propagatePaths : Nat → Ctx → String → List String → Except Err Ctx
  | 0, _, _, _ => .error .fuel
  | fuel + 1, ctx, key, pathIds =>
      match omFind ctx.nodes key with
      | none => .error (.typeError ("no node " ++ key))
      | some nd =>
          let step1 : Except Err Ctx :=
            if pathIds.isEmpty then
              .ok { ctx with nodes := omMod ctx.nodes key (fun n => { n with pathDeps := none }) }
            else
              match nd.pathDeps with
              | none => .ok ctx
              | some _ => addDepsAndEdges ctx key pathIds
          match step1 with
          | .error e => .error e
          | .ok ctx1 =>
              match omFind ctx1.nodes key with
              | none => .error (.typeError ("no node " ++ key))
              | some nd1 => propagateListGo (propagatePaths fuel) ctx1 nd1.before pathIds

/-- The recursion of `propagatePaths` over a snapshot, at a given fuel. -/
def propagateList (fuel : Nat) : Ctx → List String → List String → Except Err Ctx :=
  propagateListGo (propagatePaths fuel)

/-- The `forEach` loop of `processSetup` (lines 262-265), with the
recursive `addSetup` call passed in: resolve each referenced setup and
make `parentKey` depend on it. -/
def processSetupListGo (f : Ctx → String → List String → Except Err (String × Ctx)) :
    Ctx → String → List String → List String → Except Err Ctx
  | ctx, _, [], _ => .ok ctx
  | ctx, parentKey, sid :: rest, pathIds =>
      match f ctx sid pathIds with
      | .error e => .error e
      | .ok (childKey, ctx1) =>
          match addEdge ctx1 parentKey childKey with
          | .error e => .error e
          | .ok ctx2 => processSetupListGo f ctx2 parentKey rest pathIds

/-- `addSetup` (lines 294-316): the `checkout` setup never takes path
conditions; an existing node gets the new conditions propagated; a fresh
node is created (storing the — possibly missing — setup record), an
invalid setup id throws, and a record setup has its nested references
processed with the same path ids. -/
def addSetup : Nat → Ctx → String → List String → Except Err (String × Ctx)
  | 0, _, _, _ => .error .fuel
  | fuel + 1, ctx, setupId, pathIds0 =>
      let key := "setup-" ++ setupId
      let pathIds := if key = "setup-checkout" then [] else pathIds0
      if (omFind ctx.nodes key).isSome then
        match propagatePaths fuel ctx key pathIds with
        | .error e => .error e
        | .ok ctx1 => .ok (key, ctx1)
      else
        match addNode ctx key (.setup (omFind ctx.setupSteps setupId)) pathIds with
        | .error e => .error e
        | .ok ctx1 =>
            match omFind ctx.setupSteps setupId with
            | none => .error (.error ("Invalid setupId: " ++ setupId))
            | some (.steps _) => .ok (key, ctx1)
            | some (.config s _) =>
                match processSetupListGo (addSetup fuel) ctx1 key (setupList s) pathIds with
                | .error e => .error e
                | .ok ctx2 => .ok (key, ctx2)

/-- `processSetup` (lines 256-266), at a given fuel. -/
def processSetup : Nat → Ctx → String → Option StrOrList → List String → Except Err Ctx
  | 0, _, _, _, _ => .error .fuel
  | fuel + 1, ctx, parentKey, sref, pathIds =>
      processSetupListGo (addSetup fuel) ctx parentKey (setupList sref) pathIds

/-- The `forEach` loop of `processSetup`, at a given fuel. -/
def processSetupList (fuel : Nat) : Ctx → String → List String → List String → Except Err Ctx :=
  processSetupListGo (addSetup fuel)

/-- Insert into a sorted list (for `paths.sort()`). -/
def insertSorted (x : String) : List String → List String
  | [] => [x]
  | y :: ys => if x ≤ y then x :: y :: ys else y :: insertSorted x ys

/-- JS `Array.prototype.sort` on strings (lexicographic). -/
def sortStrings (l : List String) : List String := l.foldr insertSorted []

/-- `addPaths` (lines 268-274): normalize to a list, sort, build the
deduplicating node id `paths-<sorted patterns joined by #>`, add the node
(storing the sorted patterns) and return its id. -/
def addPaths (ctx : Ctx) (paths : StrOrList) : Except Err (Ctx × String) :=
  let ps := match paths with | .inl s => [s] | .inr l => l
  let sorted := sortStrings ps
  let pathsId := "paths-" ++ joinSep "#" sorted
  match addNode ctx pathsId (.paths sorted) [] with
  | .error e => .error e
  | .ok ctx1 => .ok (ctx1, pathsId)

/-! ## `makePathsId` and the process-wide registry (lines 330-352). -/

/-- The `assignedPathIds` registry: generated key → pattern list. -/
abbrev Reg := OM (List String)

/-- JS `\w`: ASCII alphanumerics and underscore. -/
def isWordChar (c : Char) : Bool := c.isAlphanum || c = '_'

mutual

/-- `path.replace(/\W+/g, '_')`: word characters pass through. -/
def sanW : List Char → List Char
  | [] => []
  | c :: rest => if isWordChar c then c :: sanW rest else '_' :: sanNW rest

/-- After emitting the `_` for a non-word run: skip the rest of the run. -/
def sanNW : List Char → List Char
  | [] => []
  | c :: rest => if isWordChar c then c :: sanW rest else sanNW rest

end

/-- Collapse runs of non-word characters to a single underscore. -/
def sanitize (p : String) : String := String.mk (sanW p.toList)

/-- The canonical registry key text for a pattern list (line 332-333). -/
def pathsText (paths : List String) : String :=
  "paths_" ++ joinSep "__" (paths.map sanitize)

/-- The `while (num < 1000)` probe loop of `makePathsId`: claim the first
key (`text`, `text-1`, `text-2`, …) that is either free — inserting the
pattern list — or already mapped to an equal pattern list. -/
def makePathsIdAux : Nat → String → List String → Nat → Reg → Option (String × Reg)
  | 0, _, _, _, _ => none
  | fuel + 1, text, paths, num, reg =>
      let key := if num = 0 then text else text ++ "-" ++ toString num
      match omFind reg key with
      | none => some (key, omInsert reg key paths)
      | some prev =>
          if prev = paths then some (key, reg)
          else makePathsIdAux fuel text paths (num + 1) reg

/-- `makePathsId` (lines 331-352). -/
def makePathsId (paths : List String) (reg : Reg) : Except Err (String × Reg) :=
  match makePathsIdAux 1000 (pathsText paths) paths 0 reg with
  | none => .error (.error "This can't happen")
  | some r => .ok r

/-! ## The conditional expression weaver (lines 318-328, 354-361). -/

/-- `andIfs` (line 318). -/
def andIfs (one two : String) : String := "(" ++ one ++ ") && (" ++ two ++ ")"

/-- `maybeAddIf` (lines 320-328): attach a derived `if` to a step, ANDing
with a pre-existing one.  A JS-falsy (absent or empty) derived `if` leaves
the step untouched. -/
def maybeAddIf (iff : Option String) (step : Step) : Step :=
  if jsTruthy iff = false then step
  else
    let i := iff.getD ""
    let i2 := if jsTruthy step.ifCond then andIfs i (step.ifCond.getD "") else i
    { step with ifCond := some i2 }

/-- The condition text for one path-check id (line 359); a path id missing
from the map renders as the JS string `"undefined"`. -/
def depOrCondition (ids : OM String) (p : String) : String :=
  "steps." ++ (omFind ids p).getD "undefined" ++ ".outputs.changed == 'true'"

/-- `compileIf` (lines 354-361): `null` deps give no `if`; otherwise the
` || `-join over the dep set in its key (insertion) order. -/
def compileIf (deps : Option (List String)) (ids : OM String) : Option String :=
  deps.map (fun l => joinSep " || " (l.map (depOrCondition ids)))

/-! ## Emission (`compileSteps`'s ordering loop, lines 424-467). -/

/-- The generated start marker of a multi-step setup block (lines 449-452). -/
def startMarker (name : String) : Step :=
  { name := some ("🔽 Start setup [" ++ name ++ "]"),
    run := some "echo \"Setting something up\"" }

/-- The generated end marker of a multi-step setup block (lines 457-461). -/
def endMarker (name : String) : Step :=
  { name := some ("🔼 Finished setup [" ++ name ++ "]"),
    run := some "echo \"Finished setting it up\"" }

/-- `itemSteps` (lines 433-437): a bare array is its own step list; a
record without a `steps` field gives `null`; a record with a steps list —
even an empty one — gives that list. -/
def itemStepsOf : Setup → Option (List Step)
  | .steps arr => some arr
  | .config _ none => none
  | .config _ (some arr) => some arr

/-- Emission of a setup's step list (lines 438-463): exactly one step is
emitted inline with a decorated name; any other length — zero included —
gets start/end markers around the steps; every emitted step is gated by the
derived `if`. -/
def emitList (name : String) (arr : List Step) (pathsIf : Option String) : List Step :=
  match arr with
  | [st] =>
      [maybeAddIf pathsIf
        { st with name := some ("▶️ Setup " ++ name ++ ": " ++ st.name.getD "") }]
  | _ =>
      [maybeAddIf pathsIf (startMarker name)]
        ++ arr.map (maybeAddIf pathsIf)
        ++ [maybeAddIf pathsIf (endMarker name)]

/-- Emission of a setup node (lines 431-463): the stored setup record may
be missing (invalid id — unreachable after a successful build), a record
without steps emits nothing, otherwise `emitList`. -/
def emitSetupSteps (id : String) (os : Option Setup) (pathsIf : Option String) :
    Except Err (List Step) :=
  let name := id.drop 6
  match os with
  | none => .error (.typeError "Cannot read steps of undefined")
  | some s =>
      match itemStepsOf s with
      | none => .ok []
      | some arr => .ok (emitList name arr pathsIf)

/-- The ordering loop (lines 424-467), threading the paths-id map, the
emitted steps and the global registry.  On an error the registry keeps the
entries claimed so far (it is module-global in JS). -/
def emitLoop : OM Node → List String → OM String → List Step → Reg →
    Reg × Except Err (List Step)
  | _, [], _, acc, reg => (reg, .ok acc)
  | nodes, id :: rest, pm, acc, reg =>
      match omFind nodes id with
      | none => (reg, .error (.typeError ("no node " ++ id)))
      | some nd =>
          let pathsIf := compileIf nd.pathDeps pm
          match nd.contents with
          | .paths ps =>
              match makePathsId ps reg with
              | .error e => (reg, .error e)
              | .ok (pid, reg1) =>
                  match compilePaths pid ps with
                  | .error e => (reg1, .error e)
                  | .ok st => emitLoop nodes rest (omInsert pm id pid) (acc ++ [st]) reg1
          | .setup os =>
              match emitSetupSteps id os pathsIf with
              | .error e => (reg, .error e)
              | .ok l => emitLoop nodes rest pm (acc ++ l) reg
          | .step s => emitLoop nodes rest pm (acc ++ [maybeAddIf pathsIf s]) reg

/-! ## Kahn's algorithm (lines 72-118). -/

/-- The inner `for` loop of one pop: for each `afterId` of the popped node
(a key snapshot), delete both half-edges and enqueue `afterId` when its
`before` set empties.  (JS would crash on a dangling `afterId`; a closed
graph never has one, and the model skips it.) -/
def processAfters : OM Node → String → List String → List String → OM Node × List String
  | nodes, _, [], S => (nodes, S)
  | nodes, nodeId, a :: rest, S =>
      let nodes1 := omMod nodes nodeId (fun n => { n with after := setErase n.after a })
      let nodes2 := omMod nodes1 a (fun n => { n with before := setErase n.before nodeId })
      let S1 :=
        match omFind nodes2 a with
        | some n => if n.before.isEmpty then S ++ [a] else S
        | none => S
      processAfters nodes2 nodeId rest S1

/-- The `while (S.length)` loop: pop the queue head into the order and
process its out-edges.  The fuel bounds the number of iterations. -/
def kahnLoop : Nat → OM Node → List String → List String → Option (OM Node × List String)
  | 0, _, _, _ => none
  | fuel + 1, nodes, S, L =>
      match S with
      | [] => some (nodes, L)
      | nodeId :: S2 =>
          let afters := ((omFind nodes nodeId).map (·.after)).getD []
          let res := processAfters nodes nodeId afters S2
          kahnLoop fuel res.1 res.2 (L ++ [nodeId])

/-- The initial ready set: nodes with no `before` dependencies, in key
(insertion) order (lines 90-95). -/
def kahnInit (nodes : OM Node) : List String :=
  (nodes.filter (fun p => p.2.before.isEmpty)).map (·.1)

/-- The `from:to` rendering of every edge remaining in the `after` maps
(lines 107-113). -/
def edgesLeftOf : OM Node → List String
  | [] => []
  | p :: rest => p.2.after.map (fun a => p.1 ++ ":" ++ a) ++ edgesLeftOf rest

/-- `kahnsAlgorithm` (lines 72-118): run the loop (a number of iterations
that always suffices for well-formed graphs), then fail with the rendered
remaining edges if any edge survived, else return the order.  The mutated
node map is returned too, since the caller keeps using it. -/
def kahnsAlgorithm (nodes : OM Node) : Except Err (List String × OM Node) :=
  match kahnLoop (nodes.length + 1) nodes (kahnInit nodes) [] with
  | none => .error .fuel
  | some (nodes1, L) =>
      let el := edgesLeftOf nodes1
      if el.isEmpty then .ok (L, nodes1)
      else .error (.error ("Cycle in setup dependencies: " ++ joinSep ", " el))

/-! ## The bail-unless rewriter (`processBailUnless`, lines 363-387). -/

/-- `bail_if.replace(/(?<!\.)outputs\./g, "steps.<id>.outputs.")`: replace
every occurrence of `outputs.` not preceded by a dot, scanning left to
right and continuing after each replacement. -/
def nsReplaceChars (id : String) : Option Char → List Char → List Char
  | _, [] => []
  | prev, 'o' :: 'u' :: 't' :: 'p' :: 'u' :: 't' :: 's' :: '.' :: rest =>
      if prev ≠ some '.' then
        ("steps." ++ id ++ ".outputs.").toList ++ nsReplaceChars id (some '.') rest
      else
        'o' :: nsReplaceChars id (some 'o')
          ('u' :: 't' :: 'p' :: 'u' :: 't' :: 's' :: '.' :: rest)
  | _, c :: rest => c :: nsReplaceChars id (some c) rest

/-- The negated, namespaced bail condition (lines 375-381). -/
def bailCond (id bi : String) : String :=
  "!(" ++ String.mk (nsReplaceChars id none bi.toList) ++ ")"

/-- Gate a later step with the negated bail condition (lines 383-385). -/
def gateStep (cond : String) (st : Step) : Step :=
  let c2 := if jsTruthy st.ifCond then andIfs cond (st.ifCond.getD "") else cond
  { st with ifCond := some c2 }

/-- Handle the `i`-th bail step sitting at position `j`: assign the
generated id when missing, drop `bail_if`, and gate every later step. -/
def applyBailAt (steps : List Step) (j i : Nat) : List Step :=
  match steps.get? j with
  | none => steps
  | some bail0 =>
      let bail1 :=
        if jsTruthy bail0.id then bail0
        else { bail0 with id := some ("bail_if_" ++ toString (i + 1)) }
      if jsTruthy bail1.bail_if = false then steps.set j bail1
      else
        let cond := bailCond (bail1.id.getD "") (bail1.bail_if.getD "")
        let bail2 := { bail1 with bail_if := none }
        (steps.set j bail2).mapIdx (fun k st => if j < k then gateStep cond st else st)

/-- Positions of the steps carrying a (truthy) `bail_if`. -/
def bailIndices (steps : List Step) : List Nat :=
  (List.range steps.length).filter (fun j =>
    match steps.get? j with
    | some st => jsTruthy st.bail_if
    | none => false)

/-- `processBailUnless` (lines 363-387).  JS locates each bail step by
object identity (`indexOf`); the emitted list holds distinct step objects,
so positions are stable and the model works with indices. -/
def processBailUnless (steps : List Step) : List Step :=
  ((bailIndices steps).enum).foldl (fun st p => applyBailAt st p.2 p.1) steps

/-! ## `compileSteps` (lines 389-472). -/

/-- A job: the compiler only reads/mutates its `setup` reference and its
step list. -/
structure Job where
  setup : Option StrOrList := none
  steps : List Step := []
deriving DecidableEq

/-- The fields `compileSteps` strips from each step after consuming them
(lines 398-401). -/
def stripStep (s : Step) : Step :=
  { s with setup := none, paths := none, isLocal := none, local_env_flag := none }

/-- The body of the per-step `forEach` (lines 393-405): compile/reuse the
step's path-check node, add the step node (which keeps the step — the
strips below mutate the same object, so the stored content is the stripped
step), resolve its setup references, and chain it after its predecessor. -/
def stepOpFn (fuel : Nat) (ctx : Ctx) (i : Nat) (step : Step) : Except Err Ctx :=
  let pres : Except Err (Ctx × List String) :=
    match step.paths with
    | none => .ok (ctx, [])
    | some p =>
        if (match p with | .inl s => s == "" | .inr _ => false) then .ok (ctx, [])
        else
          match addPaths ctx p with
          | .error e => .error e
          | .ok (c1, pid) => .ok (c1, [pid])
  match pres with
  | .error e => .error e
  | .ok (ctx1, pathIds) =>
      match addNode ctx1 ("step-" ++ toString i) (.step (stripStep step)) pathIds with
      | .error e => .error e
      | .ok ctx2 =>
          match processSetup fuel ctx2 ("step-" ++ toString i) step.setup pathIds with
          | .error e => .error e
          | .ok ctx3 =>
              if i = 0 then .ok ctx3
              else addEdge ctx3 ("step-" ++ toString i) ("step-" ++ toString (i - 1))

/-- The per-step loop, also producing the in-place stripped step list
(steps processed before an error have been stripped, the rest have not). -/
def buildSteps : Nat → Ctx → List Step → Nat → List Step × Except Err Ctx
  | _, ctx, [], _ => ([], .ok ctx)
  | fuel, ctx, step :: rest, i =>
      match stepOpFn fuel ctx i step with
      | .error e => (step :: rest, .error e)
      | .ok ctx1 =>
          let r := buildSteps fuel ctx1 rest (i + 1)
          (stripStep step :: r.1, r.2)

/-- Is a node a path-check node? -/
def contentsIsPaths : NodeContent → Bool
  | .paths _ => true
  | _ => false

/-- The loop over node keys adding `paths → checkout` edges (lines
409-418); a path-check without a `checkout` setup is a fatal error. -/
def checkoutEdgesList (ctx : Ctx) : List String → Except Err Ctx
  | [] => .ok ctx
  | k :: ks =>
      match omFind ctx.nodes k with
      | none => checkoutEdgesList ctx ks
      | some nd =>
          if contentsIsPaths nd.contents then
            if (omFind ctx.nodes "setup-checkout").isSome then
              match addEdge ctx k "setup-checkout" with
              | .error e => .error e
              | .ok c1 => checkoutEdgesList c1 ks
            else
              .error (.error "You must have a \"checkout\" setup if you are using step- or job-level paths")
          else checkoutEdgesList ctx ks

/-- Phase of lines 409-418 over the key snapshot. -/
def addCheckoutEdges (ctx : Ctx) : Except Err Ctx :=
  checkoutEdgesList ctx (omKeys ctx.nodes)

/-- `compileSteps(job, setupSteps)` (lines 389-472), returning the job as
left behind (mutations included), the registry as left behind, and the
error if one was thrown.  On success the job's steps are replaced by the
compiled sequence; on a failure after the build phase the job keeps its
stripped original steps and has lost its `setup` reference. -/
def compileStepsRun (fuel : Nat) (job : Job) (setupSteps : OM Setup) (reg : Reg) :
    Job × Reg × Option Err :=
  let ctx0 : Ctx := { nodes := [], setupSteps := setupSteps }
  let b := buildSteps fuel ctx0 job.steps 0
  match b.2 with
  | .error e => ({ job with steps := b.1 }, reg, some e)
  | .ok ctx1 =>
      match processSetup fuel ctx1 "step-0" job.setup [] with
      | .error e => ({ job with steps := b.1 }, reg, some e)
      | .ok ctx2 =>
          let job1 : Job := { setup := none, steps := b.1 }
          match addCheckoutEdges ctx2 with
          | .error e => (job1, reg, some e)
          | .ok ctx3 =>
              match kahnsAlgorithm ctx3.nodes with
              | .error e => (job1, reg, some e)
              | .ok (ordering, nodesF) =>
                  match emitLoop nodesF ordering [] [] reg with
                  | (reg1, .error e) => (job1, reg1, some e)
                  | (reg1, .ok steps) =>
                      ({ setup := none, steps := processBailUnless steps }, reg1, none)

/-- The graph-building prefix of `compileStepsRun` (lines 389-418): the
context handed to `kahnsAlgorithm`, when every build stage succeeds. -/
def builtCtx (fuel : Nat) (job : Job) (setupSteps : OM Setup) : Option Ctx :=
  match (buildSteps fuel { nodes := [], setupSteps := setupSteps } job.steps 0).2 with
  | .error _ => none
  | .ok ctx1 =>
      match processSetup fuel ctx1 "step-0" job.setup [] with
      | .error _ => none
      | .ok ctx2 =>
          match addCheckoutEdges ctx2 with
          | .error _ => none
          | .ok ctx3 => some ctx3

/-- A tiny concrete two-node dependency graph (a setup node and a step
that depends on it), used to exercise the Kahn theorems. -/
def exGraph : OM Node :=
  [("setup-a", { id := "setup-a", contents := .paths [], pathDeps := none, before := [], after := ["step-0"] }),
   ("step-0", { id := "step-0", contents := .paths [], pathDeps := none, before := ["setup-a"], after := [] })]

/-! ## Graph well-formedness and acyclicity (for the Kahn theorems). -/

/-- Well-formedness of one node entry: its edge key sets are duplicate-free
(JS object keys are) and mention only existing nodes. -/
def nodeWF (nodes : OM Node) (p : String × Node) : Prop :=
  p.2.before.Nodup ∧ p.2.after.Nodup ∧
  (∀ b ∈ p.2.before, b ∈ omKeys nodes) ∧ (∀ a ∈ p.2.after, a ∈ omKeys nodes)

/-- A well-formed node graph: duplicate-free keys, well-formed entries, and
mutually consistent `before`/`after` adjacency (claim C9's invariant). -/
def GraphWF (nodes : OM Node) : Prop :=
  (omKeys nodes).Nodup ∧
  (∀ p ∈ nodes, nodeWF nodes p) ∧
  (∀ p ∈ nodes, ∀ q ∈ nodes, q.1 ∈ p.2.before ↔ p.1 ∈ q.2.after)

instance (nodes : OM Node) : Decidable (GraphWF nodes) := by
  unfold GraphWF nodeWF
  infer_instance

/-- `b` must run before `a` (there is a `before` edge from `a` to `b`). -/
def precedes (nodes : OM Node) (b a : String) : Prop :=
  ∃ n, omFind nodes a = some n ∧ b ∈ n.before

/-- No node transitively precedes itself. -/
def AcyclicG (nodes : OM Node) : Prop :=
  ∀ k, ¬ Relation.TransGen (precedes nodes) k k

/-- The `before` set a node had when `kahnsAlgorithm` started. -/
def origBefore (orig : OM Node) (k : String) : List String :=
  ((omFind orig k).map (·.before)).getD []

/-- The `after` set a node had when `kahnsAlgorithm` started. -/
def origAfter (orig : OM Node) (k : String) : List String :=
  ((omFind orig k).map (·.after)).getD []

/-- The node map at the head of the Kahn loop, as a function of the output
list `L` built so far: processed nodes have been removed from every
`before` set, and the `after` sets of processed nodes have been emptied. -/
def kahnRep (orig : OM Node) (L : List String) : OM Node :=
  orig.map (fun p => (p.1,
    { p.2 with
      before := p.2.before.filter (fun b => decide (¬ b ∈ L)),
      after := if p.1 ∈ L then [] else p.2.after }))

/-- The node map in the middle of processing the pop of `nodeId`, after the
out-edges to `done` have been deleted. -/
def kahnRep2 (orig : OM Node) (L : List String) (nodeId : String) (done : List String) :
    OM Node :=
  orig.map (fun p => (p.1,
    { p.2 with
      before := p.2.before.filter
        (fun b => decide (¬ b ∈ L ∧ ¬ (b = nodeId ∧ p.1 ∈ done))),
      after := if p.1 = nodeId then p.2.after.filter (fun a => decide (¬ a ∈ done))
               else if p.1 ∈ L then [] else p.2.after }))

/-- The nodes enqueued while processing the out-edges of `nodeId`: those
whose remaining dependencies all sit in `L ++ [nodeId]`. -/
def kahnPushes (orig : OM Node) (L : List String) (nodeId : String)
    (rest : List String) : List String :=
  rest.filter (fun a => decide (∀ b ∈ origBefore orig a, b ∈ L ∨ b = nodeId))

/-- The Kahn loop invariant: the node map is `kahnRep orig L`; `L` and the
queue are duplicate-free keys; a key sits in `L` or the queue exactly when
all its original dependencies are in `L`; and every entry of `L` was
emitted after all its original dependencies. -/
structure KState (orig : OM Node) (nodes : OM Node) (S L : List String) : Prop where
  rep : nodes = kahnRep orig L
  nodupLS : (L ++ S).Nodup
  memLS : ∀ k ∈ L ++ S, k ∈ omKeys orig
  ready : ∀ k, (k ∈ L ∨ k ∈ S) ↔ (k ∈ omKeys orig ∧ ∀ b ∈ origBefore orig k, b ∈ L)
  emitOrder : ∀ l1 k l2, L = l1 ++ k :: l2 → ∀ b ∈ origBefore orig k, b ∈ l1

/-- The claim-C9 invariant: the `before`/`after` adjacency maps are
mutually consistent. -/
def edgeConsistent (nodes : OM Node) : Prop :=
  ∀ p ∈ nodes, ∀ q ∈ nodes, q.1 ∈ p.2.before ↔ p.1 ∈ q.2.after

instance (nodes : OM Node) : Decidable (edgeConsistent nodes) := by
  unfold edgeConsistent
  infer_instance

/-- The effect of a successful `addEdge parentKey childKey` on the node
map: `childKey` joins the parent's `before` set and `parentKey` joins the
child's `after` set. -/
def addEdgeMap (p c : String) (m : OM Node) : OM Node :=
  m.map (fun q => (q.1,
    { q.2 with
      before := if q.1 = p then setInsert q.2.before c else q.2.before,
      after := if q.1 = c then setInsert q.2.after p else q.2.after }))

/-- The paired half-edge deletion `kahnsAlgorithm` performs for each
out-edge of a popped node (lines 97-101; the body of `processAfters`). -/
def kahnRemoveEdge (nodes : OM Node) (nodeId a : String) : OM Node :=
  omMod (omMod nodes nodeId (fun n => { n with after := setErase n.after a })) a
    (fun n => { n with before := setErase n.before nodeId })

/-- The graph states reachable during `compileSteps`: from the empty
context, any sequence of the builder phases the compiler runs (the
per-step build loop, the job-level setup resolution targeting `step-0`
with no path ids, and the checkout-edge pass). -/
inductive Reach (fuel : Nat) (setups : OM Setup) : Ctx → Prop where
  | init : Reach fuel setups { nodes := [], setupSteps := setups }
  | buildPhase : ∀ ctx steps i ctx', Reach fuel setups ctx →
      (buildSteps fuel ctx steps i).2 = .ok ctx' → Reach fuel setups ctx'
  | jobSetup : ∀ ctx sref ctx', Reach fuel setups ctx →
      processSetup fuel ctx "step-0" sref [] = .ok ctx' → Reach fuel setups ctx'
  | checkoutPhase : ∀ ctx ctx', Reach fuel setups ctx →
      addCheckoutEdges ctx = .ok ctx' → Reach fuel setups ctx'

/-- The node at `k`, when present, carries no path conditions. -/
def pathDepsNone (nodes : OM Node) (k : String) : Prop :=
  ∀ n, omFind nodes k = some n → n.pathDeps = none

/-- The builder invariant behind claims C9 and C3: a well-formed graph, an
unconditional `checkout` node, and unconditional direct dependencies of
the `checkout` node. -/
def BuilderInv (ctx : Ctx) : Prop :=
  GraphWF ctx.nodes ∧
  pathDepsNone ctx.nodes "setup-checkout" ∧
  (∀ n, omFind ctx.nodes "setup-checkout" = some n →
    ∀ b ∈ n.before, pathDepsNone ctx.nodes b)

/-- Builder operations only add keys, and never give a condition-free
existing node a condition. -/
def ctxMono (ctx ctx' : Ctx) : Prop :=
  (∀ k ∈ omKeys ctx.nodes, k ∈ omKeys ctx'.nodes) ∧
  (∀ k, k ∈ omKeys ctx.nodes → pathDepsNone ctx.nodes k → pathDepsNone ctx'.nodes k)

/-- Registry entries are never overwritten, only added; `regExtends r r'`
says `r'` holds every entry of `r`. -/
def regExtends (r r' : Reg) : Prop :=
  ∀ k v, omFind r k = some v → omFind r' k = some v

/-! ## A local model of one node's condition-set evolution (for C2). -/

/-- The effect of one referencing site on a single node's `pathDeps`, once
the node exists: an unconditional reference (`pathIds = []`) clears the
set; a conditional one widens a non-null set and leaves `null` alone
(`propagatePaths`, lines 277-288). -/
def applyRef (cur : Option (List String)) (pathIds : List String) : Option (List String) :=
  if pathIds.isEmpty then none
  else
    match cur with
    | none => none
    | some deps => some (pathIds.foldl setInsert deps)

/-- The `pathDeps` of a node after its referencing sites, in processing
order: the first reference creates the node (`addNode`, lines 240-245),
each later one is propagated into it. -/
def refsFold (first : List String) (rest : List (List String)) : Option (List String) :=
  rest.foldl applyRef (initialPathDeps first)

/-! ## Supporting lemmas: glob translation. -/

theorem globScanC_error_msg (orig : String) (l : List Char) (e : String)
    (h : globScanC orig l = .error e) :
    e = "Invalid pattern: " ++ orig ++ " - only * and ** replacements are supported" := by
  induction l using globScanC.induct orig with
  | case1 => simp [globScanC] at h
  | case2 rest ih =>
      simp only [globScanC] at h
      cases hr : globScanC orig rest with
      | ok t => rw [hr] at h; simp [Except.map] at h
      | error e2 => rw [hr] at h; simp [Except.map] at h; subst h; exact ih hr
  | case3 rest => simp [globScanC] at h; exact h.symm
  | case4 rest h1 h2 ih =>
      simp only [globScanC] at h
      cases hr : globScanC orig rest with
      | ok t => rw [hr] at h; simp [Except.map] at h
      | error e2 => rw [hr] at h; simp [Except.map] at h; subst h; exact ih hr
  | case5 rest h1 h2 h3 ih =>
      simp only [globScanC] at h
      cases hr : globScanC orig rest with
      | ok t => rw [hr] at h; simp [Except.map] at h
      | error e2 => rw [hr] at h; simp [Except.map] at h; subst h; exact ih hr
  | case6 c rest h1 h2 h3 h4 ih =>
      simp only [globScanC] at h
      cases hr : globScanC orig rest with
      | ok t => rw [hr] at h; simp [Except.map] at h
      | error e2 => rw [hr] at h; simp [Except.map] at h; subst h; exact ih hr

theorem translateAll_error (ps : List String) (e : String)
    (h : translateAll ps = .error e) :
    ∃ p ∈ ps, globTokensC p = .error e := by
  induction ps with
  | nil => simp [translateAll] at h
  | cons p ps ih =>
      simp only [translateAll] at h
      cases hp : globTokensC p with
      | error e2 => rw [hp] at h; cases h; exact ⟨p, by simp, hp⟩
      | ok t =>
          rw [hp] at h
          cases hr : translateAll ps with
          | error e2 => rw [hr] at h; cases h; obtain ⟨q, hq, hg⟩ := ih hr; exact ⟨q, by simp [hq], hg⟩
          | ok ts => rw [hr] at h; cases h

theorem translateAll_isOk (ps : List String) :
    isOkE (translateAll ps) = ps.all (fun p => isOkE (globTokensC p)) := by
  induction ps with
  | nil => simp [translateAll, isOkE]
  | cons p ps ih =>
      simp only [translateAll, List.all_cons]
      cases hp : globTokensC p with
      | error e2 => simp [isOkE]
      | ok t =>
          cases hr : translateAll ps with
          | error e2 => rw [hr] at ih; simp [isOkE] at ih ⊢; exact ih
          | ok ts => rw [hr] at ih; simp [isOkE] at ih ⊢; exact ih

theorem csRun_no_lead_star (l : List Char)
    (hsafe : ∀ c ∈ l, safePatternChar c = true)
    (hstar : ∀ rest, l ≠ '*' :: rest) :
    csRun l = (0, false, l) := by
  match l with
  | [] => rfl
  | c :: rest =>
      have hc : c ≠ '*' := by intro h; exact hstar rest (by rw [h])
      have hcolon : c ≠ ':' := by
        intro h
        have := hsafe c (by simp)
        rw [h] at this
        simp [safePatternChar, Char.isAlphanum, Char.isAlpha, Char.isDigit,
          Char.isUpper, Char.isLower] at this
      rw [csRun.eq_def]
      split
      · simp_all
      · simp_all
      · rfl

theorem safePatternChar_ne_colon (c : Char) (h : safePatternChar c = true) : c ≠ ':' := by
  intro he
  subst he
  simp [safePatternChar] at h

theorem globScanM_star (rest : List Char) (h1 : ∀ r1, rest ≠ '*' :: '/' :: '*' :: r1) :
    globScanM ('*' :: rest) =
      (if (csRun rest).1 + 1 = 2 ∧ (csRun rest).2.1 = false then GTok.all else GTok.seg)
        :: globScanM (csRun rest).2.2 := by
  rw [globScanM.eq_def]
  split
  · simp_all
  · rename_i r1 heq
    injection heq with _ h2
    exact absurd h2 (h1 r1)
  · rename_i r heq
    injection heq with _ h2
    subst h2
    rfl
  · rename_i r heq
    injection heq with hch _
    exact absurd hch (by decide)
  · rename_i hx1 hx2 heq
    injection heq with hch _
    exact absurd hch.symm hx1

theorem globScanM_nil : globScanM [] = [] := by
  simp [globScanM]

theorem globScanM_colon_star (rest : List Char) :
    globScanM (':' :: '*' :: rest) = GTok.seg :: globScanM (csRun rest).2.2 := by
  rw [globScanM.eq_def]
  split
  · simp_all
  · rename_i r1 heq
    injection heq with hch _
    exact absurd hch (by decide)
  · rename_i r heq
    injection heq with hch _
    exact absurd hch (by decide)
  · rename_i r heq
    injection heq with _ h2
    injection h2 with _ h3
    subst h3
    rfl
  · rename_i hx1 hx2 heq
    injection heq with hch h2
    exact absurd (hx2 rest hch.symm) (by simp [h2])

theorem globScanM_lit (c : Char) (rest : List Char) (hc : c ≠ '*')
    (hcolon : c ≠ ':') :
    globScanM (c :: rest) = .lit c :: globScanM rest := by
  rw [globScanM.eq_def]
  split
  · simp_all
  · rename_i r1 heq
    injection heq with hch _
    exact absurd hch hc
  · rename_i r heq
    injection heq with hch _
    exact absurd hch hc
  · rename_i r heq
    injection heq with hch _
    exact absurd hch hcolon
  · rename_i heq
    injection heq with hch ht
    rw [← hch, ← ht]

theorem globScan_agree (orig : String) (l : List Char) :
    (∀ c ∈ l, safePatternChar c = true) → ∀ t, globScanC orig l = .ok t → globScanM l = t := by
  induction l using globScanC.induct orig with
  | case1 =>
      intro _ t h
      simp [globScanC] at h
      subst h
      simp [globScanM]
  | case2 rest ih =>
      intro hsafe t h
      simp only [globScanC] at h
      cases hr : globScanC orig rest with
      | error e => rw [hr] at h; simp [Except.map] at h
      | ok ts =>
          rw [hr] at h
          simp [Except.map] at h
          subst h
          have hs : ∀ c ∈ rest, safePatternChar c = true := fun c hc => hsafe c (by simp [hc])
          simp only [globScanM]
          rw [ih hs ts hr]
  | case3 tail =>
      intro _ t h
      simp [globScanC] at h
  | case4 rest h1 h2 ih =>
      intro hsafe t h
      simp only [globScanC] at h
      cases hr : globScanC orig rest with
      | error e => rw [hr] at h; simp [Except.map] at h
      | ok ts =>
          rw [hr] at h
          simp [Except.map] at h
          subst h
          have hs : ∀ c ∈ rest, safePatternChar c = true := fun c hc => hsafe c (by simp [hc])
          have hcs : csRun rest = (0, false, rest) :=
            csRun_no_lead_star rest hs (fun r hr2 => by exact h2 r hr2)
          rw [globScanM_star ('*' :: rest)
            (fun r1 hcontra => h1 r1 (by injection hcontra))]
          simp only [csRun]
          simp only [hcs]
          simp
          exact ih hs ts hr
  | case5 rest h1 h2 h3 ih =>
      intro hsafe t h
      simp only [globScanC] at h
      cases hr : globScanC orig rest with
      | error e => rw [hr] at h; simp [Except.map] at h
      | ok ts =>
          rw [hr] at h
          simp [Except.map] at h
          subst h
          have hs : ∀ c ∈ rest, safePatternChar c = true := fun c hc => hsafe c (by simp [hc])
          have hcs : csRun rest = (0, false, rest) :=
            csRun_no_lead_star rest hs (fun r hr2 => by exact h3 r hr2)
          rw [globScanM_star rest (fun r1 hcontra => h3 ('/' :: '*' :: r1) hcontra)]
          simp only [hcs]
          simp
          exact ih hs ts hr
  | case6 c rest h1 h2 h3 h4 ih =>
      intro hsafe t h
      simp only [globScanC] at h
      cases hr : globScanC orig rest with
      | error e => rw [hr] at h; simp [Except.map] at h
      | ok ts =>
          rw [hr] at h
          simp [Except.map] at h
          subst h
          have hs : ∀ c ∈ rest, safePatternChar c = true := fun c hc => hsafe c (by simp [hc])
          have hc : c ≠ '*' := fun he => h4 he
          have hcolon : c ≠ ':' := safePatternChar_ne_colon c (hsafe c (by simp))
          rw [globScanM_lit c rest hc hcolon]
          rw [ih hs ts hr]

/-! ## Claim C5: `compilePaths`. -/

/-- C5 (amended): `compilePaths` escapes literal `.` before glob
translation (`lit '.'` renders as `\.`), translates `**/*` and `**` to `.*`
and a single `*` to `[^/]*`, emits a step whose command tests each pattern
as an anchored regex against the changed-file list with output
`changed=true` iff some pattern matches some changed file (first match
wins), and throws a fatal error naming the offending pattern exactly when
the left-to-right scan — which consumes `**/*` groups first — meets a star
run of length three or more.  (A three-star run whose first star completes
a `**/*` group, e.g. in `**/***`, is accepted; see the counterexample.) -/
theorem c5_compilePaths_spec (id : String) (pats : List String) :
    (isOkE (compilePaths id pats) = pats.all (fun p => isOkE (globTokensC p))) ∧
    (∀ e, compilePaths id pats = .error e →
      ∃ p ∈ pats,
        globTokensC p = .error ("Invalid pattern: " ++ p ++ " - only * and ** replacements are supported") ∧
        e = .error ("Invalid pattern: " ++ p ++ " - only * and ** replacements are supported")) ∧
    (∀ st, compilePaths id pats = .ok st →
      ∃ toks, translateAll pats = .ok toks ∧
        st = { id := some id,
               name := some ("Check paths: " ++ joinSep ", " pats),
               run := some (joinSep "\n\n" (toks.map (fun ts => grepBlock (renderRegexC ts)))
                             ++ noMatchFooter) } ∧
        ∀ files, pathsCheckChanged toks files = true ↔
          ∃ ts ∈ toks, ∃ f ∈ files, gmatch ts f.toList = true) ∧
    (globTokensC "**/*" = .ok [GTok.all] ∧ globTokensC "**" = .ok [GTok.all] ∧
     globTokensC "*" = .ok [GTok.seg] ∧ globTokensC "a.b" = .ok [.lit 'a', .lit '.', .lit 'b']) ∧
    (renderTokC GTok.all = ".*" ∧ renderTokC GTok.seg = "[^/]*" ∧
     renderTokC (GTok.lit '.') = "\\.") ∧
    (∀ (orig : String) (rest : List Char),
      globScanC orig ('*' :: '*' :: '*' :: rest) =
        .error ("Invalid pattern: " ++ orig ++ " - only * and ** replacements are supported")) := by
  refine ⟨?_, ?_, ?_, ⟨rfl, rfl, rfl, rfl⟩, ⟨rfl, rfl, rfl⟩,
    fun orig rest => by simp [globScanC]⟩
  · rw [← translateAll_isOk]
    cases h : translateAll pats with
    | error e => simp [compilePaths, h, isOkE]
    | ok t => simp [compilePaths, h, isOkE]
  · intro e he
    cases h : translateAll pats with
    | error e2 =>
        rw [compilePaths, h] at he
        cases he
        obtain ⟨p, hp, hg⟩ := translateAll_error pats e2 h
        have := globScanC_error_msg p p.toList e2 hg
        subst this
        exact ⟨p, hp, hg, rfl⟩
    | ok t => rw [compilePaths, h] at he; cases he
  · intro st hst
    cases h : translateAll pats with
    | error e2 => rw [compilePaths, h] at hst; cases hst
    | ok toks =>
        rw [compilePaths, h] at hst
        cases hst
        refine ⟨toks, rfl, rfl, fun files => ?_⟩
        simp [pathsCheckChanged, List.any_eq_true]

/-- Counterexample to C5 as stated: `**/***` contains a run of three
consecutive `*` characters, yet `compilePaths` accepts it (the scan
consumes `**/*` first and then sees only `**`). -/
theorem c5_counterexample :
    hasTripleStar "**/***".toList = true ∧ isOkE (compilePaths "x" ["**/***"]) = true := by
  decide

/-- Witness for C5 at a concrete input. -/
theorem c5_witness :
    ∃ toks, translateAll ["a.js"] = .ok toks ∧
      ∀ files, pathsCheckChanged toks files = true ↔
        ∃ ts ∈ toks, ∃ f ∈ files, gmatch ts f.toList = true := by
  obtain ⟨toks, h1, _, h3⟩ := (c5_compilePaths_spec "x" ["a.js"]).2.2.1 _ rfl
  exact ⟨toks, h1, h3⟩

/-! ## Claim C7: `matchPath` vs the compiled check. -/

/-- C7 (amended): for every pattern accepted by the compiler whose
characters are limited to alphanumerics, `/`, `_`, `-`, `.` and `*`, the
local runner's `matchPath` translation produces exactly the same anchored
regex (token for token) as `compilePaths`, so the two evaluation paths
accept exactly the same files.  (Outside that alphabet they can diverge:
the runner's `(:?\*)+` group swallows a `:` before a star, and raw regex
metacharacters are escaped by the runner but not by the compiler.) -/
theorem c7_matchPath_agree (p : String) (t : List GTok)
    (hsafe : ∀ c ∈ p.toList, safePatternChar c = true)
    (hok : globTokensC p = .ok t) :
    globTokensM p = t ∧ ∀ f, matchPath p f = gmatch t f.toList := by
  have h := globScan_agree p p.toList hsafe t hok
  exact ⟨h, fun f => by rw [matchPath, globTokensM, h]⟩

/-- Counterexample to C7 as stated: the compiler accepts the pattern `:*`,
`matchPath ":*"` accepts the file `"x"`, but the anchored regex
`compilePaths` produces for `:*` (a literal `:` then `[^/]*`) does not
match `"x"`. -/
theorem c7_counterexample :
    globTokensC ":*" = .ok [GTok.lit ':', GTok.seg] ∧
    matchPath ":*" "x" = true ∧
    gmatch [GTok.lit ':', GTok.seg] "x".toList = false := by
  refine ⟨rfl, ?_, by decide⟩
  have h : globTokensM ":*" = [GTok.seg] := by
    show globScanM [':', '*'] = [GTok.seg]
    rw [globScanM_colon_star]
    show GTok.seg :: globScanM [] = [GTok.seg]
    rw [globScanM_nil]
  rw [matchPath, h]
  decide

/-- Witness for C7 at a concrete input. -/
theorem c7_witness :
    globTokensM "a*" = [GTok.lit 'a', GTok.seg] ∧
    matchPath "a*" "ab" = gmatch [GTok.lit 'a', GTok.seg] "ab".toList := by
  have h := c7_matchPath_agree "a*" [GTok.lit 'a', GTok.seg] (by decide) rfl
  exact ⟨h.1, h.2 "ab"⟩

/-! ## Supporting lemmas: ordered maps. -/

theorem omFind_cons {V : Type} (p : String × V) (m : OM V) (j : String) :
    omFind (p :: m) j = if p.1 = j then some p.2 else omFind m j := by
  simp only [omFind]
  by_cases h : p.1 = j
  · rw [List.find?_cons_of_pos _ (by simpa using h)]
    simp [h]
  · rw [List.find?_cons_of_neg _ (by simpa using h)]
    simp [h]

theorem omFind_nil {V : Type} (j : String) : omFind ([] : OM V) j = none := rfl

theorem omFind_mod {V : Type} (m : OM V) (k : String) (f : V → V) (j : String) :
    omFind (omMod m k f) j = if j = k then (omFind m j).map f else omFind m j := by
  induction m with
  | nil => simp only [omMod, List.map_nil, omFind_nil]; split <;> rfl
  | cons p m ih =>
      simp only [omMod, List.map_cons] at *
      by_cases hpk : p.1 = k <;> by_cases hpj : p.1 = j <;>
        by_cases hjk : j = k <;>
        simp_all [omFind_cons]

theorem omKeys_mod {V : Type} (m : OM V) (k : String) (f : V → V) :
    omKeys (omMod m k f) = omKeys m := by
  induction m with
  | nil => rfl
  | cons p m ih =>
      simp only [omMod, omKeys, List.map_cons] at *
      split <;> simp_all

theorem omKeys_cons {V : Type} (p : String × V) (m : OM V) :
    omKeys (p :: m) = p.1 :: omKeys m := rfl

theorem omFind_isSome_iff {V : Type} (m : OM V) (j : String) :
    (omFind m j).isSome ↔ j ∈ omKeys m := by
  induction m with
  | nil => simp [omFind_nil, omKeys]
  | cons p m ih =>
      rw [omFind_cons, omKeys_cons]
      by_cases h : p.1 = j
      · simp [h]
      · rw [if_neg h, ih]
        constructor
        · exact fun hh => List.mem_cons_of_mem _ hh
        · intro hh
          rcases List.mem_cons.mp hh with hh | hh
          · exact absurd hh.symm h
          · exact hh

theorem omFind_append_one {V : Type} (m : OM V) (k : String) (v : V) (j : String) :
    omFind (m ++ [(k, v)]) j =
      match omFind m j with
      | some w => some w
      | none => if k = j then some v else none := by
  induction m with
  | nil => simp [omFind_nil, omFind_cons]
  | cons p m ih =>
      rw [List.cons_append, omFind_cons, omFind_cons]
      by_cases h : p.1 = j <;> simp [h, ih]

/-! ## Supporting lemmas: which keys the graph builder touches. -/

theorem addEdge_skel (ctx : Ctx) (p c : String) (ctx' : Ctx)
    (h : addEdge ctx p c = .ok ctx') :
    omKeys ctx'.nodes = omKeys ctx.nodes ∧ ctx'.setupSteps = ctx.setupSteps := by
  simp only [addEdge] at h
  cases h1 : omFind ctx.nodes p with
  | none => rw [h1] at h; cases h
  | some n1 =>
      rw [h1] at h
      cases h2 : omFind (omMod ctx.nodes p
          (fun n => { n with before := setInsert n.before c })) c with
      | none => rw [h2] at h; cases h
      | some n2 =>
          rw [h2] at h
          cases h
          simp [omKeys_mod]

theorem addDepsAndEdges_skel (ps : List String) (ctx : Ctx) (key : String) (ctx' : Ctx)
    (h : addDepsAndEdges ctx key ps = .ok ctx') :
    omKeys ctx'.nodes = omKeys ctx.nodes ∧ ctx'.setupSteps = ctx.setupSteps := by
  induction ps generalizing ctx with
  | nil => cases h; exact ⟨rfl, rfl⟩
  | cons p ps ih =>
      simp only [addDepsAndEdges] at h
      split at h
      · cases h
      · rename_i ctx2 heq
        obtain ⟨hk, hs⟩ := addEdge_skel _ _ _ _ heq
        obtain ⟨hk2, hs2⟩ := ih _ h
        simp only [omKeys_mod] at hk
        exact ⟨by rw [hk2, hk], by rw [hs2, hs]⟩

theorem propagateListGo_skel
    (f : Ctx → String → List String → Except Err Ctx)
    (hf : ∀ ctx k pids ctx', f ctx k pids = .ok ctx' →
      omKeys ctx'.nodes = omKeys ctx.nodes ∧ ctx'.setupSteps = ctx.setupSteps) :
    ∀ (ks : List String) (ctx : Ctx) (pids : List String) (ctx' : Ctx),
      propagateListGo f ctx ks pids = .ok ctx' →
      omKeys ctx'.nodes = omKeys ctx.nodes ∧ ctx'.setupSteps = ctx.setupSteps := by
  intro ks
  induction ks with
  | nil => intro ctx pids ctx' h; cases h; exact ⟨rfl, rfl⟩
  | cons k ks ih =>
      intro ctx pids ctx' h
      simp only [propagateListGo] at h
      split at h
      · cases h
      · rename_i ctx1 heq
        obtain ⟨a1, b1⟩ := hf _ _ _ _ heq
        obtain ⟨a2, b2⟩ := ih _ _ _ h
        exact ⟨by rw [a2, a1], by rw [b2, b1]⟩

theorem propagatePaths_skel : ∀ (fuel : Nat) (ctx : Ctx) (key : String)
    (pids : List String) (ctx' : Ctx), propagatePaths fuel ctx key pids = .ok ctx' →
    omKeys ctx'.nodes = omKeys ctx.nodes ∧ ctx'.setupSteps = ctx.setupSteps := by
  intro fuel
  induction fuel with
  | zero => intro ctx key pids ctx' h; cases h
  | succ fuel ih =>
      intro ctx key pids ctx' h
      simp only [propagatePaths] at h
      split at h
      · cases h
      · rename_i nd hnd
        split at h
        · cases h
        · rename_i ctx1 heq1
          have hctx1 : omKeys ctx1.nodes = omKeys ctx.nodes ∧
              ctx1.setupSteps = ctx.setupSteps := by
            split at heq1
            · cases heq1; exact ⟨by simp [omKeys_mod], rfl⟩
            · split at heq1
              · cases heq1; exact ⟨rfl, rfl⟩
              · exact addDepsAndEdges_skel _ _ _ _ heq1
          split at h
          · cases h
          · rename_i nd1 hnd1
            obtain ⟨a2, b2⟩ := propagateListGo_skel _ ih _ _ _ _ h
            exact ⟨by rw [a2, hctx1.1], by rw [b2, hctx1.2]⟩

theorem addNode_skel (ctx : Ctx) (id : String) (contents : NodeContent)
    (pids : List String) (ctx' : Ctx) (h : addNode ctx id contents pids = .ok ctx') :
    (omKeys ctx'.nodes = omKeys ctx.nodes ∨ omKeys ctx'.nodes = omKeys ctx.nodes ++ [id]) ∧
    ctx'.setupSteps = ctx.setupSteps := by
  simp only [addNode] at h
  split at h
  · cases h; exact ⟨Or.inl rfl, rfl⟩
  · have haux : ∀ (ps : List String) (c : Ctx) (c' : Ctx), addEdgeAll c id ps = .ok c' →
        omKeys c'.nodes = omKeys c.nodes ∧ c'.setupSteps = c.setupSteps := by
      intro ps
      induction ps with
      | nil => intro c c' hh; cases hh; exact ⟨rfl, rfl⟩
      | cons p ps ihp =>
          intro c c' hh
          simp only [addEdgeAll] at hh
          split at hh
          · cases hh
          · rename_i c1 h1
            obtain ⟨a1, b1⟩ := addEdge_skel _ _ _ _ h1
            obtain ⟨a2, b2⟩ := ihp _ _ hh
            exact ⟨by rw [a2, a1], by rw [b2, b1]⟩
    obtain ⟨a, b⟩ := haux _ _ _ h
    refine ⟨Or.inr ?_, b⟩
    rw [a]
    simp [omKeys]

theorem processSetupListGo_keys
    (f : Ctx → String → List String → Except Err (String × Ctx))
    (hf : ∀ ctx sid pids k ctx', f ctx sid pids = .ok (k, ctx') →
      ctx'.setupSteps = ctx.setupSteps ∧
      ∀ j, j ∈ omKeys ctx'.nodes → j ∈ omKeys ctx.nodes ∨ ∃ s2, j = "setup-" ++ s2) :
    ∀ (sids : List String) (ctx : Ctx) (pk : String) (pids : List String) (ctx' : Ctx),
      processSetupListGo f ctx pk sids pids = .ok ctx' →
      ctx'.setupSteps = ctx.setupSteps ∧
      ∀ j, j ∈ omKeys ctx'.nodes → j ∈ omKeys ctx.nodes ∨ ∃ s2, j = "setup-" ++ s2 := by
  intro sids
  induction sids with
  | nil => intro ctx pk pids ctx' h; cases h; exact ⟨rfl, fun j hj => Or.inl hj⟩
  | cons sid sids ih =>
      intro ctx pk pids ctx' h
      simp only [processSetupListGo] at h
      split at h
      · cases h
      · rename_i childKey ctx1 heq
        split at h
        · cases h
        · rename_i ctx2 heq2
          obtain ⟨hs1, hj1⟩ := hf _ _ _ _ _ heq
          obtain ⟨a2, b2⟩ := addEdge_skel _ _ _ _ heq2
          obtain ⟨hs3, hj3⟩ := ih _ _ _ _ h
          refine ⟨by rw [hs3, b2, hs1], fun j hj => ?_⟩
          rcases hj3 j hj with hj2 | hj2
          · rw [a2] at hj2
            exact hj1 j hj2
          · exact Or.inr hj2

/-- Keys introduced by `addSetup` are always `setup-`-prefixed. -/
theorem addSetup_keys : ∀ (fuel : Nat) (ctx : Ctx) (sid : String) (pids : List String)
    (k : String) (ctx' : Ctx), addSetup fuel ctx sid pids = .ok (k, ctx') →
    k = "setup-" ++ sid ∧ ctx'.setupSteps = ctx.setupSteps ∧
    ∀ j, j ∈ omKeys ctx'.nodes → j ∈ omKeys ctx.nodes ∨ ∃ s2, j = "setup-" ++ s2 := by
  intro fuel
  induction fuel with
  | zero => intro ctx sid pids k ctx' h; cases h
  | succ fuel ih =>
      intro ctx sid pids k ctx' h
      simp only [addSetup] at h
      split at h
      · split at h
        · cases h
        · rename_i ctx1 heq
          cases h
          obtain ⟨a, b⟩ := propagatePaths_skel _ _ _ _ _ heq
          exact ⟨rfl, b, fun j hj => Or.inl (a ▸ hj)⟩
      · split at h
        · cases h
        · rename_i ctx1 heq1
          obtain ⟨ha, hb⟩ := addNode_skel _ _ _ _ _ heq1
          have hmem : ∀ j, j ∈ omKeys ctx1.nodes →
              j ∈ omKeys ctx.nodes ∨ ∃ s2, j = "setup-" ++ s2 := by
            intro j hj
            rcases ha with ha | ha
            · exact Or.inl (ha ▸ hj)
            · rw [ha] at hj
              rcases List.mem_append.mp hj with hj | hj
              · exact Or.inl hj
              · exact Or.inr ⟨sid, by simpa using hj⟩
          split at h
          · cases h
          · cases h
            exact ⟨rfl, hb, hmem⟩
          · rename_i s2 st2
            split at h
            · cases h
            · rename_i ctx2 heq2
              cases h
              obtain ⟨hs3, hj3⟩ := processSetupListGo_keys _
                (fun c s p k2 c' hh => ((ih c s p k2 c' hh).2)) _ _ _ _ _ heq2
              refine ⟨rfl, by rw [hs3, hb], fun j hj => ?_⟩
              rcases hj3 j hj with hj2 | hj2
              · exact hmem j hj2
              · exact Or.inr hj2

/-! ## Supporting lemmas: insertion-ordered key sets. -/

theorem setInsert_mem (s : List String) (k x : String) :
    x ∈ setInsert s k ↔ x ∈ s ∨ x = k := by
  by_cases h : k ∈ s
  · simp only [setInsert, if_pos h]
    constructor
    · exact Or.inl
    · rintro (hx | rfl)
      · exact hx
      · exact h
  · simp [setInsert, if_neg h]

theorem setInsert_nodup (s : List String) (k : String) (h : s.Nodup) :
    (setInsert s k).Nodup := by
  by_cases hk : k ∈ s
  · simpa [setInsert, if_pos hk] using h
  · simp only [setInsert, if_neg hk]
    rw [List.nodup_append]
    refine ⟨h, List.nodup_singleton k, fun a ha hb => ?_⟩
    simp only [List.mem_singleton] at hb
    subst hb
    exact hk ha

theorem foldl_setInsert_mem (l : List String) (acc : List String) (x : String) :
    x ∈ l.foldl setInsert acc ↔ x ∈ acc ∨ x ∈ l := by
  induction l generalizing acc with
  | nil => simp
  | cons a l ih =>
      simp only [List.foldl_cons, ih, setInsert_mem, List.mem_cons]
      tauto

theorem foldl_setInsert_nodup (l acc : List String) (h : acc.Nodup) :
    (l.foldl setInsert acc).Nodup := by
  induction l generalizing acc with
  | nil => simpa
  | cons a l ih => exact ih _ (setInsert_nodup _ _ h)

/-! ## Claim C2: the derived `if` of a shared node. -/

theorem applyRef_none (r : List String) : applyRef none r = none := by
  simp only [applyRef]
  split <;> rfl

theorem foldl_applyRef_none (rs : List (List String)) :
    rs.foldl applyRef none = none := by
  induction rs with
  | nil => rfl
  | cons r rs ih => simpa [applyRef_none] using ih

theorem foldl_applyRef_none_iff (rs : List (List String)) (cur : Option (List String)) :
    rs.foldl applyRef cur = none ↔ cur = none ∨ [] ∈ rs := by
  induction rs generalizing cur with
  | nil => simp
  | cons r rs ih =>
      simp only [List.foldl_cons, ih, List.mem_cons]
      constructor
      · rintro (h | h)
        · simp only [applyRef] at h
          split at h
          · rename_i he
            exact Or.inr (Or.inl (List.isEmpty_iff.mp (by simpa using he)).symm)
          · split at h
            · exact Or.inl (by assumption)
            · cases h
        · exact Or.inr (Or.inr h)
      · rintro (rfl | rfl | h)
        · exact Or.inl (applyRef_none r)
        · exact Or.inl (by simp [applyRef])
        · exact Or.inr h

theorem foldl_applyRef_mem (rs : List (List String)) (c : List String)
    (l : List String) (h : rs.foldl applyRef (some c) = some l) (p : String) :
    p ∈ l ↔ p ∈ c ∨ ∃ r ∈ rs, p ∈ r := by
  induction rs generalizing c with
  | nil =>
      simp only [List.foldl_nil] at h
      have := Option.some.inj h
      subst this
      simp
  | cons r rs ih =>
      simp only [List.foldl_cons] at h
      by_cases hr : r.isEmpty
      · rw [show applyRef (some c) r = none by simp [applyRef, hr],
          foldl_applyRef_none] at h
        cases h
      · have happ : applyRef (some c) r = some (r.foldl setInsert c) := by
          simp [applyRef, hr]
        rw [happ] at h
        rw [ih _ h]
        simp only [foldl_setInsert_mem]
        constructor
        · rintro ((hp | hp) | ⟨r2, hr2, hp⟩)
          · exact Or.inl hp
          · exact Or.inr ⟨r, by simp, hp⟩
          · exact Or.inr ⟨r2, by simp [hr2], hp⟩
        · rintro (hp | ⟨r2, hr2, hp⟩)
          · exact Or.inl (Or.inl hp)
          · rcases List.mem_cons.mp hr2 with rfl | hr2
            · exact Or.inl (Or.inr hp)
            · exact Or.inr ⟨r2, hr2, hp⟩

theorem foldl_applyRef_nodup (rs : List (List String)) (cur : Option (List String))
    (l : List String) (h : rs.foldl applyRef cur = some l)
    (hc : ∀ c, cur = some c → c.Nodup) : l.Nodup := by
  induction rs generalizing cur with
  | nil => cases cur with
    | none => cases h
    | some c => cases h; exact hc _ rfl
  | cons r rs ih =>
      simp only [List.foldl_cons] at h
      refine ih _ h (fun c2 hc2 => ?_)
      simp only [applyRef] at hc2
      split at hc2
      · cases hc2
      · cases hcur : cur with
        | none => rw [hcur] at hc2; cases hc2
        | some c =>
            rw [hcur] at hc2
            cases hc2
            exact foldl_setInsert_nodup _ _ (hc c hcur)

theorem initialPathDeps_none_iff (l : List String) :
    initialPathDeps l = none ↔ l = [] := by
  simp only [initialPathDeps]
  split
  · rename_i h
    simp [List.isEmpty_iff.mp (by simpa using h)]
  · rename_i h
    simp
    intro hc
    subst hc
    simp at h

theorem initialPathDeps_mem (l c : List String) (h : initialPathDeps l = some c)
    (p : String) : p ∈ c ↔ p ∈ l := by
  simp only [initialPathDeps] at h
  split at h
  · cases h
  · cases h
    simp [foldl_setInsert_mem]

/-- C2 (amended): for a setup or path-check node, whether the compiled
block carries an `if` at all, and the set of OR-ed path-check conditions,
are determined by its referencing sites regardless of processing order: if
any site requires it with no path condition the node's condition set is
`null` and the block carries no `if`; otherwise the compiled `if` is the
` || `-join of `steps.<id>.outputs.changed == 'true'` over the accumulated
set.  The join lists the disjuncts in first-reference order, so the literal
`if` string — unlike its set of disjuncts — depends on the processing order
(see the counterexample). -/
theorem c2_compiled_if_spec (first : List String) (rest : List (List String))
    (ids : OM String) :
    (refsFold first rest = none ↔ first = [] ∨ [] ∈ rest) ∧
    (∀ l, refsFold first rest = some l →
      l.Nodup ∧ ∀ p, p ∈ l ↔ p ∈ first ∨ ∃ r ∈ rest, p ∈ r) ∧
    (∀ first2 rest2, List.Perm (first :: rest) (first2 :: rest2) →
      ((refsFold first rest = none) ↔ (refsFold first2 rest2 = none)) ∧
      (∀ l l2, refsFold first rest = some l → refsFold first2 rest2 = some l2 →
        ∀ p, p ∈ l ↔ p ∈ l2)) ∧
    (compileIf none ids = none) ∧
    (∀ l, compileIf (some l) ids =
      some (joinSep " || " (l.map (depOrCondition ids)))) := by
  have hnone : ∀ (f : List String) (rs : List (List String)),
      refsFold f rs = none ↔ [] ∈ f :: rs := by
    intro f rs
    unfold refsFold
    rw [foldl_applyRef_none_iff, initialPathDeps_none_iff]
    simp [eq_comm]
  have hmem : ∀ (f : List String) (rs : List (List String)) l,
      refsFold f rs = some l → ∀ p, p ∈ l ↔ ∃ r ∈ f :: rs, p ∈ r := by
    intro f rs l h p
    unfold refsFold at h
    cases hc : initialPathDeps f with
    | none => rw [hc, foldl_applyRef_none] at h; cases h
    | some c =>
        rw [hc] at h
        rw [foldl_applyRef_mem _ _ _ h p]
        rw [initialPathDeps_mem f c hc p]
        constructor
        · rintro (hp | ⟨r, hr, hp⟩)
          · exact ⟨f, by simp, hp⟩
          · exact ⟨r, by simp [hr], hp⟩
        · rintro ⟨r, hr, hp⟩
          rcases List.mem_cons.mp hr with rfl | hr
          · exact Or.inl hp
          · exact Or.inr ⟨r, hr, hp⟩
  refine ⟨?_, ?_, ?_, rfl, fun l => rfl⟩
  · rw [hnone]
    simp [eq_comm]
  · intro l h
    refine ⟨foldl_applyRef_nodup _ _ _ h ?_, fun p => ?_⟩
    · intro c hc
      simp only [initialPathDeps] at hc
      split at hc
      · cases hc
      · cases hc
        exact foldl_setInsert_nodup _ _ (by simp)
    · rw [hmem _ _ _ h p]
      simp
  · intro first2 rest2 hperm
    constructor
    · rw [hnone, hnone]
      exact ⟨fun h => hperm.mem_iff.mp h, fun h => hperm.mem_iff.mpr h⟩
    · intro l l2 h1 h2 p
      rw [hmem _ _ _ h1 p, hmem _ _ _ h2 p]
      constructor
      · rintro ⟨r, hr, hp⟩
        exact ⟨r, hperm.mem_iff.mp hr, hp⟩
      · rintro ⟨r, hr, hp⟩
        exact ⟨r, hperm.mem_iff.mpr hr, hp⟩

/-- Counterexample to C2 as stated: the same two referencing sites,
processed in the two possible orders, compile to different `if` strings
(the disjuncts swap). -/
theorem c2_counterexample :
    List.Perm [["p"], ["q"]] [["q"], ["p"]] ∧
    compileIf (refsFold ["p"] [["q"]]) [("p", "p"), ("q", "q")] =
      some "steps.p.outputs.changed == 'true' || steps.q.outputs.changed == 'true'" ∧
    compileIf (refsFold ["q"] [["p"]]) [("p", "p"), ("q", "q")] =
      some "steps.q.outputs.changed == 'true' || steps.p.outputs.changed == 'true'" ∧
    compileIf (refsFold ["p"] [["q"]]) [("p", "p"), ("q", "q")] ≠
      compileIf (refsFold ["q"] [["p"]]) [("p", "p"), ("q", "q")] := by
  exact ⟨List.Perm.swap _ _ _, rfl, rfl, by decide⟩

/-- Witness for C2 at a concrete input. -/
theorem c2_witness :
    refsFold ["p"] [[]] = none ∧ compileIf (refsFold ["p"] [[]]) [] = none := by
  have h := c2_compiled_if_spec ["p"] [[]] []
  have h1 : refsFold ["p"] [[]] = none := h.1.mpr (Or.inr (by simp))
  exact ⟨h1, by rw [h1]; exact h.2.2.2.1⟩

/-! ## Claim C8: setup-group emission. -/

theorem emitList_not_single (name : String) (arr : List Step) (pathsIf : Option String)
    (h : ∀ st, arr ≠ [st]) :
    emitList name arr pathsIf =
      [maybeAddIf pathsIf (startMarker name)]
        ++ arr.map (maybeAddIf pathsIf)
        ++ [maybeAddIf pathsIf (endMarker name)] := by
  match arr with
  | [] => rfl
  | [st] => exact absurd rfl (h st)
  | a :: b :: rest => rfl

/-- C8 (amended): emission of a setup-group node depends only on its steps
list: a setup record with no steps list emits nothing; a list of exactly
one step emits that single step with the derived `if` attached and a name
prefixed with the setup's name and the original step's name (or empty if
unnamed); any other list length — zero included — emits a generated start
marker, every contained step, and a generated end marker, the derived `if`
attached to every emitted step. -/
theorem c8_emitSetup_spec (id : String) (pathsIf : Option String) :
    (∀ s, itemStepsOf s = none → emitSetupSteps id (some s) pathsIf = .ok []) ∧
    (∀ s st, itemStepsOf s = some [st] →
      emitSetupSteps id (some s) pathsIf =
        .ok [maybeAddIf pathsIf
          { st with name := some ("▶️ Setup " ++ id.drop 6 ++ ": " ++ st.name.getD "") }]) ∧
    (∀ s arr, itemStepsOf s = some arr → (∀ st, arr ≠ [st]) →
      emitSetupSteps id (some s) pathsIf =
        .ok ([maybeAddIf pathsIf (startMarker (id.drop 6))]
              ++ arr.map (maybeAddIf pathsIf)
              ++ [maybeAddIf pathsIf (endMarker (id.drop 6))])) := by
  refine ⟨fun s h => ?_, fun s st h => ?_, fun s arr h hne => ?_⟩
  · simp only [emitSetupSteps, h]
  · simp only [emitSetupSteps, h, emitList]
  · simp only [emitSetupSteps, h, emitList_not_single _ _ _ hne]

/-- Counterexample to C8 as stated: a setup whose steps list is empty does
not emit nothing — it emits the start and end marker steps. -/
theorem c8_counterexample :
    emitSetupSteps "setup-x" (some (.steps [])) none = .ok [startMarker "x", endMarker "x"] ∧
    ([startMarker "x", endMarker "x"] : List Step) ≠ [] := by
  exact ⟨rfl, by decide⟩

/-! ## Claim C6: recompilation is deterministic/idempotent. -/

theorem regExtends_refl (r : Reg) : regExtends r r := fun _ _ h => h

theorem regExtends_trans {a b c : Reg} (h1 : regExtends a b) (h2 : regExtends b c) :
    regExtends a c := fun k v h => h2 k v (h1 k v h)

theorem omInsert_fresh_find {V : Type} (m : OM V) (k : String) (v : V) (j : String)
    (h : omFind m k = none) :
    omFind (omInsert m k v) j = if k = j then some v else omFind m j := by
  simp only [omInsert, h, Option.isSome_none, Bool.false_eq_true, if_false]
  rw [omFind_append_one]
  by_cases hkj : k = j
  · subst hkj
    rw [h]
  · cases hj : omFind m j <;> simp [hkj]

theorem makePathsIdAux_extends : ∀ (fuel : Nat) (text : String) (p : List String)
    (num : Nat) (reg : Reg) (k : String) (reg' : Reg),
    makePathsIdAux fuel text p num reg = some (k, reg') → regExtends reg reg' := by
  intro fuel
  induction fuel with
  | zero => intro _ _ _ _ _ _ h; cases h
  | succ fuel ih =>
      intro text p num reg k reg' h
      simp only [makePathsIdAux] at h
      revert h
      generalize (if num = 0 then text else text ++ "-" ++ toString num) = key
      intro h
      split at h
      · rename_i hfind
        cases h
        intro k2 v2 hk2
        rw [omInsert_fresh_find _ _ _ _ hfind]
        split
        · rename_i hkey
          rw [hkey] at hfind
          rw [hfind] at hk2
          cases hk2
        · exact hk2
      · rename_i prev hfind
        split at h
        · cases h; exact regExtends_refl _
        · exact ih _ _ _ _ _ _ h

theorem makePathsIdAux_stable : ∀ (fuel : Nat) (text : String) (p : List String)
    (num : Nat) (reg : Reg) (k : String) (reg' W : Reg),
    makePathsIdAux fuel text p num reg = some (k, reg') → regExtends reg' W →
    makePathsIdAux fuel text p num W = some (k, W) := by
  intro fuel
  induction fuel with
  | zero => intro _ _ _ _ _ _ _ h; cases h
  | succ fuel ih =>
      intro text p num reg k reg' W h hext
      simp only [makePathsIdAux] at h ⊢
      revert h
      generalize (if num = 0 then text else text ++ "-" ++ toString num) = key
      intro h
      split at h
      · rename_i hfind
        cases h
        have hW : omFind W k = some p := by
          apply hext
          rw [omInsert_fresh_find _ _ _ _ hfind]
          simp
        simp only [hW]
        simp
      · rename_i prev hfind
        split at h
        · rename_i hpv
          cases h
          have hW : omFind W k = some p := hext _ _ (hpv ▸ hfind)
          simp only [hW]
          simp
        · rename_i hpv
          have hext0 : regExtends reg reg' := makePathsIdAux_extends _ _ _ _ _ _ _ h
          have hW : omFind W key = some prev := hext _ _ (hext0 _ _ hfind)
          simp only [hW]
          rw [if_neg hpv]
          exact ih _ _ _ _ _ _ _ h hext

theorem makePathsId_extends (p : List String) (reg : Reg) (k : String) (reg' : Reg)
    (h : makePathsId p reg = .ok (k, reg')) : regExtends reg reg' := by
  simp only [makePathsId] at h
  split at h
  · cases h
  · rename_i r heq
    cases h
    exact makePathsIdAux_extends _ _ _ _ _ _ _ heq

theorem makePathsId_stable (p : List String) (reg : Reg) (k : String) (reg' W : Reg)
    (h : makePathsId p reg = .ok (k, reg')) (hext : regExtends reg' W) :
    makePathsId p W = .ok (k, W) := by
  simp only [makePathsId] at h ⊢
  split at h
  · cases h
  · rename_i r heq
    cases h
    rw [makePathsIdAux_stable _ _ _ _ _ _ _ _ heq hext]

theorem emitLoop_extends : ∀ (ord : List String) (nodes : OM Node) (pm : OM String)
    (acc : List Step) (reg reg' : Reg) (res : Except Err (List Step)),
    emitLoop nodes ord pm acc reg = (reg', res) → regExtends reg reg' := by
  intro ord
  induction ord with
  | nil =>
      intro nodes pm acc reg reg' res h
      cases h
      exact regExtends_refl _
  | cons id rest ih =>
      intro nodes pm acc reg reg' res h
      simp only [emitLoop] at h
      split at h
      · cases h; exact regExtends_refl _
      · rename_i nd hnd
        split at h
        · rename_i ps
          split at h
          · cases h; exact regExtends_refl _
          · rename_i pid reg1 hmk
            split at h
            · cases h
              exact makePathsId_extends _ _ _ _ hmk
            · rename_i st hcp
              exact regExtends_trans (makePathsId_extends _ _ _ _ hmk)
                (ih _ _ _ _ _ _ h)
        · rename_i os
          split at h
          · cases h; exact regExtends_refl _
          · rename_i l hes
            exact ih _ _ _ _ _ _ h
        · rename_i st
          exact ih _ _ _ _ _ _ h

theorem emitLoop_stable : ∀ (ord : List String) (nodes : OM Node) (pm : OM String)
    (acc : List Step) (reg reg' : Reg) (res : Except Err (List Step)),
    emitLoop nodes ord pm acc reg = (reg', res) →
    emitLoop nodes ord pm acc reg' = (reg', res) := by
  intro ord
  induction ord with
  | nil =>
      intro nodes pm acc reg reg' res h
      cases h
      rfl
  | cons id rest ih =>
      intro nodes pm acc reg reg' res h
      simp only [emitLoop] at h ⊢
      cases hnd : omFind nodes id with
      | none =>
          rw [hnd] at h
          simp only at h
          cases h
          rfl
      | some nd =>
          rw [hnd] at h
          simp only at h
          simp only
          cases hcont : nd.contents with
          | paths ps =>
              rw [hcont] at h
              simp only at h
              simp only
              cases hmk : makePathsId ps reg with
              | error e =>
                  rw [hmk] at h
                  simp only at h
                  cases h
                  rw [hmk]
              | ok pr =>
                  obtain ⟨pid, reg1⟩ := pr
                  rw [hmk] at h
                  simp only at h
                  cases hcp : compilePaths pid ps with
                  | error e =>
                      rw [hcp] at h
                      simp only at h
                      cases h
                      rw [makePathsId_stable _ _ _ _ _ hmk (regExtends_refl _)]
                      simp only
                      rw [hcp]
                  | ok st =>
                      rw [hcp] at h
                      simp only at h
                      have hext1 : regExtends reg1 reg' := emitLoop_extends _ _ _ _ _ _ _ h
                      rw [makePathsId_stable _ _ _ _ _ hmk hext1]
                      simp only
                      rw [hcp]
                      simp only
                      exact ih _ _ _ _ _ _ h
          | step st =>
              rw [hcont] at h
              simp only at h
              simp only
              exact ih _ _ _ _ _ _ h
          | setup os =>
              rw [hcont] at h
              simp only at h
              simp only
              cases hes : emitSetupSteps id os (compileIf nd.pathDeps pm) with
              | error e =>
                  rw [hes] at h
                  simp only at h
                  cases h
                  rfl
              | ok l =>
                  rw [hes] at h
                  simp only at h
                  simp only
                  exact ih _ _ _ _ _ _ h

/-- C6: compiling the same job and setup table twice — the second run
starting from the registry the first run left behind, as the module-global
`assignedPathIds` persists within a process — produces the identical
compiled job (steps, generated path-check ids and ordering included), the
identical registry, and the identical error, if any. -/
theorem c6_recompile_identical (fuel : Nat) (job : Job) (setups : OM Setup) (reg : Reg)
    (j1 : Job) (r1 : Reg) (e : Option Err)
    (h : compileStepsRun fuel job setups reg = (j1, r1, e)) :
    compileStepsRun fuel job setups r1 = (j1, r1, e) := by
  simp only [compileStepsRun] at h ⊢
  cases hb : (buildSteps fuel { nodes := [], setupSteps := setups } job.steps 0).2 with
  | error e2 =>
      rw [hb] at h
      simp only at h
      cases h
      rfl
  | ok ctx1 =>
      rw [hb] at h
      simp only at h
      simp only
      cases hp : processSetup fuel ctx1 "step-0" job.setup [] with
      | error e2 =>
          rw [hp] at h
          simp only at h
          cases h
          rfl
      | ok ctx2 =>
          rw [hp] at h
          simp only at h
          simp only
          cases hc : addCheckoutEdges ctx2 with
          | error e2 =>
              rw [hc] at h
              simp only at h
              cases h
              rfl
          | ok ctx3 =>
              rw [hc] at h
              simp only at h
              simp only
              cases hk : kahnsAlgorithm ctx3.nodes with
              | error e2 =>
                  rw [hk] at h
                  simp only at h
                  cases h
                  rfl
              | ok p =>
                  obtain ⟨ordering, nodesF⟩ := p
                  rw [hk] at h
                  simp only at h
                  simp only
                  cases he : emitLoop nodesF ordering [] [] reg with
                  | mk rege res2 =>
                      rw [he] at h
                      cases res2 with
                      | error e2 =>
                          simp only at h
                          cases h
                          rw [emitLoop_stable _ _ _ _ _ _ _ he]
                      | ok steps =>
                          simp only at h
                          cases h
                          rw [emitLoop_stable _ _ _ _ _ _ _ he]

/-- Witness for C6 at a concrete input exercising the path-check registry. -/
theorem c6_witness :
    compileStepsRun 10
        { setup := none,
          steps := [{ name := some "hi", setup := some (.inl "checkout"),
                      paths := some (.inl "*.js"), run := some "echo hi" }] }
        [("checkout", Setup.steps [{ run := some "echo checkout" }])]
        [("paths__js", ["*.js"])] =
      compileStepsRun 10
        { setup := none,
          steps := [{ name := some "hi", setup := some (.inl "checkout"),
                      paths := some (.inl "*.js"), run := some "echo hi" }] }
        [("checkout", Setup.steps [{ run := some "echo checkout" }])]
        [] := by
  have h := c6_recompile_identical 10
    { setup := none,
      steps := [{ name := some "hi", setup := some (.inl "checkout"),
                  paths := some (.inl "*.js"), run := some "echo hi" }] }
    [("checkout", Setup.steps [{ run := some "echo checkout" }])]
    [] _ _ _ rfl
  exact h

/-! ## Claim C10: empty step list with a job-level setup reference. -/

theorem setup_key_ne_step0 (sid : String) : "setup-" ++ sid ≠ "step-0" := by
  intro h
  have h2 := congrArg String.data h
  rw [String.data_append] at h2
  simp at h2

/-- C10 (amended): a job with an empty steps list and a non-empty setup
reference always fails instead of compiling — with the runtime type error
from adding an edge to the nonexistent node `step-0` whenever the first
setup reference resolves, and with the invalid-setup (or fuel) error
otherwise; the job is returned with its `setup` reference still attached
and its (empty) steps not replaced.  A job with an empty steps list and no
setup reference compiles to an empty step list. -/
theorem c10_spec (fuel : Nat) (job : Job) (setups : OM Setup) (reg : Reg)
    (h0 : job.steps = []) :
    (∀ s rest, setupList job.setup = s :: rest →
      ∃ e, compileStepsRun (fuel + 1) job setups reg =
          ({ job with steps := ([] : List Step) }, reg, some e) ∧
        ∀ k ctx1, addSetup fuel { nodes := [], setupSteps := setups } s [] = .ok (k, ctx1) →
          e = .typeError ("no node " ++ "step-0")) ∧
    (setupList job.setup = [] →
      compileStepsRun (fuel + 1) job setups reg =
        ({ setup := none, steps := [] }, reg, none)) := by
  constructor
  · intro s rest hsl
    simp only [compileStepsRun, h0, buildSteps, processSetup, hsl, processSetupListGo]
    cases ha : addSetup fuel { nodes := [], setupSteps := setups } s [] with
    | error e =>
        refine ⟨e, by simp [ha], fun k c hc => ?_⟩
        cases hc
    | ok kc =>
        obtain ⟨k, ctx1⟩ := kc
        have hkeys := (addSetup_keys fuel _ s [] k ctx1 ha).2.2
        have hno : omFind ctx1.nodes "step-0" = none := by
          cases hfind : omFind ctx1.nodes "step-0" with
          | none => rfl
          | some v =>
              have hmem : "step-0" ∈ omKeys ctx1.nodes :=
                (omFind_isSome_iff _ _).mp (by simp [hfind])
              rcases hkeys _ hmem with hmem2 | ⟨s2, hs2⟩
              · simp [omKeys] at hmem2
              · exact absurd hs2.symm (setup_key_ne_step0 s2)
        have hedge : addEdge ctx1 "step-0" k =
            .error (.typeError ("no node " ++ "step-0")) := by
          simp only [addEdge, hno]
        refine ⟨.typeError ("no node " ++ "step-0"), ?_, fun k2 c2 _ => rfl⟩
        simp [ha, hedge]
  · intro hsl
    simp only [compileStepsRun, h0, buildSteps, processSetup, hsl, processSetupListGo,
      addCheckoutEdges, omKeys, checkoutEdgesList, kahnsAlgorithm, kahnInit, kahnLoop,
      edgesLeftOf, emitLoop, processBailUnless, bailIndices]
    rfl

/-- Counterexample to C10 as stated: with an empty steps list and the
setup reference `nope` absent from the setup table, the failure is the
explicit `Invalid setupId` error, not a runtime type error. -/
theorem c10_counterexample :
    compileStepsRun 5 { setup := some (.inl "nope"), steps := [] } [] [] =
      ({ setup := some (.inl "nope"), steps := [] }, [],
        some (.error "Invalid setupId: nope")) ∧
    ∀ msg, (Err.error "Invalid setupId: nope") ≠ .typeError msg := by
  exact ⟨rfl, fun msg h => by cases h⟩

/-- Witness for C10 at a concrete input (resolving setup reference: the
runtime type error). -/
theorem c10_witness :
    compileStepsRun 5 { setup := some (.inl "checkout"), steps := [] }
      [("checkout", .steps [])] [] =
    ({ setup := some (.inl "checkout"), steps := [] }, [],
      some (.typeError "no node step-0")) := by
  obtain ⟨e, he, hk⟩ := (c10_spec 4 { setup := some (.inl "checkout"), steps := [] }
      [("checkout", .steps [])] [] rfl).1 "checkout" [] rfl
  have he2 : e = .typeError "no node step-0" := hk _ _ rfl
  rw [he2] at he
  exact he

/-- Witness for C8 at a concrete input. -/
theorem c8_witness :
    emitSetupSteps "setup-y" (some (.steps [{ run := some "r" }])) (some "C") =
      .ok [maybeAddIf (some "C")
        { ({ run := some "r" } : Step) with
            name := some ("▶️ Setup " ++ "setup-y".drop 6 ++ ": "
              ++ (({ run := some "r" } : Step)).name.getD "") }] := by
  exact (c8_emitSetup_spec "setup-y" (some "C")).2.1 (.steps [{ run := some "r" }])
    { run := some "r" } rfl

/-! ## Kahn's algorithm: invariant, correctness and the cycle case (C1, C4). -/

theorem mem_of_omFind {V : Type} {m : OM V} {k : String} {v : V}
    (h : omFind m k = some v) : (k, v) ∈ m := by
  unfold omFind at h
  cases hf : m.find? (fun p => p.1 = k) with
  | none => rw [hf] at h; simp at h
  | some q =>
      rw [hf] at h
      simp only [Option.map_some'] at h
      have hq := List.find?_some hf
      have hmem := List.mem_of_find?_eq_some hf
      have : q.1 = k := by simpa using hq
      cases h
      cases q
      simp_all

theorem omFind_of_mem_nodup {V : Type} {m : OM V}
    (hnd : (omKeys m).Nodup) {k : String} {v : V} (hm : (k, v) ∈ m) :
    omFind m k = some v := by
  induction m with
  | nil => cases hm
  | cons p rest ih =>
      simp only [omKeys, List.map_cons, List.nodup_cons] at hnd
      cases hm with
      | head => unfold omFind; simp
      | tail _ hm' =>
          have hk : p.1 ≠ k := by
            intro he
            exact hnd.1 (he ▸ (List.mem_map.mpr ⟨(k, v), hm', rfl⟩))
          unfold omFind
          simp only [List.find?_cons, decide_eq_false hk]
          simpa [omFind] using ih hnd.2 hm'

theorem omFind_keyMap {V W : Type} (F : String → V → W) (m : OM V) (j : String) :
    omFind (m.map (fun p => (p.1, F p.1 p.2))) j = (omFind m j).map (F j) := by
  induction m with
  | nil => rfl
  | cons p rest ih =>
      unfold omFind
      simp only [List.map_cons, List.find?_cons]
      by_cases hj : p.1 = j
      · subst hj; simp
      · simp only [decide_eq_false hj]
        simpa [omFind] using ih

theorem omMod_keyMap {V W : Type} (F : String → V → W) (m : OM V) (k : String)
    (g : W → W) :
    omMod (m.map (fun p => (p.1, F p.1 p.2))) k g
      = m.map (fun p => (p.1, if p.1 = k then g (F p.1 p.2) else F p.1 p.2)) := by
  unfold omMod
  rw [List.map_map]
  apply List.map_congr_left
  intro p _
  by_cases h : p.1 = k <;> simp [h, Function.comp]

theorem omKeys_keyMap {V W : Type} (F : String → V → W) (m : OM V) :
    omKeys (m.map (fun p => (p.1, F p.1 p.2))) = omKeys m := by
  unfold omKeys
  rw [List.map_map]
  rfl

theorem origBefore_eq {orig : OM Node} {k : String} {n : Node}
    (h : omFind orig k = some n) : origBefore orig k = n.before := by
  simp [origBefore, h]

theorem origAfter_eq {orig : OM Node} {k : String} {n : Node}
    (h : omFind orig k = some n) : origAfter orig k = n.after := by
  simp [origAfter, h]

theorem omFind_kahnRep (orig : OM Node) (L : List String) (j : String) :
    omFind (kahnRep orig L) j
      = (omFind orig j).map (fun n =>
          { n with before := n.before.filter (fun b => decide (¬ b ∈ L)),
                   after := if j ∈ L then [] else n.after }) := by
  unfold kahnRep
  exact omFind_keyMap
    (fun k n => { n with before := n.before.filter (fun b => decide (¬ b ∈ L)),
                         after := if k ∈ L then [] else n.after }) orig j

theorem omFind_kahnRep2 (orig : OM Node) (L : List String) (nodeId : String)
    (done : List String) (j : String) :
    omFind (kahnRep2 orig L nodeId done) j
      = (omFind orig j).map (fun n =>
          { n with
            before := n.before.filter
              (fun b => decide (¬ b ∈ L ∧ ¬ (b = nodeId ∧ j ∈ done))),
            after := if j = nodeId then n.after.filter (fun a => decide (¬ a ∈ done))
                     else if j ∈ L then [] else n.after }) := by
  unfold kahnRep2
  exact omFind_keyMap
    (fun k n =>
      { n with
        before := n.before.filter
          (fun b => decide (¬ b ∈ L ∧ ¬ (b = nodeId ∧ k ∈ done))),
        after := if k = nodeId then n.after.filter (fun a => decide (¬ a ∈ done))
                 else if k ∈ L then [] else n.after }) orig j

theorem omKeys_kahnRep (orig : OM Node) (L : List String) :
    omKeys (kahnRep orig L) = omKeys orig := by
  unfold kahnRep
  exact omKeys_keyMap
    (fun k n => { n with before := n.before.filter (fun b => decide (¬ b ∈ L)),
                         after := if k ∈ L then [] else n.after }) orig

theorem kahnRep_nil (orig : OM Node) : kahnRep orig [] = orig := by
  unfold kahnRep
  conv_rhs => rw [← List.map_id orig]
  apply List.map_congr_left
  intro p _
  simp

theorem kahnRep2_done_nil (orig : OM Node) (L : List String) (nodeId : String)
    (hnl : nodeId ∉ L) : kahnRep2 orig L nodeId [] = kahnRep orig L := by
  unfold kahnRep2 kahnRep
  apply List.map_congr_left
  intro p _
  by_cases h : p.1 = nodeId
  · subst h
    simp [hnl]
  · simp [h]

theorem kahnRep2_step (orig : OM Node) (L : List String) (nodeId a : String)
    (done : List String) (hna : a ≠ nodeId) :
    omMod (omMod (kahnRep2 orig L nodeId done) nodeId
        (fun n => { n with after := setErase n.after a })) a
      (fun n => { n with before := setErase n.before nodeId })
      = kahnRep2 orig L nodeId (done ++ [a]) := by
  unfold kahnRep2 omMod
  simp only [List.map_map]
  apply List.map_congr_left
  rintro ⟨k, n⟩ hp
  by_cases hka : k = a
  · subst hka
    have hkn : k ≠ nodeId := hna
    simp only [Function.comp, hkn, if_false, if_pos rfl, reduceIte, setErase,
      List.filter_filter]
    refine Prod.ext rfl ?_
    simp only
    congr 1
    apply List.filter_congr
    intro b _
    by_cases h1 : b ∈ L <;> by_cases h2 : b = nodeId <;>
      simp [h1, h2, List.mem_append]
  · by_cases hkn : k = nodeId
    · subst hkn
      simp only [Function.comp, hka, if_false, if_pos rfl, reduceIte, setErase,
        List.filter_filter]
      refine Prod.ext rfl ?_
      simp only
      congr 1
      · apply List.filter_congr
        intro b _
        by_cases h1 : b ∈ L <;> by_cases h2 : b = k <;>
          simp [h1, h2, List.mem_append, hka]
      · apply List.filter_congr
        intro x _
        by_cases h1 : x ∈ done <;> by_cases h2 : x = a <;>
          simp [h1, h2, List.mem_append]
    · simp only [Function.comp, hka, hkn, if_false, reduceIte]
      refine Prod.ext rfl ?_
      simp only
      congr 1
      apply List.filter_congr
      intro b _
      by_cases h1 : b ∈ L <;> by_cases h2 : b = nodeId <;>
        simp [h1, h2, List.mem_append, hka, hkn]

theorem mem_kahnPushes {orig : OM Node} {L : List String} {nodeId : String}
    {rest : List String} {a : String} :
    a ∈ kahnPushes orig L nodeId rest
      ↔ a ∈ rest ∧ ∀ b ∈ origBefore orig a, b ∈ L ∨ b = nodeId := by
  unfold kahnPushes
  simp [List.mem_filter]

theorem processAfters_spec (orig : OM Node) (L : List String) (nodeId : String) :
    ∀ (rest done S : List String),
      (∀ a ∈ rest, a ∈ omKeys orig) → (∀ a ∈ rest, a ≠ nodeId) →
      processAfters (kahnRep2 orig L nodeId done) nodeId rest S
        = (kahnRep2 orig L nodeId (done ++ rest),
           S ++ kahnPushes orig L nodeId rest) := by
  intro rest
  induction rest with
  | nil =>
      intro done S _ _
      simp [processAfters, kahnPushes]
  | cons a rest ih =>
      intro done S hmem hne
      have hna : a ≠ nodeId := hne a (by simp)
      have hamem : a ∈ omKeys orig := hmem a (by simp)
      obtain ⟨na, hfind⟩ : ∃ na, omFind orig a = some na :=
        Option.isSome_iff_exists.mp ((omFind_isSome_iff orig a).mpr hamem)
      simp only [processAfters]
      rw [kahnRep2_step orig L nodeId a done hna]
      rw [omFind_kahnRep2, hfind]
      simp only [Option.map_some']
      have hob : origBefore orig a = na.before := origBefore_eq hfind
      by_cases hP : ∀ b ∈ origBefore orig a, b ∈ L ∨ b = nodeId
      · have hflt : na.before.filter
            (fun b => decide (¬ b ∈ L ∧ ¬ (b = nodeId ∧ a ∈ done ++ [a]))) = [] := by
          rw [List.filter_eq_nil_iff]
          intro b hb
          have := hP b (hob ▸ hb)
          simp only [List.mem_append, List.mem_singleton, decide_eq_true_eq]
          rintro ⟨hbl, hbn⟩
          rcases this with h | h
          · exact hbl h
          · exact hbn ⟨h, Or.inr trivial⟩
        rw [hflt]
        simp only [List.isEmpty_nil, if_true]
        rw [ih (done ++ [a]) (S ++ [a]) (fun x hx => hmem x (by simp [hx]))
          (fun x hx => hne x (by simp [hx]))]
        have hPd : kahnPushes orig L nodeId (a :: rest)
            = a :: kahnPushes orig L nodeId rest := by
          unfold kahnPushes
          rw [List.filter_cons, if_pos (by simpa using hP)]
        rw [hPd]
        simp [List.append_assoc]
      · obtain ⟨b, hb, hbn⟩ : ∃ b ∈ origBefore orig a, ¬ (b ∈ L ∨ b = nodeId) := by
          push_neg at hP
          obtain ⟨b, hb1, hb2, hb3⟩ := hP
          exact ⟨b, hb1, by simp [hb2, hb3]⟩
        have hbf : b ∈ na.before.filter
            (fun b => decide (¬ b ∈ L ∧ ¬ (b = nodeId ∧ a ∈ done ++ [a]))) := by
          rw [List.mem_filter]
          refine ⟨hob ▸ hb, ?_⟩
          simp only [decide_eq_true_eq]
          push_neg at hbn
          exact ⟨hbn.1, fun hc => hbn.2 hc.1⟩
        have hflt : (na.before.filter
            (fun b => decide (¬ b ∈ L ∧ ¬ (b = nodeId ∧ a ∈ done ++ [a])))).isEmpty
              = false := by
          cases hq : na.before.filter
              (fun b => decide (¬ b ∈ L ∧ ¬ (b = nodeId ∧ a ∈ done ++ [a]))) with
          | nil => rw [hq] at hbf; cases hbf
          | cons x xs => simp
        rw [hflt]
        simp only [if_false, Bool.false_eq_true, reduceIte]
        rw [ih (done ++ [a]) S (fun x hx => hmem x (by simp [hx]))
          (fun x hx => hne x (by simp [hx]))]
        have hPd : kahnPushes orig L nodeId (a :: rest)
            = kahnPushes orig L nodeId rest := by
          unfold kahnPushes
          rw [List.filter_cons, if_neg (by simpa using hP)]
        rw [hPd]
        simp [List.append_assoc]

theorem kahnRep2_full (orig : OM Node) (L : List String) (nodeId : String)
    (nn : Node) (hnd : (omKeys orig).Nodup)
    (hfind : omFind orig nodeId = some nn)
    (hcons : ∀ p ∈ orig, ∀ q ∈ orig, q.1 ∈ p.2.before ↔ p.1 ∈ q.2.after)
    (hnl : nodeId ∉ L) :
    kahnRep2 orig L nodeId nn.after = kahnRep orig (L ++ [nodeId]) := by
  have hmemN : (nodeId, nn) ∈ orig := mem_of_omFind hfind
  unfold kahnRep2 kahnRep
  apply List.map_congr_left
  rintro ⟨k, n⟩ hp
  refine Prod.ext rfl ?_
  have hba : nodeId ∈ n.before ↔ k ∈ nn.after := hcons (k, n) hp (nodeId, nn) hmemN
  simp only
  by_cases hkn : k = nodeId
  · have hnfind : omFind orig nodeId = some n := by
      rw [← hkn]; exact omFind_of_mem_nodup hnd hp
    have hnn : n = nn := by
      rw [hfind] at hnfind; exact (Option.some.inj hnfind).symm
    congr 1
    · apply List.filter_congr
      intro b hb
      by_cases hbn : b = nodeId
      · by_cases hself : nodeId ∈ nn.after
        · simp [hbn, hself, hkn, List.mem_append, hnl]
        · have hnb : nodeId ∉ n.before := fun hc => hself (hkn ▸ hba.mp hc)
          exact absurd (hbn ▸ hb) hnb
      · simp [hbn, List.mem_append]
    · rw [if_pos hkn, if_pos (by simp [hkn]), hnn]
      apply List.filter_eq_nil_iff.mpr
      intro a ha
      simp [ha]
  · congr 1
    · apply List.filter_congr
      intro b hb
      by_cases hbn : b = nodeId
      · have hka : k ∈ nn.after := hba.mp (hbn ▸ hb)
        simp [hbn, hka, List.mem_append, hnl]
      · simp [hbn, List.mem_append]
    · rw [if_neg hkn]
      by_cases hkL : k ∈ L <;> simp [hkL, hkn, List.mem_append]

theorem snoc_split {α : Type} {L l1 l2 : List α} {x k : α}
    (h : L ++ [x] = l1 ++ k :: l2) :
    (l1 = L ∧ k = x ∧ l2 = []) ∨ ∃ l2', L = l1 ++ k :: l2' ∧ l2 = l2' ++ [x] := by
  rcases List.eq_nil_or_concat l2 with h2 | ⟨l2', x', h2⟩
  · subst h2
    left
    have hlen : L.length = l1.length := by
      have := congrArg List.length h
      simp at this
      omega
    obtain ⟨h3, h4⟩ := List.append_inj h hlen
    refine ⟨h3.symm, ?_, rfl⟩
    simpa using h4.symm
  · subst h2
    right
    rw [List.concat_eq_append] at h
    rw [show l1 ++ k :: (l2' ++ [x']) = (l1 ++ k :: l2') ++ [x'] by simp] at h
    have hlen : L.length = (l1 ++ k :: l2').length := by
      have := congrArg List.length h
      simp at this
      simp
      omega
    obtain ⟨h3, h4⟩ := List.append_inj h hlen
    have hx : x = x' := by simpa using h4
    exact ⟨l2', h3, by rw [hx, List.concat_eq_append]⟩

theorem kahn_pop (orig nodes : OM Node) (S2 L : List String) (nodeId : String)
    (hWF : GraphWF orig) (hK : KState orig nodes (nodeId :: S2) L) :
    KState orig
      (processAfters nodes nodeId (((omFind nodes nodeId).map (·.after)).getD []) S2).1
      (processAfters nodes nodeId (((omFind nodes nodeId).map (·.after)).getD []) S2).2
      (L ++ [nodeId]) := by
  obtain ⟨hnd, hwf, hcons⟩ := hWF
  obtain ⟨hrep, hnodup, hmem, hready, horder⟩ := hK
  have hnIdKeys : nodeId ∈ omKeys orig := hmem nodeId (by simp)
  obtain ⟨nn, hfind⟩ : ∃ nn, omFind orig nodeId = some nn :=
    Option.isSome_iff_exists.mp ((omFind_isSome_iff orig nodeId).mpr hnIdKeys)
  have hmemN : (nodeId, nn) ∈ orig := mem_of_omFind hfind
  have hnl : nodeId ∉ L := by
    intro hc
    exact (List.nodup_append.mp hnodup).2.2 hc (by simp)
  have hreadyN : ∀ b ∈ origBefore orig nodeId, b ∈ L :=
    ((hready nodeId).mp (Or.inr (by simp))).2
  have hself : nodeId ∉ nn.after := by
    intro hc
    have h1 : nodeId ∈ nn.before := (hcons (nodeId, nn) hmemN (nodeId, nn) hmemN).mpr hc
    have h2 : nodeId ∈ L := hreadyN nodeId (by rw [origBefore_eq hfind]; exact h1)
    exact hnl h2
  have hwfN := hwf (nodeId, nn) hmemN
  have haftKeys : ∀ a ∈ nn.after, a ∈ omKeys orig := hwfN.2.2.2
  have haftNodup : nn.after.Nodup := hwfN.2.1
  have hback : ∀ a ∈ nn.after, nodeId ∈ origBefore orig a := by
    intro a ha
    obtain ⟨na, hfa⟩ : ∃ na, omFind orig a = some na :=
      Option.isSome_iff_exists.mp ((omFind_isSome_iff orig a).mpr (haftKeys a ha))
    rw [origBefore_eq hfa]
    exact (hcons (a, na) (mem_of_omFind hfa) (nodeId, nn) hmemN).mpr ha
  have hafters : ((omFind nodes nodeId).map (·.after)).getD [] = nn.after := by
    rw [hrep, omFind_kahnRep, hfind]
    simp [hnl]
  rw [hafters]
  have hnodes2 : nodes = kahnRep2 orig L nodeId [] := by
    rw [hrep, kahnRep2_done_nil orig L nodeId hnl]
  rw [hnodes2, processAfters_spec orig L nodeId nn.after [] S2 haftKeys
    (fun a ha he => hself (he ▸ ha))]
  simp only [List.nil_append]
  have hrep' : kahnRep2 orig L nodeId nn.after = kahnRep orig (L ++ [nodeId]) :=
    kahnRep2_full orig L nodeId nn hnd hfind hcons hnl
  have hPsub : ∀ a ∈ kahnPushes orig L nodeId nn.after,
      a ∈ nn.after ∧ ∀ b ∈ origBefore orig a, b ∈ L ∨ b = nodeId :=
    fun a ha => mem_kahnPushes.mp ha
  have hPnodup : (kahnPushes orig L nodeId nn.after).Nodup := haftNodup.filter _
  have hPfresh : ∀ a ∈ kahnPushes orig L nodeId nn.after,
      a ∉ L ∧ a ≠ nodeId ∧ a ∉ S2 := by
    intro a ha
    have haft := (hPsub a ha).1
    have hstuck : (a ∈ L ∨ a ∈ nodeId :: S2) → False := by
      intro hc
      have hrdy : ∀ b ∈ origBefore orig a, b ∈ L := by
        rcases hc with hc | hc
        · exact ((hready a).mp (Or.inl hc)).2
        · exact ((hready a).mp (Or.inr hc)).2
      exact hnl (hrdy nodeId (hback a haft))
    refine ⟨fun hc => hstuck (Or.inl hc), fun hc => hstuck (Or.inr (by simp [hc])),
      fun hc => hstuck (Or.inr (by simp [hc]))⟩
  refine ⟨hrep', ?_, ?_, ?_, ?_⟩
  · have h1 : ((L ++ [nodeId]) ++ S2).Nodup := by
      rw [← List.append_cons]
      exact hnodup
    rw [← List.append_assoc]
    refine List.Nodup.append h1 hPnodup ?_
    intro a haX haP
    obtain ⟨h2, h3, h4⟩ := hPfresh a haP
    simp only [List.mem_append, List.mem_singleton] at haX
    rcases haX with (hc | hc) | hc
    · exact h2 hc
    · exact h3 hc
    · exact h4 hc
  · intro k hk
    simp only [List.mem_append, List.mem_singleton] at hk
    rcases hk with (hc | hc) | hc | hc
    · exact hmem k (by simp [hc])
    · exact hc ▸ hnIdKeys
    · exact hmem k (by simp [hc])
    · exact haftKeys k (hPsub k hc).1
  · intro k
    constructor
    · intro hk
      rcases hk with hk | hk
      · simp only [List.mem_append, List.mem_singleton] at hk
        rcases hk with hc | hc
        · obtain ⟨hk1, hk2⟩ := (hready k).mp (Or.inl hc)
          exact ⟨hk1, fun b hb => by simp [hk2 b hb]⟩
        · subst hc
          exact ⟨hnIdKeys, fun b hb => by simp [hreadyN b hb]⟩
      · simp only [List.mem_append] at hk
        rcases hk with hc | hc
        · obtain ⟨hk1, hk2⟩ := (hready k).mp (Or.inr (by simp [hc]))
          exact ⟨hk1, fun b hb => by simp [hk2 b hb]⟩
        · obtain ⟨hk1, hk2⟩ := hPsub k hc
          refine ⟨haftKeys k hk1, fun b hb => ?_⟩
          rcases hk2 b hb with h | h <;> simp [h]
    · rintro ⟨hkkeys, hkb⟩
      by_cases hall : ∀ b ∈ origBefore orig k, b ∈ L
      · have := (hready k).mpr ⟨hkkeys, hall⟩
        rcases this with hc | hc
        · exact Or.inl (by simp [hc])
        · simp only [List.mem_cons] at hc
          rcases hc with hc | hc
          · exact Or.inl (by simp [hc])
          · exact Or.inr (by simp [hc])
      · push_neg at hall
        obtain ⟨b0, hb0, hb0nl⟩ := hall
        have hb0n : b0 = nodeId := by
          rcases (by simpa using hkb b0 hb0 : b0 ∈ L ∨ b0 = nodeId) with h | h
          · exact absurd h hb0nl
          · exact h
        obtain ⟨nk, hfk⟩ : ∃ nk, omFind orig k = some nk :=
          Option.isSome_iff_exists.mp ((omFind_isSome_iff orig k).mpr hkkeys)
        have hkaft : k ∈ nn.after := by
          refine (hcons (k, nk) (mem_of_omFind hfk) (nodeId, nn) hmemN).mp ?_
          rw [origBefore_eq hfk] at hb0
          exact hb0n ▸ hb0
        have hkP : k ∈ kahnPushes orig L nodeId nn.after := by
          refine mem_kahnPushes.mpr ⟨hkaft, fun b hb => ?_⟩
          simpa using hkb b hb
        exact Or.inr (by simp [hkP])
  · intro l1 k l2 hsplit b hb
    rcases snoc_split hsplit with ⟨hl1, hkx, _⟩ | ⟨l2', hL, _⟩
    · subst hkx
      subst hl1
      exact hreadyN b hb
    · exact horder l1 k l2' hL b hb

theorem kahnInit_mem (orig : OM Node) (hnd : (omKeys orig).Nodup) (k : String) :
    k ∈ kahnInit orig ↔ k ∈ omKeys orig ∧ origBefore orig k = [] := by
  unfold kahnInit
  constructor
  · intro hk
    obtain ⟨p, hpf, hpk⟩ := List.mem_map.mp hk
    obtain ⟨hpm, hpe⟩ := List.mem_filter.mp hpf
    have hfind : omFind orig p.1 = some p.2 := omFind_of_mem_nodup hnd (by
      cases p; exact hpm)
    subst hpk
    refine ⟨List.mem_map.mpr ⟨p, hpm, rfl⟩, ?_⟩
    rw [origBefore_eq hfind]
    exact List.isEmpty_iff.mp (by simpa using hpe)
  · rintro ⟨hkk, hkb⟩
    obtain ⟨n, hfind⟩ : ∃ n, omFind orig k = some n :=
      Option.isSome_iff_exists.mp ((omFind_isSome_iff orig k).mpr hkk)
    have hmem : (k, n) ∈ orig := mem_of_omFind hfind
    have hnb : n.before = [] := by rw [← origBefore_eq hfind]; exact hkb
    exact List.mem_map.mpr ⟨(k, n), List.mem_filter.mpr ⟨hmem, by simp [hnb]⟩, rfl⟩

theorem kahnInit_nodup (orig : OM Node) (hnd : (omKeys orig).Nodup) :
    (kahnInit orig).Nodup := by
  unfold kahnInit
  exact List.Nodup.sublist ((List.filter_sublist orig).map (·.1)) hnd

theorem kahn_initState (orig : OM Node) (hWF : GraphWF orig) :
    KState orig orig (kahnInit orig) [] := by
  obtain ⟨hnd, _, _⟩ := hWF
  refine ⟨(kahnRep_nil orig).symm, ?_, ?_, ?_, ?_⟩
  · simpa using kahnInit_nodup orig hnd
  · intro k hk
    simp only [List.nil_append] at hk
    exact ((kahnInit_mem orig hnd k).mp hk).1
  · intro k
    rw [List.mem_nil_iff, false_or]
    rw [kahnInit_mem orig hnd k]
    constructor
    · rintro ⟨h1, h2⟩
      exact ⟨h1, by simp [h2]⟩
    · rintro ⟨h1, h2⟩
      refine ⟨h1, List.eq_nil_iff_forall_not_mem.mpr fun b hb => ?_⟩
      simpa using h2 b hb
  · intro l1 k l2 hsplit
    exact absurd hsplit.symm (by simp)

theorem kahnLoop_spec (orig : OM Node) (hWF : GraphWF orig) :
    ∀ (fuel : Nat) (S L : List String) (nodes : OM Node),
      KState orig nodes S L →
      (omKeys orig).length + 1 ≤ fuel + L.length →
      ∃ nodesF LF, kahnLoop fuel nodes S L = some (nodesF, LF) ∧
        KState orig nodesF [] LF := by
  intro fuel
  induction fuel with
  | zero =>
      intro S L nodes hK hfuel
      exfalso
      have hLnodup : L.Nodup := List.Nodup.of_append_left hK.nodupLS
      have hLsub : L ⊆ omKeys orig := fun k hk => hK.memLS k (by simp [hk])
      have := (List.Nodup.subperm hLnodup hLsub).length_le
      omega
  | succ fuel ih =>
      intro S L nodes hK hfuel
      cases S with
      | nil => exact ⟨nodes, L, by simp [kahnLoop], hK⟩
      | cons nodeId S2 =>
          have hK' := kahn_pop orig nodes S2 L nodeId hWF hK
          obtain ⟨nodesF, LF, heq, hKF⟩ :=
            ih _ _ _ hK' (by simp only [List.length_append, List.length_singleton]; omega)
          exact ⟨nodesF, LF, by simp only [kahnLoop]; exact heq, hKF⟩

theorem cycleOfStuck (rel : String → String → Prop) (R : List String)
    (hne : R ≠ []) (hstep : ∀ k ∈ R, ∃ b ∈ R, rel b k) :
    ∃ x, Relation.TransGen rel x x := by
  classical
  obtain ⟨f, hf⟩ : ∃ f : String → String, ∀ k ∈ R, f k ∈ R ∧ rel (f k) k := by
    refine ⟨fun k => if h : k ∈ R then Classical.choose (hstep k h) else k, ?_⟩
    intro k hk
    simp only
    rw [dif_pos hk]
    have := Classical.choose_spec (hstep k hk)
    simpa using this
  obtain ⟨k0, hk0⟩ : ∃ k0, k0 ∈ R := by
    cases R with
    | nil => exact absurd rfl hne
    | cons a t => exact ⟨a, by simp⟩
  have hiterAll : ∀ (n : Nat) (k : String), k ∈ R → f^[n] k ∈ R := by
    intro n
    induction n with
    | zero => intro k hk; simpa using hk
    | succ n ihn =>
        intro k hk
        rw [Function.iterate_succ_apply']
        exact (hf _ (ihn k hk)).1
  have hchain : ∀ (n : Nat) (k : String), k ∈ R →
      Relation.TransGen rel (f^[n + 1] k) k := by
    intro n
    induction n with
    | zero =>
        intro k hk
        simpa using Relation.TransGen.single (hf k hk).2
    | succ n ihn =>
        intro k hk
        rw [Function.iterate_succ_apply']
        have hmem : f^[n + 1] k ∈ R := hiterAll (n + 1) k hk
        exact Relation.TransGen.trans
          (Relation.TransGen.single (hf _ hmem).2) (ihn k hk)
  have hmaps : ∀ i ∈ Finset.range (R.length + 1), f^[i] k0 ∈ R.toFinset := by
    intro i _
    exact List.mem_toFinset.mpr (hiterAll i k0 hk0)
  have hcard : R.toFinset.card < (Finset.range (R.length + 1)).card := by
    rw [Finset.card_range]
    exact lt_of_le_of_lt (List.toFinset_card_le R) (by omega)
  obtain ⟨i, _, j, _, hij, hfij⟩ :=
    Finset.exists_ne_map_eq_of_card_lt_of_maps_to hcard hmaps
  rcases Nat.lt_or_ge i j with hlt | hge
  · refine ⟨f^[i] k0, ?_⟩
    have hy : f^[i] k0 ∈ R := hiterAll i k0 hk0
    have hc := hchain (j - i - 1) (f^[i] k0) hy
    rw [← Function.iterate_add_apply, show j - i - 1 + 1 + i = j by omega] at hc
    rw [← hfij] at hc
    exact hc
  · have hlt : j < i := lt_of_le_of_ne hge (fun h => hij h.symm)
    refine ⟨f^[j] k0, ?_⟩
    have hy : f^[j] k0 ∈ R := hiterAll j k0 hk0
    have hc := hchain (i - j - 1) (f^[j] k0) hy
    rw [← Function.iterate_add_apply, show i - j - 1 + 1 + j = i by omega] at hc
    rw [hfij] at hc
    exact hc

theorem kahn_final_complete (orig nodesF : OM Node) (LF : List String)
    (hWF : GraphWF orig) (hAcy : AcyclicG orig)
    (hK : KState orig nodesF [] LF) : ∀ k ∈ omKeys orig, k ∈ LF := by
  by_contra hc
  push_neg at hc
  obtain ⟨k0, hk0keys, hk0⟩ := hc
  have hstep : ∀ k ∈ (omKeys orig).filter (fun k => decide (¬ k ∈ LF)),
      ∃ b ∈ (omKeys orig).filter (fun k => decide (¬ k ∈ LF)), precedes orig b k := by
    intro k hk
    rw [List.mem_filter] at hk
    obtain ⟨hkk, hknl'⟩ := hk
    have hknl : k ∉ LF := by simpa using hknl'
    have hnall : ¬ ∀ b ∈ origBefore orig k, b ∈ LF := by
      intro hall
      rcases (hK.ready k).mpr ⟨hkk, hall⟩ with h | h
      · exact hknl h
      · cases h
    push_neg at hnall
    obtain ⟨b, hb, hbnl⟩ := hnall
    obtain ⟨nk, hfk⟩ : ∃ nk, omFind orig k = some nk :=
      Option.isSome_iff_exists.mp ((omFind_isSome_iff orig k).mpr hkk)
    have hbin : b ∈ nk.before := by rw [origBefore_eq hfk] at hb; exact hb
    have hbkeys : b ∈ omKeys orig :=
      (hWF.2.1 (k, nk) (mem_of_omFind hfk)).2.2.1 b hbin
    exact ⟨b, List.mem_filter.mpr ⟨hbkeys, by simpa using hbnl⟩, nk, hfk, hbin⟩
  have hne : (omKeys orig).filter (fun k => decide (¬ k ∈ LF)) ≠ [] :=
    List.ne_nil_of_mem (List.mem_filter.mpr ⟨hk0keys, by simpa using hk0⟩)
  obtain ⟨x, hx⟩ := cycleOfStuck (precedes orig) _ hne hstep
  exact hAcy x hx

theorem edgesLeftOf_nil_iff (nodes : OM Node) :
    edgesLeftOf nodes = [] ↔ ∀ p ∈ nodes, p.2.after = [] := by
  induction nodes with
  | nil => simp [edgesLeftOf]
  | cons p rest ih =>
      simp only [edgesLeftOf, List.append_eq_nil, List.map_eq_nil_iff, List.mem_cons]
      constructor
      · rintro ⟨h1, h2⟩ q hq
        rcases hq with hq | hq
        · exact hq ▸ h1
        · exact ih.mp h2 q hq
      · intro h
        exact ⟨h p (Or.inl rfl), ih.mpr fun q hq => h q (Or.inr hq)⟩

theorem mem_edgesLeftOf {nodes : OM Node} {e : String} :
    e ∈ edgesLeftOf nodes ↔ ∃ p ∈ nodes, ∃ b ∈ p.2.after, e = p.1 ++ ":" ++ b := by
  induction nodes with
  | nil => simp [edgesLeftOf]
  | cons p rest ih =>
      simp only [edgesLeftOf, List.mem_append, List.mem_map, List.mem_cons, ih]
      constructor
      · rintro (⟨b, hb, he⟩ | ⟨q, hq, b, hb, he⟩)
        · exact ⟨p, Or.inl rfl, b, hb, he.symm⟩
        · exact ⟨q, Or.inr hq, b, hb, he⟩
      · rintro ⟨q, hq | hq, b, hb, he⟩
        · exact Or.inl ⟨b, hq ▸ hb, (hq ▸ he).symm⟩
        · exact Or.inr ⟨q, hq, b, hb, he⟩

/-- The topological-success theorem for `kahnsAlgorithm`. -/
theorem kahnsAlgorithm_ok (orig : OM Node) (hWF : GraphWF orig)
    (hAcy : AcyclicG orig) :
    ∃ LF nodesF, kahnsAlgorithm orig = .ok (LF, nodesF) ∧
      LF.Nodup ∧ (∀ k, k ∈ LF ↔ k ∈ omKeys orig) ∧
      (∀ l1 k l2, LF = l1 ++ k :: l2 → ∀ b ∈ origBefore orig k, b ∈ l1) := by
  obtain ⟨nodesF, LF, heq, hKF⟩ :=
    kahnLoop_spec orig hWF (orig.length + 1) (kahnInit orig) [] orig
      (kahn_initState orig hWF)
      (by simp [omKeys])
  have hLFnodup : LF.Nodup := by simpa using hKF.nodupLS
  have hLFmem : ∀ k, k ∈ LF ↔ k ∈ omKeys orig := by
    intro k
    constructor
    · intro hk
      exact hKF.memLS k (by simp [hk])
    · intro hk
      exact kahn_final_complete orig nodesF LF hWF hAcy hKF k hk
  have hall : ∀ k ∈ omKeys orig, k ∈ LF := fun k hk => (hLFmem k).mpr hk
  have hedges : edgesLeftOf nodesF = [] := by
    rw [hKF.rep]
    apply (edgesLeftOf_nil_iff _).mpr
    intro p hp
    unfold kahnRep at hp
    obtain ⟨q, hq, hpq⟩ := List.mem_map.mp hp
    have hqk : q.1 ∈ omKeys orig := List.mem_map.mpr ⟨q, hq, rfl⟩
    rw [← hpq]
    simp [hall q.1 hqk]
  refine ⟨LF, nodesF, ?_, hLFnodup, hLFmem, hKF.emitOrder⟩
  unfold kahnsAlgorithm
  rw [heq]
  simp [hedges]

theorem acyclic_of_rank (nodes : OM Node) (rank : String → Nat)
    (hr : ∀ p ∈ nodes, ∀ b ∈ p.2.before, rank b < rank p.1) : AcyclicG nodes := by
  intro k hk
  have hmono : ∀ x y, Relation.TransGen (precedes nodes) x y → rank x < rank y := by
    intro x y h
    induction h with
    | single h1 =>
        obtain ⟨n, hfind, hb⟩ := h1
        exact hr (_, n) (mem_of_omFind hfind) _ hb
    | tail _ h2 ih =>
        obtain ⟨n, hfind, hb⟩ := h2
        exact lt_trans ih (hr (_, n) (mem_of_omFind hfind) _ hb)
  exact lt_irrefl _ (hmono k k hk)

theorem trans_in_prefix (orig nodesF : OM Node) (LF : List String)
    (hK : KState orig nodesF [] LF) :
    ∀ (N : Nat) (l1 : List String) (k : String) (l2 : List String),
      l1.length ≤ N → LF = l1 ++ k :: l2 →
      ∀ j, Relation.TransGen (precedes orig) j k → j ∈ l1 := by
  intro N
  induction N with
  | zero =>
      intro l1 k l2 hlen hsplit j htrans
      obtain ⟨m, hrtg, hrel⟩ := Relation.TransGen.tail'_iff.mp htrans
      obtain ⟨nk, hfk, hmb⟩ := hrel
      have hm : m ∈ l1 := hK.emitOrder l1 k l2 hsplit m (by
        rw [origBefore_eq hfk]; exact hmb)
      rw [List.length_eq_zero.mp (Nat.le_zero.mp hlen)] at hm
      cases hm
  | succ N ih =>
      intro l1 k l2 hlen hsplit j htrans
      obtain ⟨m, hrtg, hrel⟩ := Relation.TransGen.tail'_iff.mp htrans
      obtain ⟨nk, hfk, hmb⟩ := hrel
      have hm : m ∈ l1 := hK.emitOrder l1 k l2 hsplit m (by
        rw [origBefore_eq hfk]; exact hmb)
      rcases Relation.reflTransGen_iff_eq_or_transGen.mp hrtg with heq | htg
      · exact heq ▸ hm
      · obtain ⟨s, t, hst⟩ := List.append_of_mem hm
        have hsplit2 : LF = s ++ m :: (t ++ k :: l2) := by
          rw [hsplit, hst]; simp
        have hslen : s.length ≤ N := by
          have := congrArg List.length hst
          simp at this
          omega
        have hj : j ∈ s := ih s m (t ++ k :: l2) hslen hsplit2 j htg
        rw [hst]
        simp [hj]

theorem notin_LF_of_cycle (orig nodesF : OM Node) (LF : List String)
    (hK : KState orig nodesF [] LF) (x : String)
    (hcyc : Relation.TransGen (precedes orig) x x) : x ∉ LF := by
  intro hx
  obtain ⟨s, t, hst⟩ := List.append_of_mem hx
  have hxs : x ∈ s :=
    trans_in_prefix orig nodesF LF hK s.length s x t le_rfl hst x hcyc
  have hnd : LF.Nodup := by simpa using hK.nodupLS
  rw [hst] at hnd
  exact (List.nodup_append.mp hnd).2.2 hxs (by simp)

/-- A cycle makes `kahnsAlgorithm` fail with the rendered remaining edges,
which are exactly the original edges between unprocessed nodes. -/
theorem kahnsAlgorithm_cycle (orig : OM Node) (hWF : GraphWF orig)
    (x : String) (hcyc : Relation.TransGen (precedes orig) x x) :
    ∃ (el LF : List String), el ≠ [] ∧
      kahnsAlgorithm orig
        = .error (.error ("Cycle in setup dependencies: " ++ joinSep ", " el)) ∧
      (∀ e ∈ el, ∃ a b na, e = a ++ ":" ++ b ∧ omFind orig a = some na ∧
        b ∈ na.after ∧ a ∉ LF) := by
  obtain ⟨nodesF, LF, heq, hKF⟩ :=
    kahnLoop_spec orig hWF (orig.length + 1) (kahnInit orig) [] orig
      (kahn_initState orig hWF)
      (by simp [omKeys])
  obtain ⟨hnd, hwf, hcons⟩ := hWF
  -- the last edge of the cycle survives in the final node map
  obtain ⟨y, hrtg, hrel⟩ := Relation.TransGen.tail'_iff.mp hcyc
  obtain ⟨nx, hfx, hyb⟩ := hrel
  have hycyc : Relation.TransGen (precedes orig) y y := by
    rcases Relation.reflTransGen_iff_eq_or_transGen.mp hrtg with heq2 | htg
    · exact heq2 ▸ hcyc
    · exact Relation.TransGen.trans (Relation.TransGen.single ⟨nx, hfx, hyb⟩) htg
  have hynotin : y ∉ LF := notin_LF_of_cycle orig nodesF LF hKF y hycyc
  have hymem : y ∈ omKeys orig :=
    (hwf (x, nx) (mem_of_omFind hfx)).2.2.1 y hyb
  obtain ⟨ny, hfy⟩ : ∃ ny, omFind orig y = some ny :=
    Option.isSome_iff_exists.mp ((omFind_isSome_iff orig y).mpr hymem)
  have hxaft : x ∈ ny.after :=
    (hcons (x, nx) (mem_of_omFind hfx) (y, ny) (mem_of_omFind hfy)).mp hyb
  have hentry : (y, { ny with
      before := ny.before.filter (fun b => decide (¬ b ∈ LF)),
      after := ny.after }) ∈ nodesF := by
    rw [hKF.rep]
    unfold kahnRep
    refine List.mem_map.mpr ⟨(y, ny), mem_of_omFind hfy, ?_⟩
    simp [hynotin]
  have hne : edgesLeftOf nodesF ≠ [] := by
    intro hnil
    have := (edgesLeftOf_nil_iff nodesF).mp hnil _ hentry
    simp only at this
    rw [this] at hxaft
    cases hxaft
  refine ⟨edgesLeftOf nodesF, LF, hne, ?_, ?_⟩
  · unfold kahnsAlgorithm
    rw [heq]
    simp only [List.isEmpty_iff]
    rw [if_neg hne]
  · intro e he
    rw [hKF.rep] at he
    obtain ⟨p, hp, b, hb, hpe⟩ := mem_edgesLeftOf.mp he
    unfold kahnRep at hp
    obtain ⟨q, hq, hpq⟩ := List.mem_map.mp hp
    have hfq : omFind orig q.1 = some q.2 :=
      omFind_of_mem_nodup hnd (by cases q; exact hq)
    by_cases hqL : q.1 ∈ LF
    · exfalso
      rw [← hpq] at hb
      simp only [hqL, if_true, reduceIte] at hb
      cases hb
    · refine ⟨q.1, b, q.2, ?_, hfq, ?_, hqL⟩
      · rw [hpe, ← hpq]
      · rw [← hpq] at hb
        simpa [hqL] using hb

/-- C1: for every well-formed acyclic node graph, `kahnsAlgorithm` returns
an ordering that contains each node id exactly once, and in which every
node appears after every id of its `before` set. -/
theorem c1_kahn_topological (orig : OM Node) (hWF : GraphWF orig)
    (hAcy : AcyclicG orig) :
    ∃ LF nodesF, kahnsAlgorithm orig = .ok (LF, nodesF) ∧
      LF.Nodup ∧ (∀ k, k ∈ LF ↔ k ∈ omKeys orig) ∧
      ∀ a na b, omFind orig a = some na → b ∈ na.before →
        ∃ l1 l2, LF = l1 ++ a :: l2 ∧ b ∈ l1 := by
  obtain ⟨LF, nodesF, hok, hnodup, hmem, horder⟩ := kahnsAlgorithm_ok orig hWF hAcy
  refine ⟨LF, nodesF, hok, hnodup, hmem, ?_⟩
  intro a na b hfind hb
  have haL : a ∈ LF := (hmem a).mpr ((omFind_isSome_iff orig a).mp (by simp [hfind]))
  obtain ⟨l1, l2, hsplit⟩ := List.append_of_mem haL
  exact ⟨l1, l2, hsplit,
    horder l1 a l2 hsplit b (by rw [origBefore_eq hfind]; exact hb)⟩

/-- Witness for C1 at a concrete two-node graph. -/
theorem c1_witness :
    GraphWF exGraph ∧ AcyclicG exGraph ∧
    (∃ LF nodesF, kahnsAlgorithm exGraph = .ok (LF, nodesF) ∧
      LF.Nodup ∧ (∀ k, k ∈ LF ↔ k ∈ omKeys exGraph) ∧
      ∀ a na b, omFind exGraph a = some na → b ∈ na.before →
        ∃ l1 l2, LF = l1 ++ a :: l2 ∧ b ∈ l1) := by
  refine ⟨by decide, ?_, ?_⟩
  · exact acyclic_of_rank _ (fun k => if k = "setup-a" then 0 else 1) (by decide)
  · exact c1_kahn_topological exGraph (by decide)
      (acyclic_of_rank _ (fun k => if k = "setup-a" then 0 else 1) (by decide))

/-- C4 (amended): when the graph-building phase succeeds but the built
dependency graph contains a cycle, compilation fails fatally with a message
listing every remaining edge as `from:to` pairs; the compiled job is not
produced — the job keeps its (stripped) original steps — but the job is
not left unmodified: its `setup` reference is dropped and its steps are
stripped in place. -/
theorem c4_cycle_error (fuel : Nat) (job : Job) (setups : OM Setup) (reg : Reg)
    (ctx3 : Ctx) (x : String)
    (hbuilt : builtCtx fuel job setups = some ctx3)
    (hWF : GraphWF ctx3.nodes)
    (hcyc : Relation.TransGen (precedes ctx3.nodes) x x) :
    ∃ el LF : List String, el ≠ [] ∧
      compileStepsRun fuel job setups reg
        = ({ setup := none,
             steps := (buildSteps fuel { nodes := [], setupSteps := setups }
               job.steps 0).1 },
           reg,
           some (.error ("Cycle in setup dependencies: " ++ joinSep ", " el))) ∧
      (∀ e ∈ el, ∃ a b na, e = a ++ ":" ++ b ∧ omFind ctx3.nodes a = some na ∧
        b ∈ na.after ∧ a ∉ LF) := by
  unfold builtCtx at hbuilt
  cases hb : (buildSteps fuel { nodes := [], setupSteps := setups } job.steps 0).2 with
  | error e => rw [hb] at hbuilt; simp only at hbuilt; cases hbuilt
  | ok ctx1 =>
      rw [hb] at hbuilt
      simp only at hbuilt
      cases hp : processSetup fuel ctx1 "step-0" job.setup [] with
      | error e => rw [hp] at hbuilt; simp only at hbuilt; cases hbuilt
      | ok ctx2 =>
          rw [hp] at hbuilt
          simp only at hbuilt
          cases hc : addCheckoutEdges ctx2 with
          | error e => rw [hc] at hbuilt; simp only at hbuilt; cases hbuilt
          | ok ctx3' =>
              rw [hc] at hbuilt
              simp only at hbuilt
              cases hbuilt
              obtain ⟨el, LF, hne, hkahn, hedges⟩ :=
                kahnsAlgorithm_cycle ctx3.nodes hWF x hcyc
              refine ⟨el, LF, hne, ?_, hedges⟩
              unfold compileStepsRun
              simp only [hb, hp, hc, hkahn]

/-- Counterexample to C4 as frozen: on a cyclic input the fatal error is
raised, but the job is modified — its `setup` reference is gone from the
returned job. -/
theorem c4_counterexample :
    (compileStepsRun 6
        { setup := some (.inl "a"), steps := [{ run := some "r" }] }
        [("a", .config (some (.inl "b")) (some [])),
         ("b", .config (some (.inl "a")) (some []))] []).2.2
      = some (.error
          "Cycle in setup dependencies: setup-a:setup-b, setup-a:step-0, setup-b:setup-a")
    ∧ (compileStepsRun 6
        { setup := some (.inl "a"), steps := [{ run := some "r" }] }
        [("a", .config (some (.inl "b")) (some [])),
         ("b", .config (some (.inl "a")) (some []))] []).1
      ≠ { setup := some (.inl "a"), steps := [{ run := some "r" }] } := by
  exact ⟨rfl, by decide⟩

/-- Witness for C4 at the concrete cyclic input. -/
theorem c4_witness :
    ∃ el LF : List String, el ≠ [] ∧
      compileStepsRun 6
          { setup := some (.inl "a"), steps := [{ run := some "r" }] }
          [("a", .config (some (.inl "b")) (some [])),
           ("b", .config (some (.inl "a")) (some []))] []
        = ({ setup := none,
             steps := (buildSteps 6
               { nodes := [],
                 setupSteps := [("a", .config (some (.inl "b")) (some [])),
                   ("b", .config (some (.inl "a")) (some []))] }
               [{ run := some "r" }] 0).1 },
           [],
           some (.error ("Cycle in setup dependencies: " ++ joinSep ", " el))) ∧
      (∀ e ∈ el, ∃ a b na, e = a ++ ":" ++ b ∧
        omFind ((builtCtx 6
          { setup := some (.inl "a"), steps := [{ run := some "r" }] }
          [("a", .config (some (.inl "b")) (some [])),
           ("b", .config (some (.inl "a")) (some []))]).getD
            { nodes := [], setupSteps := [] }).nodes a = some na ∧
        b ∈ na.after ∧ a ∉ LF) := by
  refine c4_cycle_error 6
    { setup := some (.inl "a"), steps := [{ run := some "r" }] }
    [("a", .config (some (.inl "b")) (some [])),
     ("b", .config (some (.inl "a")) (some []))] []
    ((builtCtx 6
      { setup := some (.inl "a"), steps := [{ run := some "r" }] }
      [("a", .config (some (.inl "b")) (some [])),
       ("b", .config (some (.inl "a")) (some []))]).getD
        { nodes := [], setupSteps := [] })
    "setup-a" rfl (by decide) ?_
  · exact Relation.TransGen.head
      (b := "setup-b")
      ⟨(omFind ((builtCtx 6
          { setup := some (.inl "a"), steps := [{ run := some "r" }] }
          [("a", .config (some (.inl "b")) (some [])),
           ("b", .config (some (.inl "a")) (some []))]).getD
            { nodes := [], setupSteps := [] }).nodes "setup-b").getD
          { id := "", contents := .paths [], pathDeps := none, before := [], after := [] },
        rfl, by decide⟩
      (Relation.TransGen.single
        ⟨(omFind ((builtCtx 6
            { setup := some (.inl "a"), steps := [{ run := some "r" }] }
            [("a", .config (some (.inl "b")) (some [])),
             ("b", .config (some (.inl "a")) (some []))]).getD
              { nodes := [], setupSteps := [] }).nodes "setup-a").getD
            { id := "", contents := .paths [], pathDeps := none, before := [], after := [] },
          rfl, by decide⟩)

/-! ## The builder invariant (C9, C3). -/

theorem setErase_mem (s : List String) (k x : String) :
    x ∈ setErase s k ↔ x ∈ s ∧ x ≠ k := by
  simp [setErase, List.mem_filter]

theorem addEdge_shape (ctx : Ctx) (p c : String) (ctx' : Ctx)
    (h : addEdge ctx p c = .ok ctx') :
    ctx'.nodes = addEdgeMap p c ctx.nodes ∧
    ctx'.setupSteps = ctx.setupSteps ∧
    p ∈ omKeys ctx.nodes ∧ c ∈ omKeys ctx.nodes := by
  unfold addEdge at h
  cases h1 : omFind ctx.nodes p with
  | none => rw [h1] at h; cases h
  | some n1 =>
      rw [h1] at h
      simp only at h
      cases h2 : omFind (omMod ctx.nodes p
          (fun n => { n with before := setInsert n.before c })) c with
      | none => rw [h2] at h; cases h
      | some n2 =>
          rw [h2] at h
          simp only at h
          injection h with h
          subst h
          refine ⟨?_, rfl, ?_, ?_⟩
          · show omMod (omMod ctx.nodes p
                (fun n => { n with before := setInsert n.before c })) c
                (fun n => { n with after := setInsert n.after p }) = _
            unfold addEdgeMap omMod
            rw [List.map_map]
            apply List.map_congr_left
            rintro ⟨k, n⟩ hk
            simp only [Function.comp]
            by_cases hkp : k = p <;> by_cases hkc : k = c
            · subst hkp; subst hkc; simp
            · subst hkp; simp [hkc]
            · subst hkc; simp [hkp]
            · simp [hkp, hkc]
          · exact (omFind_isSome_iff _ _).mp (Option.isSome_iff_exists.mpr ⟨_, h1⟩)
          · have h3 := (omFind_isSome_iff _ _).mp (Option.isSome_iff_exists.mpr ⟨_, h2⟩)
            rwa [omKeys_mod] at h3

theorem kahnRemoveEdge_shape (nodes : OM Node) (nodeId a : String) :
    kahnRemoveEdge nodes nodeId a = nodes.map (fun q => (q.1,
      { q.2 with
        before := if q.1 = a then setErase q.2.before nodeId else q.2.before,
        after := if q.1 = nodeId then setErase q.2.after a else q.2.after })) := by
  unfold kahnRemoveEdge omMod
  rw [List.map_map]
  apply List.map_congr_left
  rintro ⟨k, n⟩ hk
  simp only [Function.comp]
  by_cases h1 : k = a <;> by_cases h2 : k = nodeId
  · subst h1; subst h2; simp
  · subst h1; simp [h2]
  · subst h2; simp [h1]
  · simp [h1, h2]

theorem kahnRemoveEdge_consistent (nodes : OM Node) (nodeId a : String)
    (hC : edgeConsistent nodes) : edgeConsistent (kahnRemoveEdge nodes nodeId a) := by
  rw [kahnRemoveEdge_shape]
  intro p' hp' q' hq'
  obtain ⟨⟨pk, pn⟩, hp0, rfl⟩ := List.mem_map.mp hp'
  obtain ⟨⟨qk, qn⟩, hq0, rfl⟩ := List.mem_map.mp hq'
  have hbase := hC (pk, pn) hp0 (qk, qn) hq0
  simp only at hbase ⊢
  by_cases h1 : pk = a <;> by_cases h2 : qk = nodeId
  · subst h1; subst h2; simp [setErase_mem]
  · subst h1; simp [setErase_mem, h2, hbase]
  · subst h2; simp [setErase_mem, h1, hbase]
  · simp [h1, h2, hbase]

theorem omKeys_append {V : Type} (a b : OM V) :
    omKeys (a ++ b) = omKeys a ++ omKeys b := by
  simp [omKeys]

theorem omFind_append_of_mem {V : Type} (m : OM V) (k : String) (v : V) (j : String)
    (hj : j ∈ omKeys m) : omFind (m ++ [(k, v)]) j = omFind m j := by
  rw [omFind_append_one]
  cases ho : omFind m j with
  | some w => rfl
  | none =>
      exfalso
      have := (omFind_isSome_iff m j).mpr hj
      rw [ho] at this
      cases this

theorem omMod_eq_keyMap {V : Type} (m : OM V) (k : String) (f : V → V) :
    omMod m k f = m.map (fun q => (q.1, if q.1 = k then f q.2 else q.2)) := by
  unfold omMod
  apply List.map_congr_left
  rintro ⟨j, v⟩ _
  by_cases h : j = k <;> simp [h]

theorem pathDepsNone_keyMap (F : String → Node → Node)
    (hF : ∀ k n, (F k n).pathDeps = n.pathDeps) (m : OM Node) (k : String) :
    pathDepsNone (m.map (fun q => (q.1, F q.1 q.2))) k ↔ pathDepsNone m k := by
  unfold pathDepsNone
  rw [omFind_keyMap]
  constructor
  · intro h n hn
    have h2 := h (F k n) (by rw [hn]; rfl)
    rw [hF] at h2
    exact h2
  · intro h n hn
    cases ho : omFind m k with
    | none => rw [ho] at hn; cases hn
    | some n0 =>
        rw [ho] at hn
        simp only [Option.map_some'] at hn
        cases hn
        rw [hF]
        exact h n0 ho

theorem GraphWF_keyMap (F : String → Node → Node)
    (hb : ∀ k n, (F k n).before = n.before) (ha : ∀ k n, (F k n).after = n.after)
    (m : OM Node) (hW : GraphWF m) : GraphWF (m.map (fun q => (q.1, F q.1 q.2))) := by
  obtain ⟨h1, h2, h3⟩ := hW
  refine ⟨by rw [omKeys_keyMap]; exact h1, ?_, ?_⟩
  · rintro p' hp'
    obtain ⟨q, hq, rfl⟩ := List.mem_map.mp hp'
    have hwf := h2 q hq
    unfold nodeWF at hwf ⊢
    simp only [hb, ha, omKeys_keyMap]
    exact hwf
  · rintro p' hp' q' hq'
    obtain ⟨q1, hq1, rfl⟩ := List.mem_map.mp hp'
    obtain ⟨q2, hq2, rfl⟩ := List.mem_map.mp hq'
    simp only [hb, ha]
    exact h3 q1 hq1 q2 hq2

theorem ctxMono_refl (ctx : Ctx) : ctxMono ctx ctx :=
  ⟨fun _ hk => hk, fun _ _ h => h⟩

theorem ctxMono_trans {a b c : Ctx} (h1 : ctxMono a b) (h2 : ctxMono b c) :
    ctxMono a c :=
  ⟨fun k hk => h2.1 k (h1.1 k hk),
   fun k hk hn => h2.2 k (h1.1 k hk) (h1.2 k hk hn)⟩

theorem omKeys_addEdgeMap (p c : String) (m : OM Node) :
    omKeys (addEdgeMap p c m) = omKeys m := by
  unfold addEdgeMap
  exact omKeys_keyMap
    (fun (k : String) (n : Node) => { n with
      before := if k = p then setInsert n.before c else n.before,
      after := if k = c then setInsert n.after p else n.after }) m

theorem omFind_addEdgeMap (p c : String) (m : OM Node) (j : String) :
    omFind (addEdgeMap p c m) j = (omFind m j).map (fun n =>
      { n with
        before := if j = p then setInsert n.before c else n.before,
        after := if j = c then setInsert n.after p else n.after }) := by
  unfold addEdgeMap
  exact omFind_keyMap
    (fun (k : String) (n : Node) => { n with
      before := if k = p then setInsert n.before c else n.before,
      after := if k = c then setInsert n.after p else n.after }) m j

theorem pathDepsNone_addEdgeMap (p c : String) (m : OM Node) (k : String) :
    pathDepsNone (addEdgeMap p c m) k ↔ pathDepsNone m k := by
  unfold addEdgeMap
  exact pathDepsNone_keyMap
    (fun (k : String) (n : Node) => { n with
      before := if k = p then setInsert n.before c else n.before,
      after := if k = c then setInsert n.after p else n.after })
    (fun _ _ => rfl) m k

theorem addEdge_consistent (ctx : Ctx) (p c : String) (ctx' : Ctx)
    (hC : edgeConsistent ctx.nodes) (h : addEdge ctx p c = .ok ctx') :
    edgeConsistent ctx'.nodes := by
  obtain ⟨hnodes, -, -, -⟩ := addEdge_shape ctx p c ctx' h
  rw [hnodes]
  unfold addEdgeMap
  intro p' hp' q' hq'
  obtain ⟨⟨pk, pn⟩, hp0, rfl⟩ := List.mem_map.mp hp'
  obtain ⟨⟨qk, qn⟩, hq0, rfl⟩ := List.mem_map.mp hq'
  have hbase := hC (pk, pn) hp0 (qk, qn) hq0
  simp only at hbase ⊢
  by_cases h1 : pk = p <;> by_cases h2 : qk = c
  · subst h1; subst h2; simp [setInsert_mem]
  · subst h1; simp [setInsert_mem, h2, hbase]
  · subst h2; simp [setInsert_mem, h1, hbase]
  · simp [h1, h2, hbase]

theorem addEdge_WF (ctx ctx' : Ctx) (p c : String)
    (hW : GraphWF ctx.nodes) (h : addEdge ctx p c = .ok ctx') :
    GraphWF ctx'.nodes := by
  obtain ⟨hnodes, -, hpK, hcK⟩ := addEdge_shape ctx p c ctx' h
  obtain ⟨h1, h2, h3⟩ := hW
  have hcons : edgeConsistent ctx'.nodes :=
    addEdge_consistent ctx p c ctx' h3 h
  rw [hnodes]
  rw [hnodes] at hcons
  refine ⟨?_, ?_, hcons⟩
  · rw [omKeys_addEdgeMap]
    exact h1
  · rintro p' hp'
    unfold nodeWF
    rw [omKeys_addEdgeMap]
    unfold addEdgeMap at hp'
    obtain ⟨q, hq, rfl⟩ := List.mem_map.mp hp'
    have hwf := h2 q hq
    unfold nodeWF at hwf
    obtain ⟨w1, w2, w3, w4⟩ := hwf
    refine ⟨?_, ?_, ?_, ?_⟩
    · by_cases hqp : q.1 = p <;> simp [hqp, setInsert_nodup, w1]
    · by_cases hqc : q.1 = c <;> simp [hqc, setInsert_nodup, w2]
    · intro b hb
      by_cases hqp : q.1 = p
      · simp only [hqp, if_true, reduceIte, setInsert_mem] at hb
        rcases hb with hb | hb
        · exact w3 b hb
        · exact hb ▸ hcK
      · simp only [hqp, if_false, reduceIte] at hb
        exact w3 b hb
    · intro a ha
      by_cases hqc : q.1 = c
      · simp only [hqc, if_true, reduceIte, setInsert_mem] at ha
        rcases ha with ha | ha
        · exact w4 a ha
        · exact ha ▸ hpK
      · simp only [hqc, if_false, reduceIte] at ha
        exact w4 a ha

theorem addEdge_BInv (ctx ctx' : Ctx) (p c : String)
    (hB : BuilderInv ctx) (hchk : p = "setup-checkout" → pathDepsNone ctx.nodes c)
    (h : addEdge ctx p c = .ok ctx') :
    BuilderInv ctx' ∧ ctxMono ctx ctx' := by
  obtain ⟨hW, hN, hCh⟩ := hB
  obtain ⟨hnodes, -, hpK, hcK⟩ := addEdge_shape ctx p c ctx' h
  have hkeys : omKeys ctx'.nodes = omKeys ctx.nodes := by
    rw [hnodes, omKeys_addEdgeMap]
  have hpd : ∀ k, pathDepsNone ctx'.nodes k ↔ pathDepsNone ctx.nodes k := by
    intro k
    rw [hnodes]
    exact pathDepsNone_addEdgeMap p c ctx.nodes k
  refine ⟨⟨addEdge_WF ctx ctx' p c hW h, (hpd _).mpr hN, ?_⟩, ?_⟩
  · intro n hn b hb
    rw [hnodes, omFind_addEdgeMap] at hn
    cases ho : omFind ctx.nodes "setup-checkout" with
    | none => rw [ho] at hn; cases hn
    | some n0 =>
        rw [ho] at hn
        simp only [Option.map_some'] at hn
        cases hn
        simp only at hb
        by_cases hcp : "setup-checkout" = p
        · rw [if_pos hcp, setInsert_mem] at hb
          rcases hb with hb | hb
          · exact (hpd b).mpr (hCh n0 ho b hb)
          · exact (hpd b).mpr (hb ▸ hchk hcp.symm)
        · rw [if_neg hcp] at hb
          exact (hpd b).mpr (hCh n0 ho b hb)
  · exact ⟨fun k hk => hkeys ▸ hk, fun k _ hn => (hpd k).mpr hn⟩

theorem step_key_ne_checkout (s : String) : "step-" ++ s ≠ "setup-checkout" := by
  intro h
  have h2 := congrArg String.data h
  rw [String.data_append] at h2
  simp at h2

theorem paths_key_ne_checkout (s : String) : "paths-" ++ s ≠ "setup-checkout" := by
  intro h
  have h2 := congrArg String.data h
  rw [String.data_append] at h2
  simp at h2

theorem pathDepsNone_of_absent {m : OM Node} {k : String}
    (h : k ∉ omKeys m) : pathDepsNone m k := by
  intro n hn
  exact absurd ((omFind_isSome_iff m k).mp (Option.isSome_iff_exists.mpr ⟨n, hn⟩)) h

theorem appendNode_BInv (ctx : Ctx) (id : String) (ct : NodeContent)
    (pd : Option (List String))
    (hB : BuilderInv ctx) (hfresh : id ∉ omKeys ctx.nodes)
    (hcz : id = "setup-checkout" → pd = none) :
    BuilderInv { ctx with nodes := ctx.nodes ++
      [(id, { id := id, contents := ct, pathDeps := pd, before := [], after := [] })] } ∧
    ctxMono ctx { ctx with nodes := ctx.nodes ++
      [(id, { id := id, contents := ct, pathDeps := pd, before := [], after := [] })] } := by
  obtain ⟨⟨h1, h2, h3⟩, hN, hCh⟩ := hB
  have hfold : ∀ j, j ∈ omKeys ctx.nodes →
      omFind (ctx.nodes ++
        [(id, { id := id, contents := ct, pathDeps := pd,
                before := [], after := [] })]) j = omFind ctx.nodes j :=
    fun j hj => omFind_append_of_mem ctx.nodes id _ j hj
  have hnone : omFind ctx.nodes id = none := by
    cases ho : omFind ctx.nodes id with
    | none => rfl
    | some v =>
        exact absurd ((omFind_isSome_iff _ _).mp (by simp [ho])) hfresh
  have hfid : omFind (ctx.nodes ++
      [(id, { id := id, contents := ct, pathDeps := pd,
              before := [], after := [] })]) id
      = some { id := id, contents := ct, pathDeps := pd,
               before := [], after := [] } := by
    rw [omFind_append_one, hnone]
    simp
  have hkeys : omKeys (ctx.nodes ++
      [(id, { id := id, contents := ct, pathDeps := pd,
              before := [], after := [] })]) = omKeys ctx.nodes ++ [id] := by
    rw [omKeys_append]
    rfl
  have hpdmono : ∀ k, k ∈ omKeys ctx.nodes → pathDepsNone ctx.nodes k →
      pathDepsNone (ctx.nodes ++
        [(id, { id := id, contents := ct, pathDeps := pd,
                before := [], after := [] })]) k := by
    intro k hk hn n hn2
    rw [hfold k hk] at hn2
    exact hn n hn2
  refine ⟨⟨⟨?_, ?_, ?_⟩, ?_, ?_⟩, ?_, ?_⟩
  · rw [hkeys]
    refine List.Nodup.append h1 (by simp) ?_
    intro a ha ha2
    simp only [List.mem_singleton] at ha2
    exact hfresh (ha2 ▸ ha)
  · rintro p' hp'
    rcases List.mem_append.mp hp' with hp' | hp'
    · have hwf := h2 p' hp'
      unfold nodeWF at hwf ⊢
      rw [hkeys]
      exact ⟨hwf.1, hwf.2.1,
        fun b hb => by simp [hwf.2.2.1 b hb],
        fun a ha => by simp [hwf.2.2.2 a ha]⟩
    · simp only [List.mem_singleton] at hp'
      subst hp'
      unfold nodeWF
      simp
  · rintro p' hp' q' hq'
    rcases List.mem_append.mp hp' with hp' | hp' <;>
      rcases List.mem_append.mp hq' with hq' | hq'
    · exact h3 p' hp' q' hq'
    · simp only [List.mem_singleton] at hq'
      subst hq'
      simp only
      constructor
      · intro hc
        exact absurd ((h2 p' hp').2.2.1 id hc) hfresh
      · intro hc
        cases hc
    · simp only [List.mem_singleton] at hp'
      subst hp'
      simp only
      constructor
      · intro hc
        cases hc
      · intro hc
        exact absurd ((h2 q' hq').2.2.2 id hc) hfresh
    · simp only [List.mem_singleton] at hp' hq'
      subst hp'
      subst hq'
      simp
  · intro n hn
    by_cases hck : "setup-checkout" ∈ omKeys ctx.nodes
    · rw [hfold _ hck] at hn
      exact hN n hn
    · rw [omFind_append_one] at hn
      cases ho : omFind ctx.nodes "setup-checkout" with
      | some v =>
          exact absurd ((omFind_isSome_iff _ _).mp (by simp [ho])) hck
      | none =>
          rw [ho] at hn
          simp only at hn
          by_cases hic : id = "setup-checkout"
          · rw [if_pos hic] at hn
            injection hn with hn
            rw [← hn]
            exact hcz hic
          · rw [if_neg hic] at hn
            cases hn
  · intro n hn b hb
    by_cases hck : "setup-checkout" ∈ omKeys ctx.nodes
    · rw [hfold _ hck] at hn
      have hbk : b ∈ omKeys ctx.nodes :=
        (h2 _ (mem_of_omFind hn)).2.2.1 b hb
      exact hpdmono b hbk (hCh n hn b hb)
    · rw [omFind_append_one] at hn
      cases ho : omFind ctx.nodes "setup-checkout" with
      | some v =>
          exact absurd ((omFind_isSome_iff _ _).mp (by simp [ho])) hck
      | none =>
          rw [ho] at hn
          simp only at hn
          by_cases hic : id = "setup-checkout"
          · rw [if_pos hic] at hn
            injection hn with hn
            rw [← hn] at hb
            cases hb
          · rw [if_neg hic] at hn
            cases hn
  · intro k hk
    rw [hkeys]
    simp [hk]
  · exact hpdmono

theorem modPD_BInv (ctx : Ctx) (key : String)
    (g : Option (List String) → Option (List String)) (hg : g none = none)
    (hB : BuilderInv ctx) :
    BuilderInv { ctx with nodes := omMod ctx.nodes key (fun n => { n with pathDeps := g n.pathDeps }) } ∧
    ctxMono ctx { ctx with nodes := omMod ctx.nodes key (fun n => { n with pathDeps := g n.pathDeps }) } := by
  obtain ⟨hW, hN, hCh⟩ := hB
  have hpdmono : ∀ k, pathDepsNone ctx.nodes k →
      pathDepsNone (omMod ctx.nodes key
        (fun n => { n with pathDeps := g n.pathDeps })) k := by
    intro k hn n hn2
    rw [omFind_mod] at hn2
    by_cases hkk : k = key
    · rw [if_pos hkk] at hn2
      cases ho : omFind ctx.nodes k with
      | none => rw [ho] at hn2; cases hn2
      | some n0 =>
          rw [ho] at hn2
          simp only [Option.map_some'] at hn2
          cases hn2
          simp only
          rw [hn n0 ho]
          exact hg
    · rw [if_neg hkk] at hn2
      exact hn n hn2
  have hbefore : ∀ j n, omFind (omMod ctx.nodes key
      (fun n => { n with pathDeps := g n.pathDeps })) j = some n →
      ∃ n0, omFind ctx.nodes j = some n0 ∧ n.before = n0.before := by
    intro j n hn
    rw [omFind_mod] at hn
    by_cases hjk : j = key
    · rw [if_pos hjk] at hn
      cases ho : omFind ctx.nodes j with
      | none => rw [ho] at hn; cases hn
      | some n0 =>
          rw [ho] at hn
          simp only [Option.map_some'] at hn
          cases hn
          exact ⟨n0, rfl, rfl⟩
    · rw [if_neg hjk] at hn
      exact ⟨n, hn, rfl⟩
  refine ⟨⟨?_, ?_, ?_⟩, ?_, ?_⟩
  · rw [omMod_eq_keyMap]
    exact GraphWF_keyMap
      (fun (k : String) (n : Node) =>
        if k = key then { n with pathDeps := g n.pathDeps } else n)
      (fun k n => by by_cases h : k = key <;> simp [h])
      (fun k n => by by_cases h : k = key <;> simp [h])
      ctx.nodes hW
  · exact hpdmono _ hN
  · intro n hn b hb
    obtain ⟨n0, ho, hbeq⟩ := hbefore _ n hn
    rw [hbeq] at hb
    exact hpdmono b (hCh n0 ho b hb)
  · intro k hk
    rw [show omKeys (omMod ctx.nodes key
      (fun n => { n with pathDeps := g n.pathDeps })) = omKeys ctx.nodes
      from omKeys_mod ctx.nodes key _]
    exact hk
  · exact fun k _ hn => hpdmono k hn

theorem addEdgeAll_BInv : ∀ (ps : List String) (ctx : Ctx) (id : String) (ctx' : Ctx),
    BuilderInv ctx → (id = "setup-checkout" → ps = []) →
    addEdgeAll ctx id ps = .ok ctx' → BuilderInv ctx' ∧ ctxMono ctx ctx' := by
  intro ps
  induction ps with
  | nil =>
      intro ctx id ctx' hB _ h
      injection h with h
      subst h
      exact ⟨hB, ctxMono_refl _⟩
  | cons p ps ih =>
      intro ctx id ctx' hB hcz h
      simp only [addEdgeAll] at h
      cases he : addEdge ctx id p with
      | error e => rw [he] at h; cases h
      | ok c1 =>
          rw [he] at h
          obtain ⟨hB1, hM1⟩ := addEdge_BInv ctx c1 id p hB
            (fun hid => absurd (hcz hid) (by simp)) he
          obtain ⟨hB2, hM2⟩ := ih c1 id ctx' hB1
            (fun hid => absurd (hcz hid) (by simp)) h
          exact ⟨hB2, ctxMono_trans hM1 hM2⟩

theorem addNode_BInv (ctx : Ctx) (id : String) (ct : NodeContent)
    (pathIds : List String) (ctx' : Ctx)
    (hB : BuilderInv ctx) (hcz : id = "setup-checkout" → pathIds = [])
    (h : addNode ctx id ct pathIds = .ok ctx') :
    BuilderInv ctx' ∧ ctxMono ctx ctx' ∧ id ∈ omKeys ctx'.nodes ∧
    (pathIds = [] → pathDepsNone ctx.nodes id → pathDepsNone ctx'.nodes id) := by
  unfold addNode at h
  by_cases hex : (omFind ctx.nodes id).isSome
  · rw [if_pos hex] at h
    injection h with h
    subst h
    exact ⟨hB, ctxMono_refl _, (omFind_isSome_iff _ _).mp hex, fun _ hn => hn⟩
  · rw [if_neg hex] at h
    simp only at h
    have hfresh : id ∉ omKeys ctx.nodes := fun hc =>
      hex ((omFind_isSome_iff _ _).mpr hc)
    have hpd0 : id = "setup-checkout" → initialPathDeps pathIds = none := by
      intro hic
      rw [hcz hic]
      rfl
    obtain ⟨hBa, hMa⟩ := appendNode_BInv ctx id ct (initialPathDeps pathIds)
      hB hfresh hpd0
    obtain ⟨hBb, hMb⟩ := addEdgeAll_BInv pathIds _ id ctx' hBa hcz h
    have hidk : id ∈ omKeys ctx'.nodes := by
      refine hMb.1 id ?_
      simp only [omKeys_append]
      simp [omKeys]
    refine ⟨hBb, ctxMono_trans hMa hMb, hidk, ?_⟩
    intro hnil _
    subst hnil
    injection h with h
    subst h
    intro n hn
    rw [omFind_append_one] at hn
    cases ho : omFind ctx.nodes id with
    | some v =>
        exact absurd ((omFind_isSome_iff _ _).mp
          (Option.isSome_iff_exists.mpr ⟨v, ho⟩)) hfresh
    | none =>
        rw [ho] at hn
        simp only [if_pos rfl] at hn
        injection hn with hn
        rw [← hn]
        rfl

theorem addDepsAndEdges_BInv : ∀ (ps : List String) (ctx : Ctx) (key : String)
    (ctx' : Ctx), BuilderInv ctx →
    (∃ n d, omFind ctx.nodes key = some n ∧ n.pathDeps = some d) →
    addDepsAndEdges ctx key ps = .ok ctx' →
    BuilderInv ctx' ∧ ctxMono ctx ctx' := by
  intro ps
  induction ps with
  | nil =>
      intro ctx key ctx' hB _ h
      injection h with h
      subst h
      exact ⟨hB, ctxMono_refl _⟩
  | cons p ps ih =>
      intro ctx key ctx' hB hsome h
      obtain ⟨n0, d0, hf0, hd0⟩ := hsome
      simp only [addDepsAndEdges] at h
      obtain ⟨hB1, hM1⟩ := modPD_BInv ctx key
        (fun pdo => pdo.map (fun d => setInsert d p)) rfl hB
      have hf1 : omFind (omMod ctx.nodes key
          (fun n => { n with pathDeps := n.pathDeps.map (fun d => setInsert d p) })) key
          = some { n0 with pathDeps := some (setInsert d0 p) } := by
        rw [omFind_mod, if_pos rfl, hf0]
        simp [hd0]
      cases he : addEdge { ctx with nodes := omMod ctx.nodes key (fun n => { n with pathDeps := n.pathDeps.map (fun d => setInsert d p) }) } key p with
      | error e => rw [he] at h; cases h
      | ok c2 =>
          rw [he] at h
          have hchk : key = "setup-checkout" →
              pathDepsNone (omMod ctx.nodes key
                (fun n => { n with pathDeps := n.pathDeps.map (fun d => setInsert d p) })) p := by
            intro hkc
            exfalso
            subst hkc
            have h2 := hB1.2.1 _ hf1
            simp at h2
          obtain ⟨hB2, hM2⟩ := addEdge_BInv _ c2 key p hB1 hchk he
          have hf2 : ∃ n d, omFind c2.nodes key = some n ∧ n.pathDeps = some d := by
            obtain ⟨hnodes2, -, -, -⟩ := addEdge_shape _ key p c2 he
            rw [hnodes2]
            simp only
            rw [omFind_addEdgeMap, hf1]
            exact ⟨_, _, rfl, rfl⟩
          obtain ⟨hB3, hM3⟩ := ih c2 key ctx' hB2 hf2 h
          exact ⟨hB3, ctxMono_trans hM1 (ctxMono_trans hM2 hM3)⟩

theorem propagateListGo_BInv (f : Ctx → String → List String → Except Err Ctx)
    (hf : ∀ ctx key pathIds ctx', BuilderInv ctx → f ctx key pathIds = .ok ctx' →
      BuilderInv ctx' ∧ ctxMono ctx ctx') :
    ∀ (ks : List String) (ctx : Ctx) (pathIds : List String) (ctx' : Ctx),
      BuilderInv ctx → propagateListGo f ctx ks pathIds = .ok ctx' →
      BuilderInv ctx' ∧ ctxMono ctx ctx' := by
  intro ks
  induction ks with
  | nil =>
      intro ctx pathIds ctx' hB h
      injection h with h
      subst h
      exact ⟨hB, ctxMono_refl _⟩
  | cons k ks ih =>
      intro ctx pathIds ctx' hB h
      simp only [propagateListGo] at h
      cases he : f ctx k pathIds with
      | error e => rw [he] at h; cases h
      | ok c1 =>
          rw [he] at h
          obtain ⟨hB1, hM1⟩ := hf ctx k pathIds c1 hB he
          obtain ⟨hB2, hM2⟩ := ih c1 pathIds ctx' hB1 h
          exact ⟨hB2, ctxMono_trans hM1 hM2⟩

theorem propagatePaths_BInv : ∀ (fuel : Nat) (ctx : Ctx) (key : String)
    (pathIds : List String) (ctx' : Ctx),
    BuilderInv ctx → propagatePaths fuel ctx key pathIds = .ok ctx' →
    BuilderInv ctx' ∧ ctxMono ctx ctx' ∧
    (pathIds = [] → pathDepsNone ctx'.nodes key) := by
  intro fuel
  induction fuel with
  | zero => intro ctx key pathIds ctx' _ h; cases h
  | succ fuel ih =>
      intro ctx key pathIds ctx' hB h
      simp only [propagatePaths] at h
      cases hf0 : omFind ctx.nodes key with
      | none => rw [hf0] at h; cases h
      | some nd =>
          rw [hf0] at h
          simp only at h
          have hkk : key ∈ omKeys ctx.nodes :=
            (omFind_isSome_iff _ _).mp (Option.isSome_iff_exists.mpr ⟨nd, hf0⟩)
          by_cases hnil : pathIds.isEmpty
          · rw [if_pos hnil] at h
            have hnil2 : pathIds = [] := List.isEmpty_iff.mp hnil
            obtain ⟨hB1, hM1⟩ := modPD_BInv ctx key (fun _ => none) rfl hB
            have hnull1 : pathDepsNone (omMod ctx.nodes key
                (fun n => { n with pathDeps := (fun _ => none) n.pathDeps })) key := by
              intro n hn
              rw [omFind_mod, if_pos rfl, hf0] at hn
              simp only [Option.map_some'] at hn
              cases hn
              rfl
            simp only at h
            cases hf1 : omFind (omMod ctx.nodes key
                (fun n => { n with pathDeps := none })) key with
            | none => rw [hf1] at h; cases h
            | some nd1 =>
                rw [hf1] at h
                simp only at h
                obtain ⟨hB2, hM2⟩ :=
                  propagateListGo_BInv (propagatePaths fuel)
                    (fun c k pi c' hBc hc => ⟨(ih c k pi c' hBc hc).1,
                      (ih c k pi c' hBc hc).2.1⟩)
                    nd1.before _ pathIds ctx' hB1 h
                refine ⟨hB2, ctxMono_trans hM1 hM2, fun _ => ?_⟩
                refine hM2.2 key ?_ hnull1
                rw [omKeys_mod]
                exact hkk
          · rw [if_neg hnil] at h
            have hnil2 : pathIds ≠ [] := by
              intro hc
              rw [hc] at hnil
              exact hnil rfl
            cases hdep : nd.pathDeps with
            | none =>
                rw [hdep] at h
                simp only at h
                cases hf1 : omFind ctx.nodes key with
                | none => rw [hf1] at h; cases h
                | some nd1 =>
                    rw [hf1] at h
                    simp only at h
                    obtain ⟨hB2, hM2⟩ :=
                      propagateListGo_BInv (propagatePaths fuel)
                        (fun c k pi c' hBc hc => ⟨(ih c k pi c' hBc hc).1,
                          (ih c k pi c' hBc hc).2.1⟩)
                        nd1.before _ pathIds ctx' hB h
                    exact ⟨hB2, hM2, fun hc => absurd hc hnil2⟩
            | some d =>
                rw [hdep] at h
                simp only at h
                cases hstep : addDepsAndEdges ctx key pathIds with
                | error e => rw [hstep] at h; cases h
                | ok ctx1 =>
                    rw [hstep] at h
                    simp only at h
                    obtain ⟨hB1, hM1⟩ := addDepsAndEdges_BInv pathIds ctx key ctx1
                      hB ⟨nd, d, hf0, hdep⟩ hstep
                    cases hf1 : omFind ctx1.nodes key with
                    | none => rw [hf1] at h; cases h
                    | some nd1 =>
                        rw [hf1] at h
                        simp only at h
                        obtain ⟨hB2, hM2⟩ :=
                          propagateListGo_BInv (propagatePaths fuel)
                            (fun c k pi c' hBc hc => ⟨(ih c k pi c' hBc hc).1,
                              (ih c k pi c' hBc hc).2.1⟩)
                            nd1.before _ pathIds ctx' hB1 h
                        exact ⟨hB2, ctxMono_trans hM1 hM2,
                          fun hc => absurd hc hnil2⟩

theorem processSetupListGo_BInv
    (f : Ctx → String → List String → Except Err (String × Ctx))
    (hf : ∀ ctx sid pathIds res, BuilderInv ctx → f ctx sid pathIds = .ok res →
      BuilderInv res.2 ∧ ctxMono ctx res.2 ∧ res.1 ∈ omKeys res.2.nodes ∧
      (pathIds = [] → pathDepsNone res.2.nodes res.1)) :
    ∀ (sids : List String) (ctx : Ctx) (parentKey : String)
      (pathIds : List String) (ctx' : Ctx),
      BuilderInv ctx → (parentKey = "setup-checkout" → pathIds = []) →
      processSetupListGo f ctx parentKey sids pathIds = .ok ctx' →
      BuilderInv ctx' ∧ ctxMono ctx ctx' := by
  intro sids
  induction sids with
  | nil =>
      intro ctx parentKey pathIds ctx' hB _ h
      injection h with h
      subst h
      exact ⟨hB, ctxMono_refl _⟩
  | cons sid rest ih =>
      intro ctx parentKey pathIds ctx' hB hpc h
      simp only [processSetupListGo] at h
      cases he : f ctx sid pathIds with
      | error e => rw [he] at h; cases h
      | ok res =>
          rw [he] at h
          simp only at h
          obtain ⟨childKey, ctx1⟩ := res
          obtain ⟨hB1, hM1, hck, hcn⟩ := hf ctx sid pathIds (childKey, ctx1) hB he
          cases he2 : addEdge ctx1 parentKey childKey with
          | error e => rw [he2] at h; cases h
          | ok ctx2 =>
              rw [he2] at h
              obtain ⟨hB2, hM2⟩ := addEdge_BInv ctx1 ctx2 parentKey childKey hB1
                (fun hpk => hcn (hpc hpk)) he2
              obtain ⟨hB3, hM3⟩ := ih ctx2 parentKey pathIds ctx' hB2 hpc h
              exact ⟨hB3, ctxMono_trans hM1 (ctxMono_trans hM2 hM3)⟩

theorem addSetup_BInv : ∀ (fuel : Nat) (ctx : Ctx) (sid : String)
    (pathIds0 : List String) (res : String × Ctx),
    BuilderInv ctx → addSetup fuel ctx sid pathIds0 = .ok res →
    BuilderInv res.2 ∧ ctxMono ctx res.2 ∧ res.1 ∈ omKeys res.2.nodes ∧
    (pathIds0 = [] → pathDepsNone res.2.nodes res.1) := by
  intro fuel
  induction fuel with
  | zero => intro ctx sid pathIds0 res _ h; cases h
  | succ fuel ih =>
      intro ctx sid pathIds0 res hB h
      simp only [addSetup] at h
      by_cases hex : (omFind ctx.nodes ("setup-" ++ sid)).isSome
      · rw [if_pos hex] at h
        cases hp : propagatePaths fuel ctx ("setup-" ++ sid)
            (if "setup-" ++ sid = "setup-checkout" then [] else pathIds0) with
        | error e => rw [hp] at h; cases h
        | ok ctx1 =>
            rw [hp] at h
            injection h with h
            subst h
            obtain ⟨hB1, hM1, hnull⟩ := propagatePaths_BInv fuel ctx _ _ ctx1 hB hp
            refine ⟨hB1, hM1, hM1.1 _ ((omFind_isSome_iff _ _).mp hex), ?_⟩
            intro h0
            refine hnull ?_
            subst h0
            by_cases hck : "setup-" ++ sid = "setup-checkout" <;> simp [hck]
      · rw [if_neg hex] at h
        cases ha : addNode ctx ("setup-" ++ sid)
            (.setup (omFind ctx.setupSteps sid))
            (if "setup-" ++ sid = "setup-checkout" then [] else pathIds0) with
        | error e => rw [ha] at h; cases h
        | ok ctx1 =>
            rw [ha] at h
            simp only at h
            have hcz : "setup-" ++ sid = "setup-checkout" →
                (if "setup-" ++ sid = "setup-checkout" then [] else pathIds0) = [] := by
              intro hc
              rw [if_pos hc]
            obtain ⟨hB1, hM1, hkk, hnull1⟩ :=
              addNode_BInv ctx ("setup-" ++ sid) _ _ ctx1 hB hcz ha
            have hnull1' : pathIds0 = [] → pathDepsNone ctx1.nodes ("setup-" ++ sid) := by
              intro h0
              refine hnull1 ?_ ?_
              · subst h0
                by_cases hck : "setup-" ++ sid = "setup-checkout" <;> simp [hck]
              · exact pathDepsNone_of_absent
                  (fun hc => hex ((omFind_isSome_iff _ _).mpr hc))
            cases hs : omFind ctx.setupSteps sid with
            | none => rw [hs] at h; cases h
            | some sp =>
                rw [hs] at h
                cases sp with
                | steps arr =>
                    simp only at h
                    injection h with h
                    subst h
                    exact ⟨hB1, hM1, hkk, hnull1'⟩
                | config sref stp =>
                    simp only at h
                    cases hg : processSetupListGo (addSetup fuel) ctx1
                        ("setup-" ++ sid) (setupList sref)
                        (if "setup-" ++ sid = "setup-checkout" then [] else pathIds0) with
                    | error e => rw [hg] at h; cases h
                    | ok ctx2 =>
                        rw [hg] at h
                        injection h with h
                        subst h
                        obtain ⟨hB2, hM2⟩ := processSetupListGo_BInv (addSetup fuel)
                          (fun c s pi r hBc hc => ih c s pi r hBc hc)
                          (setupList sref) ctx1 ("setup-" ++ sid) _ ctx2 hB1 hcz hg
                        refine ⟨hB2, ctxMono_trans hM1 hM2, hM2.1 _ hkk, ?_⟩
                        intro h0
                        exact hM2.2 _ hkk (hnull1' h0)

theorem processSetup_BInv (fuel : Nat) (ctx : Ctx) (parentKey : String)
    (sref : Option StrOrList) (pathIds : List String) (ctx' : Ctx)
    (hB : BuilderInv ctx) (hpc : parentKey = "setup-checkout" → pathIds = [])
    (h : processSetup fuel ctx parentKey sref pathIds = .ok ctx') :
    BuilderInv ctx' ∧ ctxMono ctx ctx' := by
  cases fuel with
  | zero => cases h
  | succ fuel =>
      simp only [processSetup] at h
      exact processSetupListGo_BInv (addSetup fuel)
        (fun c s pi r hBc hc => addSetup_BInv fuel c s pi r hBc hc)
        (setupList sref) ctx parentKey pathIds ctx' hB hpc h

theorem addPaths_BInv (ctx : Ctx) (paths : StrOrList) (ctx' : Ctx) (pid : String)
    (hB : BuilderInv ctx) (h : addPaths ctx paths = .ok (ctx', pid)) :
    BuilderInv ctx' ∧ ctxMono ctx ctx' := by
  simp only [addPaths] at h
  split at h
  · cases h
  · rename_i ctx1 ha
    injection h with h
    have hc : ctx1 = ctx' := congrArg Prod.fst h
    subst hc
    obtain ⟨hB1, hM1, -, -⟩ := addNode_BInv ctx _ _ [] ctx1 hB (fun _ => rfl) ha
    exact ⟨hB1, hM1⟩

theorem stepOpFn_BInv (fuel : Nat) (ctx : Ctx) (i : Nat) (step : Step) (ctx' : Ctx)
    (hB : BuilderInv ctx) (h : stepOpFn fuel ctx i step = .ok ctx') :
    BuilderInv ctx' ∧ ctxMono ctx ctx' := by
  simp only [stepOpFn] at h
  split at h
  · cases h
  · rename_i ctx1 pathIds heq
    have hpre : BuilderInv ctx1 ∧ ctxMono ctx ctx1 := by
      split at heq
      · injection heq with heq
        have hc : ctx = ctx1 := congrArg Prod.fst heq
        rw [← hc]
        exact ⟨hB, ctxMono_refl _⟩
      · split at heq
        · injection heq with heq
          have hc : ctx = ctx1 := congrArg Prod.fst heq
          rw [← hc]
          exact ⟨hB, ctxMono_refl _⟩
        · split at heq
          · cases heq
          · rename_i c1 pid hap
            injection heq with heq
            have hc : c1 = ctx1 := congrArg Prod.fst heq
            rw [← hc]
            exact addPaths_BInv ctx _ c1 pid hB hap
    obtain ⟨hB1, hM1⟩ := hpre
    cases ha : addNode ctx1 ("step-" ++ toString i) (.step (stripStep step)) pathIds with
    | error e => rw [ha] at h; cases h
    | ok ctx2 =>
        rw [ha] at h
        simp only at h
        obtain ⟨hB2, hM2, -, -⟩ := addNode_BInv ctx1 _ _ pathIds ctx2 hB1
          (fun hc => absurd hc (step_key_ne_checkout _)) ha
        cases hp : processSetup fuel ctx2 ("step-" ++ toString i) step.setup pathIds with
        | error e => rw [hp] at h; cases h
        | ok ctx3 =>
            rw [hp] at h
            simp only at h
            obtain ⟨hB3, hM3⟩ := processSetup_BInv fuel ctx2 _ step.setup pathIds ctx3
              hB2 (fun hc => absurd hc (step_key_ne_checkout _)) hp
            by_cases hi : i = 0
            · rw [if_pos hi] at h
              injection h with h
              subst h
              exact ⟨hB3, ctxMono_trans hM1 (ctxMono_trans hM2 hM3)⟩
            · rw [if_neg hi] at h
              obtain ⟨hB4, hM4⟩ := addEdge_BInv ctx3 ctx' _ _ hB3
                (fun hc => absurd hc (step_key_ne_checkout _)) h
              exact ⟨hB4, ctxMono_trans hM1
                (ctxMono_trans hM2 (ctxMono_trans hM3 hM4))⟩

theorem buildSteps_BInv : ∀ (steps : List Step) (fuel : Nat) (ctx : Ctx) (i : Nat)
    (ctx' : Ctx), BuilderInv ctx → (buildSteps fuel ctx steps i).2 = .ok ctx' →
    BuilderInv ctx' ∧ ctxMono ctx ctx' := by
  intro steps
  induction steps with
  | nil =>
      intro fuel ctx i ctx' hB h
      injection h with h
      subst h
      exact ⟨hB, ctxMono_refl _⟩
  | cons s rest ih =>
      intro fuel ctx i ctx' hB h
      simp only [buildSteps] at h
      cases he : stepOpFn fuel ctx i s with
      | error e => rw [he] at h; cases h
      | ok ctx1 =>
          rw [he] at h
          simp only at h
          obtain ⟨hB1, hM1⟩ := stepOpFn_BInv fuel ctx i s ctx1 hB he
          obtain ⟨hB2, hM2⟩ := ih fuel ctx1 (i + 1) ctx' hB1 h
          exact ⟨hB2, ctxMono_trans hM1 hM2⟩

theorem checkoutEdgesList_BInv : ∀ (ks : List String) (ctx : Ctx) (ctx' : Ctx),
    BuilderInv ctx → checkoutEdgesList ctx ks = .ok ctx' →
    BuilderInv ctx' ∧ ctxMono ctx ctx' := by
  intro ks
  induction ks with
  | nil =>
      intro ctx ctx' hB h
      injection h with h
      subst h
      exact ⟨hB, ctxMono_refl _⟩
  | cons k ks ih =>
      intro ctx ctx' hB h
      simp only [checkoutEdgesList] at h
      cases hf : omFind ctx.nodes k with
      | none =>
          rw [hf] at h
          exact ih ctx ctx' hB h
      | some nd =>
          rw [hf] at h
          simp only at h
          by_cases hip : contentsIsPaths nd.contents
          · rw [if_pos hip] at h
            by_cases hck : (omFind ctx.nodes "setup-checkout").isSome
            · rw [if_pos hck] at h
              cases he : addEdge ctx k "setup-checkout" with
              | error e => rw [he] at h; cases h
              | ok c1 =>
                  rw [he] at h
                  obtain ⟨hB1, hM1⟩ := addEdge_BInv ctx c1 k "setup-checkout" hB
                    (fun _ => hB.2.1) he
                  obtain ⟨hB2, hM2⟩ := ih c1 ctx' hB1 h
                  exact ⟨hB2, ctxMono_trans hM1 hM2⟩
            · rw [if_neg hck] at h
              cases h
          · rw [if_neg hip] at h
            exact ih ctx ctx' hB h

theorem addCheckoutEdges_BInv (ctx ctx' : Ctx) (hB : BuilderInv ctx)
    (h : addCheckoutEdges ctx = .ok ctx') : BuilderInv ctx' ∧ ctxMono ctx ctx' := by
  exact checkoutEdgesList_BInv (omKeys ctx.nodes) ctx ctx' hB h

theorem reach_BInv (fuel : Nat) (setups : OM Setup) (ctx : Ctx)
    (h : Reach fuel setups ctx) : BuilderInv ctx := by
  induction h with
  | init =>
      refine ⟨⟨List.nodup_nil, ?_, ?_⟩, ?_, ?_⟩
      · intro p hp; cases hp
      · intro p hp; cases hp
      · intro n hn; cases hn
      · intro n hn; cases hn
  | buildPhase ctx steps i ctx' _ heq ih =>
      exact (buildSteps_BInv steps fuel ctx i ctx' ih heq).1
  | jobSetup ctx sref ctx' _ heq ih =>
      exact (processSetup_BInv fuel ctx "step-0" sref [] ctx' ih
        (fun _ => rfl) heq).1
  | checkoutPhase ctx ctx' _ heq ih =>
      exact (addCheckoutEdges_BInv ctx ctx' ih heq).1

theorem addEdge_mono (ctx ctx' : Ctx) (p c : String)
    (h : addEdge ctx p c = .ok ctx') : ctxMono ctx ctx' := by
  obtain ⟨hnodes, -, -, -⟩ := addEdge_shape ctx p c ctx' h
  constructor
  · intro k hk
    rw [hnodes, omKeys_addEdgeMap]
    exact hk
  · intro k _ hn
    rw [hnodes]
    exact (pathDepsNone_addEdgeMap p c ctx.nodes k).mpr hn

theorem modPD_mono (ctx : Ctx) (key : String)
    (g : Option (List String) → Option (List String)) (hg : g none = none) :
    ctxMono ctx { ctx with nodes := omMod ctx.nodes key (fun n => { n with pathDeps := g n.pathDeps }) } := by
  constructor
  · intro k hk
    rw [show omKeys (omMod ctx.nodes key
      (fun n => { n with pathDeps := g n.pathDeps })) = omKeys ctx.nodes
      from omKeys_mod ctx.nodes key _]
    exact hk
  · intro k _ hn n hn2
    rw [omFind_mod] at hn2
    by_cases hkk : k = key
    · rw [if_pos hkk] at hn2
      cases ho : omFind ctx.nodes k with
      | none => rw [ho] at hn2; cases hn2
      | some n0 =>
          rw [ho] at hn2
          simp only [Option.map_some'] at hn2
          cases hn2
          simp only
          rw [hn n0 ho]
          exact hg
    · rw [if_neg hkk] at hn2
      exact hn n hn2

theorem addDepsAndEdges_mono : ∀ (ps : List String) (ctx : Ctx) (key : String)
    (ctx' : Ctx), addDepsAndEdges ctx key ps = .ok ctx' → ctxMono ctx ctx' := by
  intro ps
  induction ps with
  | nil =>
      intro ctx key ctx' h
      injection h with h
      subst h
      exact ctxMono_refl _
  | cons p ps ih =>
      intro ctx key ctx' h
      simp only [addDepsAndEdges] at h
      cases he : addEdge { ctx with nodes := omMod ctx.nodes key (fun n => { n with pathDeps := n.pathDeps.map (fun d => setInsert d p) }) } key p with
      | error e => rw [he] at h; cases h
      | ok c2 =>
          rw [he] at h
          exact ctxMono_trans
            (modPD_mono ctx key (fun pdo => pdo.map (fun d => setInsert d p)) rfl)
            (ctxMono_trans (addEdge_mono _ c2 key p he) (ih c2 key ctx' h))

theorem propagateListGo_mono (f : Ctx → String → List String → Except Err Ctx)
    (hf : ∀ ctx key pathIds ctx', f ctx key pathIds = .ok ctx' → ctxMono ctx ctx') :
    ∀ (ks : List String) (ctx : Ctx) (pathIds : List String) (ctx' : Ctx),
      propagateListGo f ctx ks pathIds = .ok ctx' → ctxMono ctx ctx' := by
  intro ks
  induction ks with
  | nil =>
      intro ctx pathIds ctx' h
      injection h with h
      subst h
      exact ctxMono_refl _
  | cons k ks ih =>
      intro ctx pathIds ctx' h
      simp only [propagateListGo] at h
      cases he : f ctx k pathIds with
      | error e => rw [he] at h; cases h
      | ok c1 =>
          rw [he] at h
          exact ctxMono_trans (hf ctx k pathIds c1 he) (ih c1 pathIds ctx' h)

theorem propagatePaths_mono : ∀ (fuel : Nat) (ctx : Ctx) (key : String)
    (pathIds : List String) (ctx' : Ctx),
    propagatePaths fuel ctx key pathIds = .ok ctx' → ctxMono ctx ctx' := by
  intro fuel
  induction fuel with
  | zero => intro ctx key pathIds ctx' h; cases h
  | succ fuel ih =>
      intro ctx key pathIds ctx' h
      simp only [propagatePaths] at h
      cases hf0 : omFind ctx.nodes key with
      | none => rw [hf0] at h; cases h
      | some nd =>
          rw [hf0] at h
          simp only at h
          by_cases hnil : pathIds.isEmpty
          · rw [if_pos hnil] at h
            simp only at h
            cases hf1 : omFind (omMod ctx.nodes key
                (fun n => { n with pathDeps := none })) key with
            | none => rw [hf1] at h; cases h
            | some nd1 =>
                rw [hf1] at h
                simp only at h
                exact ctxMono_trans (modPD_mono ctx key (fun _ => none) rfl)
                  (propagateListGo_mono (propagatePaths fuel)
                    (fun c k pi c' hc => ih c k pi c' hc) nd1.before _ pathIds ctx' h)
          · rw [if_neg hnil] at h
            cases hdep : nd.pathDeps with
            | none =>
                rw [hdep] at h
                simp only at h
                cases hf1 : omFind ctx.nodes key with
                | none => rw [hf1] at h; cases h
                | some nd1 =>
                    rw [hf1] at h
                    simp only at h
                    exact propagateListGo_mono (propagatePaths fuel)
                      (fun c k pi c' hc => ih c k pi c' hc) nd1.before _ pathIds ctx' h
            | some d =>
                rw [hdep] at h
                simp only at h
                cases hstep : addDepsAndEdges ctx key pathIds with
                | error e => rw [hstep] at h; cases h
                | ok ctx1 =>
                    rw [hstep] at h
                    simp only at h
                    cases hf1 : omFind ctx1.nodes key with
                    | none => rw [hf1] at h; cases h
                    | some nd1 =>
                        rw [hf1] at h
                        simp only at h
                        exact ctxMono_trans
                          (addDepsAndEdges_mono pathIds ctx key ctx1 hstep)
                          (propagateListGo_mono (propagatePaths fuel)
                            (fun c k pi c' hc => ih c k pi c' hc)
                            nd1.before _ pathIds ctx' h)

/-- C9: in every graph state the compiler can reach, the `before`/`after`
adjacency maps are mutually consistent; `addEdge` preserves the invariant
on any consistent state, and so does the paired half-edge deletion
performed inside `kahnsAlgorithm`. -/
theorem c9_adjacency_consistent :
    (∀ (fuel : Nat) (setups : OM Setup) (ctx : Ctx), Reach fuel setups ctx →
      edgeConsistent ctx.nodes) ∧
    (∀ (ctx ctx' : Ctx) (p c : String), edgeConsistent ctx.nodes →
      addEdge ctx p c = .ok ctx' → edgeConsistent ctx'.nodes) ∧
    (∀ (nodes : OM Node) (nodeId a : String), edgeConsistent nodes →
      edgeConsistent (kahnRemoveEdge nodes nodeId a)) := by
  refine ⟨?_, ?_, ?_⟩
  · intro fuel setups ctx h
    exact (reach_BInv fuel setups ctx h).1.2.2
  · intro ctx ctx' p c hC h
    exact addEdge_consistent ctx p c ctx' hC h
  · intro nodes nodeId a hC
    exact kahnRemoveEdge_consistent nodes nodeId a hC

/-- Witness for C9 at concrete states: a built two-step job graph, a
concrete `addEdge` call, and a concrete Kahn edge removal. -/
theorem c9_witness :
    edgeConsistent ((buildSteps 4 { nodes := [], setupSteps := [("s", Setup.steps [])] } [{ setup := some (.inl "s") }] 0).2.toOption.getD { nodes := [], setupSteps := [] }).nodes ∧
    edgeConsistent ((addEdge { nodes := exGraph, setupSteps := [] } "step-0" "setup-a").toOption.getD { nodes := [], setupSteps := [] }).nodes ∧
    edgeConsistent (kahnRemoveEdge exGraph "setup-a" "step-0") := by
  refine ⟨?_, ?_, ?_⟩
  · exact c9_adjacency_consistent.1 4 [("s", Setup.steps [])] _
      (Reach.buildPhase _ [{ setup := some (.inl "s") }] 0 _ Reach.init rfl)
  · exact c9_adjacency_consistent.2.1 { nodes := exGraph, setupSteps := [] } _
      "step-0" "setup-a" (by decide) rfl
  · exact c9_adjacency_consistent.2.2 exGraph "setup-a" "step-0" (by decide)

/-- C3: in every reachable graph state, the `checkout` setup node carries
no path-condition set, and neither does any node it depends on; path
propagation never puts a condition on a condition-free node (so a
propagation pass that reaches `checkout` leaves it and its dependencies
unconditional); and a step emitted under a `null` condition set carries no
derived `if`. -/
theorem c3_checkout_unconditional :
    (∀ (fuel : Nat) (setups : OM Setup) (ctx : Ctx), Reach fuel setups ctx →
      pathDepsNone ctx.nodes "setup-checkout" ∧
      (∀ n, omFind ctx.nodes "setup-checkout" = some n →
        ∀ b ∈ n.before, pathDepsNone ctx.nodes b)) ∧
    (∀ (fuel : Nat) (ctx : Ctx) (key : String) (pathIds : List String) (ctx' : Ctx),
      propagatePaths fuel ctx key pathIds = .ok ctx' →
      ∀ k, k ∈ omKeys ctx.nodes → pathDepsNone ctx.nodes k →
        pathDepsNone ctx'.nodes k) ∧
    (∀ (ids : OM String) (st : Step), maybeAddIf (compileIf none ids) st = st) := by
  refine ⟨?_, ?_, ?_⟩
  · intro fuel setups ctx h
    have hB := reach_BInv fuel setups ctx h
    exact ⟨hB.2.1, hB.2.2⟩
  · intro fuel ctx key pathIds ctx' h k hk hn
    exact (propagatePaths_mono fuel ctx key pathIds ctx' h).2 k hk hn
  · intro ids st
    rfl

/-- Witness for C3: a built job whose `checkout` setup depends on a nested
`git` setup, a concrete propagation pass over that graph, and a concrete
emission under a `null` condition set. -/
theorem c3_witness :
    (pathDepsNone ((buildSteps 4 { nodes := [], setupSteps := [("checkout", Setup.config (some (.inl "git")) (some [])), ("git", Setup.steps [])] } [{ setup := some (.inl "checkout") }] 0).2.toOption.getD { nodes := [], setupSteps := [] }).nodes "setup-checkout" ∧
      (∀ n, omFind ((buildSteps 4 { nodes := [], setupSteps := [("checkout", Setup.config (some (.inl "git")) (some [])), ("git", Setup.steps [])] } [{ setup := some (.inl "checkout") }] 0).2.toOption.getD { nodes := [], setupSteps := [] }).nodes "setup-checkout" = some n →
        ∀ b ∈ n.before, pathDepsNone ((buildSteps 4 { nodes := [], setupSteps := [("checkout", Setup.config (some (.inl "git")) (some [])), ("git", Setup.steps [])] } [{ setup := some (.inl "checkout") }] 0).2.toOption.getD { nodes := [], setupSteps := [] }).nodes b)) ∧
    pathDepsNone ((propagatePaths 3 ((buildSteps 4 { nodes := [], setupSteps := [("checkout", Setup.config (some (.inl "git")) (some [])), ("git", Setup.steps [])] } [{ setup := some (.inl "checkout") }] 0).2.toOption.getD { nodes := [], setupSteps := [] }) "setup-checkout" ["p"]).toOption.getD { nodes := [], setupSteps := [] }).nodes "setup-checkout" ∧
    maybeAddIf (compileIf none []) ({ } : Step) = ({ } : Step) := by
  refine ⟨c3_checkout_unconditional.1 4
      [("checkout", Setup.config (some (.inl "git")) (some [])), ("git", Setup.steps [])] _
      (Reach.buildPhase _ [{ setup := some (.inl "checkout") }] 0 _ Reach.init rfl),
    ?_, c3_checkout_unconditional.2.2 [] { }⟩
  exact c3_checkout_unconditional.2.1 3
    ((buildSteps 4 { nodes := [], setupSteps := [("checkout", Setup.config (some (.inl "git")) (some [])), ("git", Setup.steps [])] } [{ setup := some (.inl "checkout") }] 0).2.toOption.getD { nodes := [], setupSteps := [] })
    "setup-checkout" ["p"]
    ((propagatePaths 3 ((buildSteps 4 { nodes := [], setupSteps := [("checkout", Setup.config (some (.inl "git")) (some [])), ("git", Setup.steps [])] } [{ setup := some (.inl "checkout") }] 0).2.toOption.getD { nodes := [], setupSteps := [] }) "setup-checkout" ["p"]).toOption.getD { nodes := [], setupSteps := [] })
    rfl
    "setup-checkout" (by decide)
    (c3_checkout_unconditional.1 4
      [("checkout", Setup.config (some (.inl "git")) (some [])), ("git", Setup.steps [])] _
      (Reach.buildPhase _ [{ setup := some (.inl "checkout") }] 0 _ Reach.init rfl)).1

end WPre
